import Mathlib

/-!
# The nihstro shader assembler (`assembler.cpp`)

A shallow embedding of the statement pass of `main` in `assembler.cpp` and of the
helper types it uses, followed by theorems about the per-instruction validation,
the swizzle-pattern table, the label and symbol tables and the entry point.

Conventions of the embedding.

* A C array of four elements is an `Array4`; `a[i]` is `a.get i` and `a[i] = v` is
  `a.set i v`.  Every index the source uses is below 4 for the values the grammar can
  produce; `get` and `set` are defined for larger indices only to be total.
* `throw` aborts `main`; a statement step returns either the new state or the thrown
  error together with the state at the moment of the throw.
* A local variable the source never initialises (`out` in `EvaluateExpression`,
  `input_mask_src2` for one-source opcodes) gets its contents from an explicit
  argument, so every theorem holds for all contents.
* `shader_bytecode.h` and `shader_binary.h` are not among the sources.  What `main`
  needs from them (opcode metadata, the `Instruction` and `SwizzlePattern` words, the
  header sizes) is either modelled from the specification or taken as an argument; each
  such definition says so.
* The counters `program_write_offset`, `symbol_table_index` and `write_offset` are
  `uint32_t`; they count statements and bytes of one input file and are embedded as
  natural numbers.
-/

namespace Nihstro

/-! ## Arrays of four elements -/

/-- A C array `T a[4]`. -/
structure Array4 (α : Type) where
  e0 : α
  e1 : α
  e2 : α
  e3 : α
  deriving DecidableEq, Repr

/-- The read `a[i]`. -/
def Array4.get {α : Type} (a : Array4 α) : Nat → α
  | 0 => a.e0
  | 1 => a.e1
  | 2 => a.e2
  | _ => a.e3

/-- The write `a[i] = v`. -/
def Array4.set {α : Type} (a : Array4 α) (i : Nat) (v : α) : Array4 α :=
  match i with
  | 0 => { a with e0 := v }
  | 1 => { a with e1 := v }
  | 2 => { a with e2 := v }
  | 3 => { a with e3 := v }
  | _ => a

/-! ## Types declared in `shader_bytecode.h` -/

/-- Register classes named by `main` (`Instruction::Input`, `Instruction::Output`,
`Instruction::Temporary`, `Instruction::FloatUniform`). -/
inductive RegisterType where
  | Input
  | Output
  | Temporary
  | FloatUniform
  deriving DecidableEq, Repr

/-- The opcodes the instruction grammar can produce (the thirteen entries of
`InstructionParser::opcodes`). -/
inductive OpCode where
  | RET | FLUSH | CALL
  | MOV | RCP | RSQ
  | ADD | MUL | DP3 | DP4 | MAX | MIN
  | CMP
  deriving DecidableEq, Repr

/-- Opcode categories: `main` distinguishes `OpCodeType::Arithmetic` from everything
else (the `default:` branch of its switch). -/
inductive OpCodeType where
  | Arithmetic
  | Other
  deriving DecidableEq, Repr

/-- Result of `OpCode::GetInfo()`, as far as `main` reads it. -/
structure OpCodeInfo where
  type : OpCodeType
  num_arguments : Nat
  deriving DecidableEq, Repr

/-- Modelled from the spec: the opcode metadata table `OpCode::GetInfo()` of
`shader_bytecode.h`.  The specification gives the category (arithmetic for
mov/rcp/rsq/add/mul/dp3/dp4/max/min/cmp, other for ret/flush/call) and the required
argument count (the arity of the mnemonic: 0, 1, 2, 3 or 4). -/
def GetInfo : OpCode → OpCodeInfo
  | .RET   => ⟨.Other, 0⟩
  | .FLUSH => ⟨.Other, 0⟩
  | .CALL  => ⟨.Other, 1⟩
  | .MOV   => ⟨.Arithmetic, 2⟩
  | .RCP   => ⟨.Arithmetic, 2⟩
  | .RSQ   => ⟨.Arithmetic, 2⟩
  | .ADD   => ⟨.Arithmetic, 3⟩
  | .MUL   => ⟨.Arithmetic, 3⟩
  | .DP3   => ⟨.Arithmetic, 3⟩
  | .DP4   => ⟨.Arithmetic, 3⟩
  | .MAX   => ⟨.Arithmetic, 3⟩
  | .MIN   => ⟨.Arithmetic, 3⟩
  | .CMP   => ⟨.Arithmetic, 4⟩

/-- Modelled from the spec: the `Instruction` word of `shader_bytecode.h`, as the
fields `main` assigns.  `shinst.hex = 0` clears every field; a register field is
`none` while it still holds those zero bits and `some (type, index)` once
`InitializeFromTypeAndIndex(type, index)` has been called on it. -/
structure Instruction where
  opcode : OpCode
  dest : Option (RegisterType × Nat)
  src1 : Option (RegisterType × Nat)
  src2 : Option (RegisterType × Nat)
  operand_desc_id : Nat
  deriving DecidableEq, Repr

/-- Modelled from the spec: the `SwizzlePattern` word of `shader_bytecode.h`, as the
fields written by `SetDestComponentEnabled`, `SetSelectorSrc1` and `SetSelectorSrc2`:
four destination flags and four two-bit selectors per source.  The word `hex` is the
packing of exactly these fields, so `a.hex == b.hex` is equality of the records. -/
structure SwizzlePattern where
  dest_mask : Array4 Bool
  selector_src1 : Array4 Nat
  selector_src2 : Array4 Nat
  deriving DecidableEq, Repr

/-- The pattern after `swizzle_pattern.hex = 0`. -/
def SwizzlePattern.zero : SwizzlePattern :=
  ⟨⟨false, false, false, false⟩, ⟨0, 0, 0, 0⟩, ⟨0, 0, 0, 0⟩⟩

/-- Modelled from the spec: `SetDestComponentEnabled(i, enabled)`. -/
def SwizzlePattern.SetDestComponentEnabled (p : SwizzlePattern) (i : Nat) (enabled : Bool) :
    SwizzlePattern :=
  { p with dest_mask := p.dest_mask.set i enabled }

/-- Modelled from the spec: `SetSelectorSrc1(i, value)`; the field holds one of the
four selectors x, y, z, w (two bits). -/
def SwizzlePattern.SetSelectorSrc1 (p : SwizzlePattern) (i : Nat) (value : Nat) : SwizzlePattern :=
  { p with selector_src1 := p.selector_src1.set i (value % 4) }

/-- Modelled from the spec: `SetSelectorSrc2(i, value)`; the field holds one of the
four selectors x, y, z, w (two bits). -/
def SwizzlePattern.SetSelectorSrc2 (p : SwizzlePattern) (i : Nat) (value : Nat) : SwizzlePattern :=
  { p with selector_src2 := p.selector_src2.set i (value % 4) }

/-! ## Swizzle masks -/

/-- `InputSwizzlerMask`: `num_components` and the array `components[4]` of
`Component` values (x = 0, y = 1, z = 2, w = 3, stored in a `uint8_t`). -/
structure InputSwizzlerMask where
  num_components : Nat
  components : Array4 Nat
  deriving DecidableEq, Repr

namespace InputSwizzlerMask

/-- `Component::x`. -/
def x : Nat := 0
/-- `Component::y`. -/
def y : Nat := 1
/-- `Component::z`. -/
def z : Nat := 2
/-- `Component::w`. -/
def w : Nat := 3

/-- `InputSwizzlerMask::FullMask()`. -/
def FullMask : InputSwizzlerMask := ⟨4, ⟨x, y, z, w⟩⟩

end InputSwizzlerMask

/-- `CommonRules::swizzlers`: the fifteen accepted mask spellings.  The brace
initialisers leave the unnamed array entries zero. -/
def swizzlers : List (String × InputSwizzlerMask) :=
  [ ("x",    ⟨1, ⟨0, 0, 0, 0⟩⟩),
    ("y",    ⟨1, ⟨1, 0, 0, 0⟩⟩),
    ("z",    ⟨1, ⟨2, 0, 0, 0⟩⟩),
    ("w",    ⟨1, ⟨3, 0, 0, 0⟩⟩),
    ("xy",   ⟨2, ⟨0, 1, 0, 0⟩⟩),
    ("xz",   ⟨2, ⟨0, 2, 0, 0⟩⟩),
    ("xw",   ⟨2, ⟨0, 3, 0, 0⟩⟩),
    ("yz",   ⟨2, ⟨1, 2, 0, 0⟩⟩),
    ("yw",   ⟨2, ⟨1, 3, 0, 0⟩⟩),
    ("zw",   ⟨2, ⟨2, 3, 0, 0⟩⟩),
    ("xyz",  ⟨3, ⟨0, 1, 2, 0⟩⟩),
    ("xyw",  ⟨3, ⟨0, 1, 3, 0⟩⟩),
    ("xzw",  ⟨3, ⟨0, 2, 3, 0⟩⟩),
    ("yzw",  ⟨3, ⟨1, 2, 3, 0⟩⟩),
    ("xyzw", ⟨4, ⟨0, 1, 2, 3⟩⟩) ]

/-- The mask a spelling of `swizzlers` stands for. -/
def swizzler (name : String) : Option InputSwizzlerMask :=
  (swizzlers.find? (fun e => e.1 == name)).map (·.2)

/-- `Identifier`: index into the identifier list. -/
abbrev Identifier := Nat

/-- `Expression`: a known identifier and its chain of swizzle masks. -/
structure Expression where
  identifier : Identifier
  swizzle_masks : List InputSwizzlerMask
  deriving DecidableEq, Repr

/-! ## Register space -/

namespace RegisterSpace

/-- `RegisterSpace::Input`. -/
def Input : Nat := 0
/-- `RegisterSpace::Temporary`. -/
def Temporary : Nat := 0x10
/-- `RegisterSpace::FloatUniform`. -/
def FloatUniform : Nat := 0x20
/-- `RegisterSpace::Output`. -/
def Output : Nat := 0x80

end RegisterSpace

/-- `Atomic`: register index and swizzle mask.  `register_index` is an `int` that only
ever holds the counter of the seeding loop (`0 ≤ i < 0x90`) or a copy of such an entry,
so it is a natural number here and the last `else if (register_index >= Input)` of
the two accessors always holds. -/
structure Atomic where
  register_index : Nat
  mask : InputSwizzlerMask
  deriving DecidableEq, Repr

/-- `Atomic::GetType`. -/
def Atomic.GetType (a : Atomic) : RegisterType :=
  if a.register_index ≥ RegisterSpace.Output then RegisterType.Output
  else if a.register_index ≥ RegisterSpace.FloatUniform then RegisterType.FloatUniform
  else if a.register_index ≥ RegisterSpace.Temporary then RegisterType.Temporary
  else RegisterType.Input

/-- `Atomic::GetIndex`. -/
def Atomic.GetIndex (a : Atomic) : Nat :=
  if a.register_index ≥ RegisterSpace.Output then a.register_index - RegisterSpace.Output
  else if a.register_index ≥ RegisterSpace.FloatUniform then
    a.register_index - RegisterSpace.FloatUniform
  else if a.register_index ≥ RegisterSpace.Temporary then
    a.register_index - RegisterSpace.Temporary
  else a.register_index - RegisterSpace.Input

/-! ## Destination and source masks -/

/-- `DestSwizzlerMask`: the array `component_set[4]`. -/
structure DestSwizzlerMask where
  component_set : Array4 Bool
  deriving DecidableEq, Repr

/-- The constructor `DestSwizzlerMask(const InputSwizzlerMask&)`: for each of x, y, z,
w in turn, scan the first `num_components` entries of the input. -/
def DestSwizzlerMask.ofInput (input : InputSwizzlerMask) : DestSwizzlerMask :=
  ⟨[InputSwizzlerMask.x, InputSwizzlerMask.y, InputSwizzlerMask.z, InputSwizzlerMask.w].foldl
    (fun component_set comp =>
      (List.range input.num_components).foldl
        (fun component_set i =>
          if comp = input.components.get i then component_set.set comp true
          else component_set)
        component_set)
    ⟨false, false, false, false⟩⟩

/-- `SourceSwizzlerMask`: the array `components[4]` of `Component` values, where
`Unspecified` is the value after `w`. -/
structure SourceSwizzlerMask where
  components : Array4 Nat
  deriving DecidableEq, Repr

namespace SourceSwizzlerMask

/-- `SourceSwizzlerMask::Unspecified`. -/
def Unspecified : Nat := 4

/-- `SourceSwizzlerMask::AccordingToDestMask`: the loop state is the result array and
`active_component`. -/
def AccordingToDestMask (input : InputSwizzlerMask) (dest : DestSwizzlerMask) :
    SourceSwizzlerMask :=
  ⟨((List.range 4).foldl
      (fun (st : Array4 Nat × Nat) i =>
        if dest.component_set.get i then
          (st.1.set i (input.components.get st.2), st.2 + 1)
        else st)
      (⟨Unspecified, Unspecified, Unspecified, Unspecified⟩, 0)).1⟩

/-- `SourceSwizzlerMask::Expand`. -/
def Expand (input : InputSwizzlerMask) : SourceSwizzlerMask :=
  ⟨(List.range input.num_components).foldl
      (fun ret i => ret.set i (input.components.get i))
      ⟨Unspecified, Unspecified, Unspecified, Unspecified⟩⟩

end SourceSwizzlerMask

/-! ## Errors -/

/-- The values `main` throws, one constructor per `throw` expression, with the
numbers and names the message is built from.  `OutOfBounds` is not thrown by the
source: it marks a read outside a vector (`identifiers[id]`, `arguments[k]`), for which
the source defines no behaviour and which the grammar and the opcode table exclude. -/
inductive Error where
  | LabelAlreadyDefined (label_symbol : String)
  | IncorrectNumberOfArguments (expected : Int) (got : Int)
  | NotReadable
  | NotWriteable (type : RegisterType) (index : Nat)
  | TwoFloatUniforms
  | DotProductComponents
  | ComponentCountMismatch (dest : Nat) (src1 : Nat) (src2 : Option Nat)
  | SwizzlePatternLimit
  | UnknownInstruction
  | InvalidToken (rest : String)
  | NoMainLabel
  | OutOfBounds
  deriving DecidableEq, Repr

/-- The text of the thrown message.  `type_value` gives the integer value of a
`RegisterType` enumerator, which is declared in `shader_bytecode.h`. -/
def Error.what (type_value : RegisterType → Nat) : Error → String
  | .LabelAlreadyDefined label_symbol =>
      "Label \"" ++ label_symbol ++ "\" already defined in symbol table"
  | .IncorrectNumberOfArguments expected got =>
      "Incorrect number of arguments. Expected " ++ toString expected ++ ", got " ++ toString got
  | .NotReadable =>
      "Specified register is not readable (only input, temporary and uniform registers are writeable)"
  | .NotWriteable type index =>
      "Specified register " ++ toString (type_value type) ++ " " ++ toString index
        ++ " is not writeable (only output and temporary registers are writeable)"
  | .TwoFloatUniforms => "Not more than one input register may be a floating point uniform"
  | .DotProductComponents =>
      "Input registers for dot product instructions need to use proper number of components"
  | .ComponentCountMismatch dest src1 src2 =>
      "Input registers need to use the same number of components as the output register!"
        ++ "(dest: " ++ toString dest ++ " components, "
        ++ "src1: " ++ toString src1 ++ " components"
        ++ (match src2 with
            | some n => ", src2: " ++ toString n ++ " components)"
            | none => ")")
  | .SwizzlePatternLimit => "Limit of 127 swizzle patterns has been exhausted"
  | .UnknownInstruction => "Unknown instruction encountered"
  | .InvalidToken rest => "Invalid token found: " ++ rest
  | .NoMainLabel => "No main label specified"
  | .OutOfBounds => ""

/-! ## Expression evaluation -/

/-- One iteration of the loop over the swizzle masks in `EvaluateExpression`: `out`
holds the contents the uninitialised local starts with, `mask` is `ret.mask`. -/
def applySwizzleMask (out : InputSwizzlerMask) (mask : InputSwizzlerMask)
    (swizzle_mask : InputSwizzlerMask) : InputSwizzlerMask :=
  (List.range swizzle_mask.num_components).foldl
    (fun out comp =>
      { out with
        components := out.components.set comp (mask.components.get (swizzle_mask.components.get comp)) })
    { out with num_components := swizzle_mask.num_components }

/-- The loop over the swizzle masks of an expression; `out_init k` is what the local
`out` holds when iteration `k` starts. -/
def applySwizzleMasks (out_init : Nat → InputSwizzlerMask) :
    Nat → InputSwizzlerMask → List InputSwizzlerMask → InputSwizzlerMask
  | _, mask, [] => mask
  | k, mask, swizzle_mask :: rest =>
      applySwizzleMasks out_init (k + 1) (applySwizzleMask (out_init k) mask swizzle_mask) rest

/-- The lambda `EvaluateExpression` of `main`.  The result is `none` when the
identifier is not an index of the identifier list. -/
def EvaluateExpression (identifiers : List Atomic) (out_init : Nat → InputSwizzlerMask)
    (expr : Expression) : Option Atomic :=
  match identifiers[expr.identifier]? with
  | none => none
  | some ret => some { ret with mask := applySwizzleMasks out_init 0 ret.mask expr.swizzle_masks }

/-- The loop `for (const auto& expr : args) arguments.push_back(EvaluateExpression(expr))`;
`out_init j k` is the initial content of `out` for suffix `k` of argument `j`. -/
def evaluateArguments (identifiers : List Atomic) (out_init : Nat → Nat → InputSwizzlerMask) :
    Nat → List Expression → Option (List Atomic)
  | _, [] => some []
  | j, expr :: rest =>
      match EvaluateExpression identifiers (out_init j) expr with
      | none => none
      | some a =>
          match evaluateArguments identifiers out_init (j + 1) rest with
          | none => none
          | some as => some (a :: as)

/-! ## Encoding of an arithmetic instruction -/

/-- The lambda `AssertRegisterReadable`. -/
def AssertRegisterReadable (type : RegisterType) : Except Error Unit :=
  if type ≠ RegisterType.Input ∧ type ≠ RegisterType.Temporary ∧
      type ≠ RegisterType.FloatUniform then
    .error .NotReadable
  else .ok ()

/-- The lambda `AssertRegisterWriteable`. -/
def AssertRegisterWriteable (type : RegisterType) (index : Nat) : Except Error Unit :=
  if type ≠ RegisterType.Output ∧ type ≠ RegisterType.Temporary then
    .error (.NotWriteable type index)
  else .ok ()

/-- The loop `for (int i = 0, active_component = 0; i < 4; ++i)` that fills the
swizzle pattern, started from `swizzle_pattern.hex = 0`. -/
def buildSwizzlePattern (num_inputs : Int) (dest_mask : DestSwizzlerMask)
    (mask_src1 mask_src2 : SourceSwizzlerMask) : SwizzlePattern :=
  (List.range 4).foldl
    (fun swizzle_pattern i =>
      let p1 :=
        if dest_mask.component_set.get i then swizzle_pattern.SetDestComponentEnabled i true
        else swizzle_pattern
      let p2 :=
        if mask_src1.components.get i ≠ SourceSwizzlerMask.Unspecified then
          p1.SetSelectorSrc1 i (mask_src1.components.get i)
        else p1
      if num_inputs > 1 ∧ mask_src2.components.get i ≠ SourceSwizzlerMask.Unspecified then
        p2.SetSelectorSrc2 i (mask_src2.components.get i)
      else p2)
    SwizzlePattern.zero

/-- The step `if (arguments[2].GetType() == FloatUniform) boost::swap(arguments[1],
arguments[2])`: the values of `arguments[1]` and `arguments[2]` after it. -/
def swapIfSecondIsUniform (arg1 arg2 : Atomic) : Atomic × Atomic :=
  if arg2.GetType = RegisterType.FloatUniform then (arg2, arg1) else (arg1, arg2)

/-- The `case Instruction::OpCodeType::Arithmetic` block of `main` from the arity check
up to the end of the pattern loop: the checks in source order, then the instruction
word (its `operand_desc_id` still zero) and the swizzle pattern.  `uninit_src2` is the
content of the local `input_mask_src2` before any assignment. -/
def encodeArithmetic (uninit_src2 : InputSwizzlerMask) (opcode : OpCode)
    (arguments : List Atomic) : Except Error (Instruction × SwizzlePattern) :=
  let shinst : Instruction := ⟨opcode, none, none, none, 0⟩
  let num_args : Int := arguments.length
  let num_inputs : Int := ((GetInfo opcode).num_arguments : Int) - 1
  if num_args ≠ num_inputs + 1 then
    .error (.IncorrectNumberOfArguments (num_inputs + 1) num_args)
  else
    match arguments with
    | arg0 :: arg1 :: rest =>
      match AssertRegisterWriteable arg0.GetType arg0.GetIndex with
      | .error e => .error e
      | .ok _ =>
      match AssertRegisterReadable arg1.GetType with
      | .error e => .error e
      | .ok _ =>
      let input_dest_mask := arg0.mask
      -- the block `if (num_inputs > 1)`: its result is arguments[1], arguments[2],
      -- the instruction word and input_mask_src2
      let block : Except Error (Atomic × Option Atomic × Instruction × InputSwizzlerMask) :=
        if num_inputs > 1 then
          match rest with
          | arg2 :: _ =>
            match AssertRegisterReadable arg2.GetType with
            | .error e => .error e
            | .ok _ =>
              if arg1.GetType = RegisterType.FloatUniform ∧
                  arg2.GetType = RegisterType.FloatUniform then
                .error .TwoFloatUniforms
              else
                let swapped := swapIfSecondIsUniform arg1 arg2
                .ok (swapped.1, some swapped.2,
                     { shinst with src2 := some (swapped.2.GetType, swapped.2.GetIndex) },
                     swapped.2.mask)
          | [] => .error .OutOfBounds
        else .ok (arg1, none, shinst, uninit_src2)
      match block with
      | .error e => .error e
      | .ok (arg1, _, shinst, input_mask_src2) =>
      let input_mask_src1 := arg1.mask
      let shinst := { shinst with dest := some (arg0.GetType, arg0.GetIndex) }
      let shinst := { shinst with src1 := some (arg1.GetType, arg1.GetIndex) }
      let is_dot_product : Bool := opcode = OpCode.DP3 ∨ opcode = OpCode.DP4
      let check : Except Error Unit :=
        if is_dot_product then
          let expected_input_length : Nat := if opcode = OpCode.DP3 then 3 else 4
          if input_mask_src1.num_components ≠ expected_input_length ∨
              input_mask_src2.num_components ≠ expected_input_length then
            .error .DotProductComponents
          else .ok ()
        else
          if input_dest_mask.num_components ≠ input_mask_src1.num_components ∨
              (num_inputs > 1 ∧
                input_mask_src1.num_components ≠ input_mask_src2.num_components) then
            .error (.ComponentCountMismatch input_dest_mask.num_components
              input_mask_src1.num_components
              (if num_inputs > 1 then some input_mask_src2.num_components else none))
          else .ok ()
      match check with
      | .error e => .error e
      | .ok _ =>
      let dest_mask := DestSwizzlerMask.ofInput input_dest_mask
      let mask_src1 :=
        if is_dot_product then SourceSwizzlerMask.Expand input_mask_src1
        else SourceSwizzlerMask.AccordingToDestMask input_mask_src1 dest_mask
      let mask_src2 :=
        if is_dot_product then SourceSwizzlerMask.Expand input_mask_src2
        else SourceSwizzlerMask.AccordingToDestMask input_mask_src2 dest_mask
      .ok (shinst, buildSwizzlePattern num_inputs dest_mask mask_src1 mask_src2)
    | _ => .error .OutOfBounds

/-! ## The state of `main` and the statements -/

/-- `CustomLabelInfo`. -/
structure CustomLabelInfo where
  program_offset : Nat
  symbol_table_index : Nat
  deriving DecidableEq, Repr

/-- `ParserContext`: the symbol table `identifiers` of known names, in insertion
order. -/
structure ParserContext where
  identifiers : List (String × Identifier)
  deriving DecidableEq, Repr

/-- `context.identifiers.add(name, id)`: the Spirit symbol table keeps the value a name
already has and stores the new value otherwise. -/
def ParserContext.add (context : ParserContext) (name : String) (id : Identifier) :
    ParserContext :=
  if context.identifiers.any (fun e => e.1 == name) then context
  else ⟨context.identifiers ++ [(name, id)]⟩

/-- `context.identifiers.find(name)`. -/
def ParserContext.find (context : ParserContext) (name : String) : Option Identifier :=
  (context.identifiers.find? (fun e => e.1 == name)).map (·.2)

/-- `OutputRegisterInfo::Type`, as named by `DeclarationParser::output_semantics`. -/
inductive OutputRegisterInfoType where
  | POSITION | COLOR | TEXCOORD0 | TEXCOORD1 | TEXCOORD2
  deriving DecidableEq, Repr

/-- `StatementDeclaration`: the variant of the three declaration forms, in the order
of the variant (constant, output, alias).  The float values of a constant are parsed
and never read by `main`; they are left out. -/
inductive StatementDeclaration where
  | Constant (idname : String) (id : Identifier)
  | Output (idname : String) (id : Identifier) (semantic : OutputRegisterInfoType)
  | Alias (idname : String) (id : Identifier)
  deriving DecidableEq, Repr

/-- What one iteration of the `while (true)` loop of `main` recognised. -/
inductive Statement where
  | Label (statement_label : String)
  | Instruction (opcode : OpCode) (args : List Expression)
  | Declaration (statement_declaration : StatementDeclaration)
  deriving DecidableEq, Repr

/-- The variables of `main` that the statement loop changes, and the global
`identifiers`. -/
structure AsmState where
  instructions : List Instruction
  swizzle_patterns : List SwizzlePattern
  label_table : List CustomLabelInfo
  symbol_table : List String
  program_write_offset : Nat
  identifiers : List Atomic
  context : ParserContext
  deriving DecidableEq, Repr

/-- The name the seeding loop gives to register `i`. -/
def seedName (i : Nat) : String :=
  if i ≥ RegisterSpace.Output then "o" ++ toString (i - RegisterSpace.Output)
  else if i ≥ RegisterSpace.FloatUniform then "f" ++ toString (i - RegisterSpace.FloatUniform)
  else if i ≥ RegisterSpace.Temporary then "t" ++ toString (i - RegisterSpace.Temporary)
  else "i" ++ toString (i - RegisterSpace.Input)

/-- The state when the statement loop starts: empty tables, and the identifiers seeded
by `for (int i = 0; i < 0x90; ++i)`. -/
def initialState : AsmState :=
  (List.range 0x90).foldl
    (fun s i =>
      { s with
        identifiers := s.identifiers ++ [⟨i, InputSwizzlerMask.FullMask⟩]
        context := s.context.add (seedName i) i })
    ⟨[], [], [], [], 0, [], ⟨[]⟩⟩

/-- Contents of the locals of one loop iteration that the source reads without having
initialised them: `out j k` for the local `out` when `EvaluateExpression` applies suffix
`k` of argument `j`, and `input_mask_src2`. -/
structure Indeterminate where
  out : Nat → Nat → InputSwizzlerMask
  input_mask_src2 : InputSwizzlerMask

/-- A statement step ends with the new state, or with the thrown error and the state
at the throw. -/
abbrev StepResult := Except (Error × AsmState) AsmState

/-- The label branch of the loop. -/
def processLabel (s : AsmState) (label_symbol : String) : StepResult :=
  if label_symbol ∈ s.symbol_table then
    .error (.LabelAlreadyDefined label_symbol, s)
  else
    let symbol_table := s.symbol_table ++ [label_symbol]
    let symbol_table_index := symbol_table.length - 1
    .ok { s with
          symbol_table := symbol_table
          label_table := s.label_table ++ [⟨s.program_write_offset, symbol_table_index⟩] }

/-- The search of the pattern table (`std::find_if` on `hex`), the `push_back` of a new
pattern and the check of the limit.  The result is the table and the index
`it - swizzle_patterns.begin()`; on the throw, the table as it was left. -/
def addSwizzlePattern (swizzle_patterns : List SwizzlePattern) (swizzle_pattern : SwizzlePattern) :
    Except (Error × List SwizzlePattern) (List SwizzlePattern × Nat) :=
  let it := swizzle_patterns.findIdx (fun val => decide (val = swizzle_pattern))
  if it = swizzle_patterns.length then
    let pushed := swizzle_patterns ++ [swizzle_pattern]
    let it := pushed.length - 1
    if pushed.length > 127 then .error (.SwizzlePatternLimit, pushed)
    else .ok (pushed, it)
  else .ok (swizzle_patterns, it)

/-- The instruction branch of the loop: evaluation of the arguments, the switch on the
opcode type, the pattern table, `instructions.push_back` and `++program_write_offset`. -/
def processInstruction (u : Indeterminate) (s : AsmState) (opcode : OpCode)
    (args : List Expression) : StepResult :=
  match evaluateArguments s.identifiers u.out 0 args with
  | none => .error (.OutOfBounds, s)
  | some arguments =>
    match (GetInfo opcode).type with
    | .Arithmetic =>
      match encodeArithmetic u.input_mask_src2 opcode arguments with
      | .error e => .error (e, s)
      | .ok (shinst, swizzle_pattern) =>
        match addSwizzlePattern s.swizzle_patterns swizzle_pattern with
        | .error (e, swizzle_patterns) => .error (e, { s with swizzle_patterns := swizzle_patterns })
        | .ok (swizzle_patterns, it) =>
          .ok { s with
                swizzle_patterns := swizzle_patterns
                instructions := s.instructions ++ [{ shinst with operand_desc_id := it }]
                program_write_offset := s.program_write_offset + 1 }
    | _ => .error (.UnknownInstruction, s)

/-- The declaration branch of the loop. -/
def processDeclaration (s : AsmState) (var : StatementDeclaration) : StepResult :=
  let (idname, id) :=
    match var with
    | .Constant idname id => (idname, id)
    | .Output idname id _ => (idname, id)
    | .Alias idname id => (idname, id)
  match s.identifiers[id]? with
  | none => .error (.OutOfBounds, s)
  | some ret =>
    let new_identifier := s.identifiers.length
    .ok { s with
          identifiers := s.identifiers ++ [ret]
          context := s.context.add idname new_identifier }

/-- One iteration of the statement loop on a recognised statement. -/
def processStatement (u : Indeterminate) (s : AsmState) : Statement → StepResult
  | .Label statement_label => processLabel s statement_label
  | .Instruction opcode args => processInstruction u s opcode args
  | .Declaration statement_declaration => processDeclaration s statement_declaration

/-- The statement loop over the recognised statements in source order; `u n` gives
the uninitialised locals of iteration `n`. -/
def processStatements (u : Nat → Indeterminate) : Nat → AsmState → List Statement → StepResult
  | _, s, [] => .ok s
  | n, s, statement :: rest =>
      match processStatement (u n) s statement with
      | .error e => .error e
      | .ok s1 => processStatements u (n + 1) s1 rest

/-! ## Entry point and headers -/

/-- The lambda `GetSymbolTableEntryByteOffset`; `length()` counts bytes. -/
def GetSymbolTableEntryByteOffset (symbol_table : List String) (index : Nat) : Nat :=
  (List.range index).foldl
    (fun offset i => offset + ((symbol_table.getD i "").utf8ByteSize + 1))
    0

/-- The lambda that initialises `main_offset`. -/
def main_offset (s : AsmState) : Except Error Nat :=
  match s.label_table.find? (fun label => "main" == s.symbol_table.getD label.symbol_table_index "") with
  | some label => .ok (GetSymbolTableEntryByteOffset s.symbol_table label.symbol_table_index)
  | none => .error .NoMainLabel

/-- `LabelInfo` of `shader_binary.h`, as the fields `main` assigns. -/
structure LabelInfo where
  id : Nat
  program_offset : Nat
  unk : Nat
  name_offset : Nat
  deriving DecidableEq, Repr

/-- The `sizeof` values `main` uses for types declared in the two headers:
`sizeof(dvlb)` (a `DVLBHeader` followed by `dvle_offset`), `sizeof(dvlp)`,
`sizeof(dvle)`, `sizeof(LabelInfo)` and `sizeof(SwizzlePattern)`. -/
structure HeaderSizes where
  dvlb : Nat
  dvlp : Nat
  dvle : Nat
  LabelInfo : Nat
  SwizzlePattern : Nat
  deriving DecidableEq, Repr

/-- What the `pointer` of a queued chunk points at. -/
inductive ChunkData where
  | dvlb
  | dvlp
  | dvle
  | instructions
  | swizzle_pattern (i : Nat)
  | dummy
  | final_label_table (index : Nat)
  | symbol (i : Nat)
  deriving DecidableEq, Repr

/-- `StuffToWrite`. -/
structure StuffToWrite where
  pointer : ChunkData
  size : Nat
  deriving DecidableEq, Repr

/-- The two variables captured by `QueueForWriting`. -/
structure WriteState where
  writing_queue : List StuffToWrite
  write_offset : Nat
  deriving DecidableEq, Repr

/-- The lambda `QueueForWriting`: the new queue and offset, and the old offset. -/
def QueueForWriting (q : WriteState) (pointer : ChunkData) (size : Nat) : WriteState × Nat :=
  (⟨q.writing_queue ++ [⟨pointer, size⟩], q.write_offset + size⟩, q.write_offset)

/-- The header fields `main` assigns, the label records and the queue, when the queue
is written to the file. -/
structure Container where
  dvlb_dvle_offset : Nat
  dvlp_binary_offset : Nat
  dvlp_binary_size_words : Nat
  dvlp_swizzle_info_offset : Nat
  dvlp_swizzle_info_num_entries : Nat
  dvle_main_offset_words : Nat
  dvle_label_table_offset : Nat
  dvle_label_table_size : Nat
  dvle_symbol_table_offset : Nat
  dvle_symbol_table_size : Nat
  final_label_table : List LabelInfo
  writing_queue : List StuffToWrite
  deriving DecidableEq, Repr

/-- The part of `main` after `main_offset` is known: queueing of the headers, the
instruction words, the pattern entries, the label records and the symbol strings. -/
def serialize (sizes : HeaderSizes) (s : AsmState) (main_offset : Nat) : Container :=
  let q0 : WriteState := ⟨[], 0⟩
  let q1 := (QueueForWriting q0 .dvlb sizes.dvlb).1
  let r2 := QueueForWriting q1 .dvlp sizes.dvlp
  let dvlp_offset := r2.2
  let r3 := QueueForWriting r2.1 .dvle sizes.dvle
  let dvle_offset := r3.2
  let binary_offset := r3.1.write_offset - dvlp_offset
  let q4 := (QueueForWriting r3.1 .instructions (s.instructions.length * 4)).1
  let swizzle_info_offset := q4.write_offset - dvlp_offset
  let q5 := (List.range s.swizzle_patterns.length).foldl
    (fun q i =>
      (QueueForWriting (QueueForWriting q (.swizzle_pattern i) sizes.SwizzlePattern).1 .dummy 4).1)
    q4
  let label_table_offset := q5.write_offset - dvle_offset
  let resized : List LabelInfo := List.replicate s.label_table.length ⟨0, 0, 0, 0⟩
  let r6 := s.label_table.foldl
    (fun (st : List LabelInfo × WriteState) label =>
      let info : LabelInfo :=
        ⟨0, label.program_offset, 0,
          GetSymbolTableEntryByteOffset s.symbol_table label.symbol_table_index⟩
      let final_label_table := st.1 ++ [info]
      (final_label_table,
        (QueueForWriting st.2 (.final_label_table (final_label_table.length - 1))
          sizes.LabelInfo).1))
    (resized, q5)
  let symbol_table_offset := r6.2.write_offset - dvle_offset
  let symbol_table_size :=
    GetSymbolTableEntryByteOffset s.symbol_table (s.symbol_table.length - 1)
      + ((s.symbol_table.getLastD "").utf8ByteSize + 1)
  let q7 := (List.range s.symbol_table.length).foldl
    (fun q i =>
      (QueueForWriting q (.symbol i) ((s.symbol_table.getD i "").utf8ByteSize + 1)).1)
    r6.2
  { dvlb_dvle_offset := dvle_offset
    dvlp_binary_offset := binary_offset
    dvlp_binary_size_words := s.instructions.length
    dvlp_swizzle_info_offset := swizzle_info_offset
    dvlp_swizzle_info_num_entries := s.swizzle_patterns.length
    dvle_main_offset_words := main_offset
    dvle_label_table_offset := label_table_offset
    dvle_label_table_size := s.label_table.length
    dvle_symbol_table_offset := symbol_table_offset
    dvle_symbol_table_size := symbol_table_size
    final_label_table := r6.1
    writing_queue := q7.writing_queue }

/-- The body of `main` from the statement loop on.  `statements` are the statements the
loop recognises, in order, and `remainder` is the text left when no statement grammar
matches any more; the result is the thrown error or the container that is written. -/
def assemble (sizes : HeaderSizes) (u : Nat → Indeterminate) (statements : List Statement)
    (remainder : String) : Except Error Container :=
  match processStatements u 0 initialState statements with
  | .error (e, _) => .error e
  | .ok s =>
    if remainder ≠ "" then .error (.InvalidToken remainder)
    else
      match main_offset s with
      | .error e => .error e
      | .ok offset => .ok (serialize sizes s offset)

/-! ## Predicates and concrete programs used in the statements -/

/-- Rule 2 of the validation: the class is Output or Temporary. -/
def Writeable (type : RegisterType) : Prop :=
  type = RegisterType.Output ∨ type = RegisterType.Temporary

/-- Rule 3 of the validation: the class is Input, Temporary or FloatUniform. -/
def Readable (type : RegisterType) : Prop :=
  type = RegisterType.Input ∨ type = RegisterType.Temporary ∨ type = RegisterType.FloatUniform

instance (type : RegisterType) : Decidable (Writeable type) :=
  inferInstanceAs (Decidable (type = RegisterType.Output ∨ type = RegisterType.Temporary))

instance (type : RegisterType) : Decidable (Readable type) :=
  inferInstanceAs (Decidable (type = RegisterType.Input ∨ type = RegisterType.Temporary ∨
    type = RegisterType.FloatUniform))

/-- Legal register classes of the operands `arg0 :: arg1 :: rest` (rules 2 to 4 of the
validation): the destination is writeable, the first source is readable and, when
there is a second source, it is readable and the two sources are not both
FloatUniform. -/
def LegalRegisterClasses (arg0 arg1 : Atomic) (rest : List Atomic) : Prop :=
  Writeable arg0.GetType ∧ Readable arg1.GetType ∧
    ∀ arg2 ∈ rest.head?, Readable arg2.GetType ∧
      ¬ (arg1.GetType = RegisterType.FloatUniform ∧ arg2.GetType = RegisterType.FloatUniform)

instance (arg0 arg1 : Atomic) (rest : List Atomic) :
    Decidable (LegalRegisterClasses arg0 arg1 rest) :=
  inferInstanceAs (Decidable (Writeable arg0.GetType ∧ Readable arg1.GetType ∧
    ∀ arg2 ∈ rest.head?, Readable arg2.GetType ∧
      ¬ (arg1.GetType = RegisterType.FloatUniform ∧ arg2.GetType = RegisterType.FloatUniform)))

/-- The sources `arguments[1]` and `arguments[2]` after the swap of rule 4: the first
source, and the second source when there is one. -/
def canonicalSources (arg1 : Atomic) (rest : List Atomic) : Atomic × Option Atomic :=
  match rest with
  | [] => (arg1, none)
  | arg2 :: _ => ((swapIfSecondIsUniform arg1 arg2).1, some (swapIfSecondIsUniform arg1 arg2).2)

/-- Rule 6 fails: the destination and the first source differ in the number of
components, or there is a second source and it differs from the first. -/
def ComponentCountsDiffer (arg0 arg1 : Atomic) (rest : List Atomic) : Prop :=
  arg0.mask.num_components ≠ arg1.mask.num_components ∨
    ∃ arg2 ∈ rest.head?, arg2.mask.num_components ≠ arg1.mask.num_components

instance (arg0 arg1 : Atomic) (rest : List Atomic) :
    Decidable (ComponentCountsDiffer arg0 arg1 rest) :=
  inferInstanceAs (Decidable (arg0.mask.num_components ≠ arg1.mask.num_components ∨
    ∃ arg2 ∈ rest.head?, arg2.mask.num_components ≠ arg1.mask.num_components))

/-- The instruction word and pattern the arithmetic block builds for an opcode other
than dp3 and dp4 once every check has passed. -/
def alignedEncoding (u : InputSwizzlerMask) (opcode : OpCode) (arg0 arg1 : Atomic)
    (rest : List Atomic) : Instruction × SwizzlePattern :=
  let src := canonicalSources arg1 rest
  (⟨opcode, some (arg0.GetType, arg0.GetIndex), some (src.1.GetType, src.1.GetIndex),
      src.2.map (fun a => (a.GetType, a.GetIndex)), 0⟩,
    buildSwizzlePattern (((GetInfo opcode).num_arguments : Int) - 1)
      (DestSwizzlerMask.ofInput arg0.mask)
      (SourceSwizzlerMask.AccordingToDestMask src.1.mask (DestSwizzlerMask.ofInput arg0.mask))
      (SourceSwizzlerMask.AccordingToDestMask ((src.2.map (·.mask)).getD u)
        (DestSwizzlerMask.ofInput arg0.mask)))

/-- Contents used for the uninitialised locals in the concrete runs below. -/
def U0 : Indeterminate := ⟨fun _ _ => ⟨0, ⟨0, 0, 0, 0⟩⟩, ⟨0, ⟨0, 0, 0, 0⟩⟩⟩

/-- What holds of the tables after every statement of a run: the pattern table and
the symbol table have no repeated entry, the offset counter is the number of records,
and label `k` refers to symbol `k`. -/
structure TablesConsistent (s : AsmState) : Prop where
  patterns_nodup : s.swizzle_patterns.Nodup
  offset_eq : s.program_write_offset = s.instructions.length
  symbols_nodup : s.symbol_table.Nodup
  label_symbols : s.label_table.map (·.symbol_table_index) = List.range s.symbol_table.length

/-- The six two-component masks of `swizzlers`, in table order. -/
def twoComponentMasks : List InputSwizzlerMask :=
  [⟨2, ⟨0, 1, 0, 0⟩⟩, ⟨2, ⟨0, 2, 0, 0⟩⟩, ⟨2, ⟨0, 3, 0, 0⟩⟩,
   ⟨2, ⟨1, 2, 0, 0⟩⟩, ⟨2, ⟨1, 3, 0, 0⟩⟩, ⟨2, ⟨2, 3, 0, 0⟩⟩]

/-- The arguments of instruction `k` of a program whose patterns are pairwise
different: `add o0.D, t0.A, t1.B` with D, A, B the two-component masks number `k / 36`,
`(k / 6) % 6` and `k % 6`. -/
def distinctPatternArgs (k : Nat) : List Expression :=
  [⟨128, [twoComponentMasks.getD (k / 36) InputSwizzlerMask.FullMask]⟩,
   ⟨16, [twoComponentMasks.getD ((k / 6) % 6) InputSwizzlerMask.FullMask]⟩,
   ⟨17, [twoComponentMasks.getD (k % 6) InputSwizzlerMask.FullMask]⟩]

/-- The first `n` instructions of that program. -/
def distinctPatternProgram (n : Nat) : List Statement :=
  (List.range n).map (fun k => .Instruction .ADD (distinctPatternArgs k))

/-- The evaluated arguments of instruction `k` of that program. -/
def distinctPatternAtoms (k : Nat) : List Atomic :=
  [⟨128, applySwizzleMask ⟨0, ⟨0, 0, 0, 0⟩⟩ InputSwizzlerMask.FullMask
      (twoComponentMasks.getD (k / 36) InputSwizzlerMask.FullMask)⟩,
   ⟨16, applySwizzleMask ⟨0, ⟨0, 0, 0, 0⟩⟩ InputSwizzlerMask.FullMask
      (twoComponentMasks.getD ((k / 6) % 6) InputSwizzlerMask.FullMask)⟩,
   ⟨17, applySwizzleMask ⟨0, ⟨0, 0, 0, 0⟩⟩ InputSwizzlerMask.FullMask
      (twoComponentMasks.getD (k % 6) InputSwizzlerMask.FullMask)⟩]

/-- The word and pattern of instruction `k` of that program. -/
def distinctPatternEncoding (k : Nat) : Instruction × SwizzlePattern :=
  match encodeArithmetic U0.input_mask_src2 .ADD (distinctPatternAtoms k) with
  | .ok r => r
  | .error _ => (⟨.ADD, none, none, none, 0⟩, SwizzlePattern.zero)

/-- The initial state with the patterns of the first `n` instructions of that program
in the pattern table. -/
def stateWithPatterns (n : Nat) : AsmState :=
  { initialState with
    swizzle_patterns := (List.range n).map (fun k => (distinctPatternEncoding k).2) }

/-- The error a run ended with, if it ended by a throw. -/
def StepResult.thrown : StepResult → Option Error
  | .ok _ => none
  | .error (e, _) => some e

/-- The names of the label statements of a program, in order. -/
def labelNames (statements : List Statement) : List String :=
  statements.filterMap (fun statement =>
    match statement with
    | .Label name => some name
    | _ => none)

/-- The lower bound of the range of a register class in the register space. -/
def RegisterSpace.base : RegisterType → Nat
  | .Input => RegisterSpace.Input
  | .Temporary => RegisterSpace.Temporary
  | .FloatUniform => RegisterSpace.FloatUniform
  | .Output => RegisterSpace.Output

/-- The characters of a name as one number (base 256), to compare names by. -/
def nameCode (name : String) : Nat :=
  name.data.foldl (fun code c => code * 256 + c.toNat) 0

/-! ## The bytes written to the output file -/

/-- The bytes of a name (`std::string` holds the UTF-8 bytes). -/
def nameBytes (name : String) : List UInt8 :=
  name.data.flatMap String.utf8EncodeChar

/-- The memory `symbol.c_str()` points at: the bytes of the name and the terminating
null byte. -/
def cString (name : String) : List UInt8 :=
  nameBytes name ++ [0]

/-- The memory representation of the objects whose types are declared in
`shader_binary.h` and `shader_bytecode.h`: the three headers with the fields of the
container filled in, an instruction word, a swizzle pattern and a label record. -/
structure MemoryImages where
  dvlb : Container → List UInt8
  dvlp : Container → List UInt8
  dvle : Container → List UInt8
  instruction : Instruction → List UInt8
  swizzle_pattern : SwizzlePattern → List UInt8
  label_info : LabelInfo → List UInt8

/-- The representations have the sizes `main` uses: the `sizeof` values of
`HeaderSizes`, and `sizeof(uint32_t)` for an instruction word. -/
structure ImagesSized (images : MemoryImages) (sizes : HeaderSizes) : Prop where
  dvlb : ∀ c, (images.dvlb c).length = sizes.dvlb
  dvlp : ∀ c, (images.dvlp c).length = sizes.dvlp
  dvle : ∀ c, (images.dvle c).length = sizes.dvle
  instruction : ∀ i, (images.instruction i).length = 4
  swizzle_pattern : ∀ p, (images.swizzle_pattern p).length = sizes.SwizzlePattern
  label_info : ∀ l, (images.label_info l).length = sizes.LabelInfo

/-- The memory a queued pointer points at when the queue is written: the headers hold
their final fields, `instructions.data()` is the array of instruction words,
`final_label_table` is the vector as the loop left it and `dummy` is a zero word. -/
def chunkMemory (images : MemoryImages) (s : AsmState) (c : Container) : ChunkData → List UInt8
  | .dvlb => images.dvlb c
  | .dvlp => images.dvlp c
  | .dvle => images.dvle c
  | .instructions => s.instructions.flatMap images.instruction
  | .swizzle_pattern i => images.swizzle_pattern (s.swizzle_patterns.getD i SwizzlePattern.zero)
  | .dummy => [0, 0, 0, 0]
  | .final_label_table index => images.label_info (c.final_label_table.getD index ⟨0, 0, 0, 0⟩)
  | .symbol i => cString (s.symbol_table.getD i "")

/-- The loop `for (auto& chunk : writing_queue) file.write(chunk.pointer, chunk.size)`:
the bytes of the output file. -/
def writeFile (images : MemoryImages) (s : AsmState) (c : Container) : List UInt8 :=
  c.writing_queue.flatMap (fun chunk => (chunkMemory images s c chunk.pointer).take chunk.size)

/-- The serialized symbol string table: every name followed by its null byte. -/
def symbolTableBytes (symbol_table : List String) : List UInt8 :=
  symbol_table.flatMap cString

/-- Reading the null-terminated string that starts at a byte offset. -/
def readCString (bytes : List UInt8) (offset : Nat) : List UInt8 :=
  (bytes.drop offset).takeWhile (fun b => b != 0)

/-- For each label statement of a program, the number of instruction statements that
precede it; `n` is the number of instructions before the first statement. -/
def labelProgramOffsets : Nat → List Statement → List Nat
  | _, [] => []
  | n, .Label _ :: rest => n :: labelProgramOffsets n rest
  | n, .Instruction _ _ :: rest => labelProgramOffsets (n + 1) rest
  | n, .Declaration _ :: rest => labelProgramOffsets n rest

/-- Whether a statement is an instruction statement. -/
def Statement.isInstruction : Statement → Bool
  | .Instruction _ _ => true
  | _ => false

/-- The label records `main` builds from the label table. -/
def labelRecords (s : AsmState) : List LabelInfo :=
  s.label_table.map (fun label =>
    ⟨0, label.program_offset, 0,
      GetSymbolTableEntryByteOffset s.symbol_table label.symbol_table_index⟩)

/-- The four bytes of a 32-bit word, least significant byte first. -/
def le32 (n : Nat) : List UInt8 :=
  [UInt8.ofNat (n % 256), UInt8.ofNat (n / 256 % 256), UInt8.ofNat (n / 65536 % 256),
    UInt8.ofNat (n / 16777216 % 256)]

/-- Bytes cut off at a size, or filled up to it with zero bytes. -/
def padTo (size : Nat) (bytes : List UInt8) : List UInt8 :=
  (bytes ++ List.replicate size 0).take size

/-- A memory representation of the given sizes, used in the concrete runs below: the
fields `main` assigns as words in the order of the assignments, the rest zero.  The
statements about the output file hold for every representation of these sizes. -/
def sampleImages (sizes : HeaderSizes) : MemoryImages where
  dvlb := fun c => padTo sizes.dvlb (le32 c.dvlb_dvle_offset)
  dvlp := fun c => padTo sizes.dvlp
    (le32 c.dvlp_binary_offset ++ le32 c.dvlp_binary_size_words ++
      le32 c.dvlp_swizzle_info_offset ++ le32 c.dvlp_swizzle_info_num_entries)
  dvle := fun c => padTo sizes.dvle
    (le32 c.dvle_main_offset_words ++ le32 c.dvle_label_table_offset ++
      le32 c.dvle_label_table_size ++ le32 c.dvle_symbol_table_offset ++
      le32 c.dvle_symbol_table_size)
  instruction := fun i => padTo 4 (le32 i.operand_desc_id)
  swizzle_pattern := fun p => padTo sizes.SwizzlePattern
    ((List.range 4).map (fun i => UInt8.ofNat (p.selector_src1.get i)))
  label_info := fun l => padTo sizes.LabelInfo
    (le32 l.id ++ le32 l.program_offset ++ le32 l.unk ++ le32 l.name_offset)

/-- Sizes used in the concrete runs below. -/
def sampleSizes : HeaderSizes := ⟨12, 40, 64, 16, 4⟩

/-- A program used in the concrete runs below: two labels, each followed by
`mov o0, t0`. -/
def sampleProgram : List Statement :=
  [.Label "loop", .Instruction .MOV [⟨128, []⟩, ⟨16, []⟩], .Label "main",
    .Instruction .MOV [⟨128, []⟩, ⟨16, []⟩]]

/-! ## The grammars

The grammars are Boost.Spirit Qi parsers over the characters of the input.  A parser
is modelled by what it does at a position: the attribute and the rest of the input on
a match, no match, or (inside a rule that uses the expectation operator `>`) a thrown
`expectation_failure`.  A parser that does not match leaves the position where it
was. -/

/-- Outcome of a parser that can throw `qi::expectation_failure`. -/
inductive ParseResult (α : Type) where
  | ok (value : α) (rest : List Char)
  | fail
  | expectation_failure
  deriving DecidableEq, Repr

/-- `ascii::space`: space, `\t`, `\n`, `\v`, `\f`, `\r`. -/
def isSpace (c : Char) : Bool :=
  c == ' ' || c == '\t' || c == '\n' || c == Char.ofNat 11 || c == Char.ofNat 12 || c == '\r'

/-- `ascii::blank`: space and tab. -/
def isBlank (c : Char) : Bool :=
  c == ' ' || c == '\t'

/-- `qi::eol`: a carriage return, a line feed, or the one followed by the other. -/
def eol (input : List Char) : Option (List Char) :=
  match input with
  | [] => none
  | c :: rest =>
    if c = '\r' then
      match rest with
      | [] => some rest
      | d :: rest1 => if d = '\n' then some rest1 else some rest
    else if c = '\n' then some rest
    else none

/-- `comments = qi::char_("//") >> *(qi::char_ - qi::eol) >> qi::eol`.  The argument of
`qi::char_` is a character set, here the set with the one member `/`; `qi::char_ -
qi::eol` takes a character at which `qi::eol` does not match. -/
def comments (input : List Char) : Option (List Char) :=
  match input with
  | [] => none
  | c :: rest =>
    if c = '/' then eol (rest.dropWhile (fun d => !(d == '\r' || d == '\n')))
    else none

/-- One step of `skip = +(comments | ascii::space)`: a comment, or else a space. -/
def skipStep (input : List Char) : Option (List Char) :=
  match comments input with
  | some rest => some rest
  | none =>
    match input with
    | [] => none
    | c :: rest => if isSpace c then some rest else none

/-- At most `fuel` steps of the skipper. -/
def skipOverFuel : Nat → List Char → List Char
  | 0, input => input
  | fuel + 1, input =>
    match skipStep input with
    | some rest => skipOverFuel fuel rest
    | none => input

/-- Skipping before a token (`qi::skip_over`): the skipper is applied as long as it
matches.  Every step takes at least one character, so the length of the input is
enough fuel. -/
def skipOver (input : List Char) : List Char :=
  skipOverFuel input.length input

/-- The lookup of `qi::symbols`: the entry with the longest key that the input starts
with.  An empty key is never stored. -/
def symbolsFind {α : Type} (table : List (String × α)) (input : List Char) :
    Option (String × α) :=
  table.foldl
    (fun best entry =>
      if entry.1.data ≠ [] ∧ entry.1.data.isPrefixOf input = true then
        match best with
        | none => some entry
        | some found => if found.1.length < entry.1.length then some entry else best
      else best)
    none

/-- `qi::lit(ch)` under the skipper. -/
def lit (ch : Char) (input : List Char) : Option (List Char) :=
  match skipOver input with
  | [] => none
  | c :: rest => if c = ch then some rest else none

/-- `swizzle_mask = qi::lexeme[swizzlers]`: skipping, then the lookup without
skipping. -/
def swizzle_mask (input : List Char) : Option (InputSwizzlerMask × List Char) :=
  match symbolsFind swizzlers (skipOver input) with
  | none => none
  | some (key, mask) => some (mask, (skipOver input).drop key.length)

/-- `known_identifier = qi::lexeme[context.identifiers]`. -/
def known_identifier (context : ParserContext) (input : List Char) :
    Option (Identifier × List Char) :=
  match symbolsFind context.identifiers (skipOver input) with
  | none => none
  | some (key, id) => some (id, (skipOver input).drop key.length)

/-- The loop `*(qi::lit('.') > swizzle_mask)`: it ends at the first position without a
dot, and throws when a dot is not followed by a swizzle mask. -/
def swizzleSuffixes : Nat → List Char → ParseResult (List InputSwizzlerMask)
  | 0, input => .ok [] input
  | fuel + 1, input =>
    match lit '.' input with
    | none => .ok [] input
    | some rest =>
      match swizzle_mask rest with
      | none => .expectation_failure
      | some (mask, rest1) =>
        match swizzleSuffixes fuel rest1 with
        | .ok masks rest2 => .ok (mask :: masks) rest2
        | .fail => .fail
        | .expectation_failure => .expectation_failure

/-- `expression = known_identifier >> *(qi::lit('.') > swizzle_mask)`.  Every turn of
the loop takes at least two characters, so the length of the input is enough fuel. -/
def expression (context : ParserContext) (input : List Char) : ParseResult Expression :=
  match known_identifier context input with
  | none => .fail
  | some (id, rest) =>
    match swizzleSuffixes rest.length rest with
    | .ok masks rest1 => .ok ⟨id, masks⟩ rest1
    | .fail => .fail
    | .expectation_failure => .expectation_failure

/-- `InstructionParser::opcodes`, indexed by the number of arguments. -/
def opcodes : Nat → List (String × OpCode)
  | 0 => [("ret", .RET), ("flush", .FLUSH)]
  | 1 => [("call", .CALL)]
  | 2 => [("mov", .MOV), ("rcp", .RCP), ("rsq", .RSQ)]
  | 3 => [("add", .ADD), ("mul", .MUL), ("dp3", .DP3), ("dp4", .DP4), ("max", .MAX),
      ("min", .MIN)]
  | 4 => [("cmp", .CMP)]
  | _ => []

/-- The rules `opcode[i]`: `qi::no_case[qi::lexeme[opcodes[0]]]` for `i = 0` and
`qi::no_case[qi::lexeme[opcodes[i] >> qi::omit[ascii::blank]]]` otherwise.  Under
`no_case` the lookup compares the lower-case form of the input characters. -/
def opcode (i : Nat) (input : List Char) : Option (OpCode × List Char) :=
  match symbolsFind (opcodes i) ((skipOver input).map Char.toLower) with
  | none => none
  | some (key, value) =>
    if i = 0 then some (value, (skipOver input).drop key.length)
    else
      match (skipOver input).drop key.length with
      | [] => none
      | c :: rest => if isBlank c then some (value, rest) else none

/-- The rules `expression_chain[i]`: `expression` for `i = 1` and
`expression_chain[i - 1] >> comma_rule > expression` otherwise (`>>` binds tighter than
`>`, so only the last expression is expected).  `expression_chain[0]` is never
assigned and matches nothing. -/
def expression_chain (context : ParserContext) : Nat → List Char → ParseResult (List Expression)
  | 0, _ => .fail
  | 1, input =>
    match expression context input with
    | .ok e rest => .ok [e] rest
    | .fail => .fail
    | .expectation_failure => .expectation_failure
  | i + 2, input =>
    match expression_chain context (i + 1) input with
    | .ok args rest =>
      match lit ',' rest with
      | none => .fail
      | some rest1 =>
        match expression context rest1 with
        | .ok e rest2 => .ok (args ++ [e]) rest2
        | .fail => .expectation_failure
        | .expectation_failure => .expectation_failure
    | .fail => .fail
    | .expectation_failure => .expectation_failure

/-- `not_comma = !comma_rule`: matches, taking nothing, where no comma follows. -/
def not_comma (input : List Char) : Bool :=
  (lit ',' input).isNone

/-- The rules `instr[i]`: `opcode[0] > not_comma` for `i = 0` and
`opcode[i] > expression_chain[i] > not_comma` otherwise. -/
def instr (context : ParserContext) (i : Nat) (input : List Char) :
    ParseResult (OpCode × List Expression) :=
  match opcode i input with
  | none => .fail
  | some (value, rest) =>
    if i = 0 then
      if not_comma rest then .ok (value, []) rest else .expectation_failure
    else
      match expression_chain context i rest with
      | .ok args rest1 =>
        if not_comma rest1 then .ok (value, args) rest1 else .expectation_failure
      | .fail => .expectation_failure
      | .expectation_failure => .expectation_failure

/-- The alternatives `instr[i] | ... | instr[4]`; a thrown `expectation_failure` ends
the rule. -/
def instrFrom (context : ParserContext) (input : List Char) :
    List Nat → ParseResult (OpCode × List Expression)
  | [] => .fail
  | i :: later =>
    match instr context i input with
    | .ok statement rest => .ok statement rest
    | .fail => instrFrom context input later
    | .expectation_failure => .expectation_failure

/-- The rule `start %= instr[0] | instr[1] | instr[2] | instr[3] | instr[4]` with its
handler `qi::on_error<qi::fail>`: a thrown `expectation_failure` makes the rule fail. -/
def start (context : ParserContext) (input : List Char) :
    Option ((OpCode × List Expression) × List Char) :=
  match instrFrom context input [0, 1, 2, 3, 4] with
  | .ok statement rest => some (statement, rest)
  | .fail => none
  | .expectation_failure => none

/-- Whether a character is one of `x`, `y`, `z`, `w`. -/
def isMaskChar (c : Char) : Bool :=
  c == 'x' || c == 'y' || c == 'z' || c == 'w'

/-- An expression written with the identifier `declared` where another is written with
the identifier `referenced`: the expression with `declared` replaced by
`referenced`. -/
def Expression.withReferenced (declared referenced : Identifier) (e : Expression) :
    Expression :=
  if e.identifier = declared then { e with identifier := referenced } else e

/-! ## Masks as sequences of components -/

/-- Whether component `c` occurs among the first `num_components` entries of a mask. -/
def InputSwizzlerMask.occurs (m : InputSwizzlerMask) (c : Nat) : Bool :=
  (List.range m.num_components).any (fun i => m.components.get i == c)

/-- The number of active slots of a destination component set below slot `i`. -/
def DestSwizzlerMask.activeBelow (dest : DestSwizzlerMask) (i : Nat) : Nat :=
  ((List.range i).filter (fun k => dest.component_set.get k)).length

/-- The swizzle pattern the arithmetic block builds for a statement in state `s`, when
the statement is an instruction whose checks pass. -/
def builtPattern (U : Indeterminate) (s : AsmState) : Statement → Option SwizzlePattern
  | .Instruction opcode args =>
    match evaluateArguments s.identifiers U.out 0 args with
    | none => none
    | some arguments =>
      match encodeArithmetic U.input_mask_src2 opcode arguments with
      | .ok (_, swizzle_pattern) => some swizzle_pattern
      | .error _ => none
  | _ => none

/-- The patterns built for the instruction statements of a run, in the order of the
statements, up to the first statement that fails. -/
def builtPatterns (u : Nat → Indeterminate) : Nat → AsmState → List Statement → List SwizzlePattern
  | _, _, [] => []
  | n, s, statement :: rest =>
    match processStatement (u n) s statement with
    | .error _ => []
    | .ok s1 => (builtPattern (u n) s statement).toList ++ builtPatterns u (n + 1) s1 rest

/-- What holds of the records and the pattern table at every point of a run: the
offset counter is the number of records, the table has at most 127 entries, and the
entry at the `operand_desc_id` of record `k` is the pattern built for instruction
`k`. -/
structure RecordsConsistent (s : AsmState) (built : List SwizzlePattern) : Prop where
  offset_eq : s.instructions.length = s.program_write_offset
  table_size : s.swizzle_patterns.length ≤ 127
  entries : s.instructions.map (fun record => s.swizzle_patterns[record.operand_desc_id]?) =
    built.map some

/-! ## Theorems -/

set_option maxRecDepth 1000000

theorem assertRegisterWriteable_ok {type : RegisterType} (index : Nat) (h : Writeable type) :
    AssertRegisterWriteable type index = .ok () := by
  rcases h with h | h <;> simp [AssertRegisterWriteable, h]

theorem assertRegisterReadable_ok {type : RegisterType} (h : Readable type) :
    AssertRegisterReadable type = .ok () := by
  rcases h with h | h | h <;> simp [AssertRegisterReadable, h]

/-- The result of the arithmetic block for a one-source opcode with legal classes. -/
theorem encodeArithmetic_one_source (u : InputSwizzlerMask) (opcode : OpCode)
    (arg0 arg1 : Atomic) (hop : (GetInfo opcode) = ⟨.Arithmetic, 2⟩)
    (hw : Writeable arg0.GetType) (hr : Readable arg1.GetType) :
    encodeArithmetic u opcode [arg0, arg1] =
      if arg0.mask.num_components ≠ arg1.mask.num_components then
        .error (.ComponentCountMismatch arg0.mask.num_components arg1.mask.num_components none)
      else
        .ok (⟨opcode, some (arg0.GetType, arg0.GetIndex), some (arg1.GetType, arg1.GetIndex),
              none, 0⟩,
          buildSwizzlePattern 1 (DestSwizzlerMask.ofInput arg0.mask)
            (SourceSwizzlerMask.AccordingToDestMask arg1.mask (DestSwizzlerMask.ofInput arg0.mask))
            (SourceSwizzlerMask.AccordingToDestMask u (DestSwizzlerMask.ofInput arg0.mask))) := by
  have hw2 := assertRegisterWriteable_ok arg0.GetIndex hw
  have hr2 := assertRegisterReadable_ok hr
  by_cases hn : arg0.mask.num_components = arg1.mask.num_components <;>
    cases opcode <;> simp [GetInfo] at hop <;>
    simp [encodeArithmetic, GetInfo, hw2, hr2, hn]

/-- The result of the arithmetic block for a two-source opcode other than dp3 and dp4
with legal classes; `rest` holds the arguments after the second source. -/
theorem encodeArithmetic_two_sources (u : InputSwizzlerMask) (opcode : OpCode)
    (arg0 arg1 arg2 : Atomic) (rest : List Atomic)
    (hlen : (GetInfo opcode).num_arguments = rest.length + 3)
    (hdp : opcode ≠ .DP3 ∧ opcode ≠ .DP4)
    (hw : Writeable arg0.GetType) (hr1 : Readable arg1.GetType) (hr2 : Readable arg2.GetType)
    (hu : ¬ (arg1.GetType = .FloatUniform ∧ arg2.GetType = .FloatUniform)) :
    encodeArithmetic u opcode (arg0 :: arg1 :: arg2 :: rest) =
      let src := swapIfSecondIsUniform arg1 arg2
      if arg0.mask.num_components ≠ src.1.mask.num_components ∨
          src.1.mask.num_components ≠ src.2.mask.num_components then
        .error (.ComponentCountMismatch arg0.mask.num_components src.1.mask.num_components
          (some src.2.mask.num_components))
      else
        .ok (⟨opcode, some (arg0.GetType, arg0.GetIndex), some (src.1.GetType, src.1.GetIndex),
              some (src.2.GetType, src.2.GetIndex), 0⟩,
          buildSwizzlePattern ((GetInfo opcode).num_arguments - 1)
            (DestSwizzlerMask.ofInput arg0.mask)
            (SourceSwizzlerMask.AccordingToDestMask src.1.mask (DestSwizzlerMask.ofInput arg0.mask))
            (SourceSwizzlerMask.AccordingToDestMask src.2.mask
              (DestSwizzlerMask.ofInput arg0.mask))) := by
  have hw2 := assertRegisterWriteable_ok arg0.GetIndex hw
  have hr1' := assertRegisterReadable_ok hr1
  have hr2' := assertRegisterReadable_ok hr2
  have hlen2 : ((rest.length : Int) + 1 + 1 + 1) = ((GetInfo opcode).num_arguments : Int) := by
    rw [hlen]; push_cast; ring
  have hgt : ((GetInfo opcode).num_arguments : Int) - 1 > 1 := by omega
  simp only [encodeArithmetic, List.length_cons, Nat.cast_add, Nat.cast_one, hlen2,
    sub_add_cancel, ne_eq, not_true_eq_false, ↓reduceIte, hw2, hr1', hr2', hgt, hu,
    decide_eq_true_eq, hdp.1, hdp.2, or_self, Bool.false_eq_true, decide_False, true_and]
  by_cases hn : arg0.mask.num_components = (swapIfSecondIsUniform arg1 arg2).1.mask.num_components ∧
      (swapIfSecondIsUniform arg1 arg2).1.mask.num_components =
        (swapIfSecondIsUniform arg1 arg2).2.mask.num_components
  · simp [hn.1, hn.2, ← hn.1]
  · have hn2 : ¬ arg0.mask.num_components = (swapIfSecondIsUniform arg1 arg2).1.mask.num_components ∨
      ¬ (swapIfSecondIsUniform arg1 arg2).1.mask.num_components =
        (swapIfSecondIsUniform arg1 arg2).2.mask.num_components := by tauto
    simp [hn2]

/-- The result of the arithmetic block for every opcode other than dp3 and dp4 with the
right number of arguments and legal classes. -/
theorem encodeArithmetic_aligned (u : InputSwizzlerMask) (opcode : OpCode)
    (arg0 arg1 : Atomic) (rest : List Atomic)
    (hty : (GetInfo opcode).type = .Arithmetic)
    (hdp : opcode ≠ .DP3 ∧ opcode ≠ .DP4)
    (hlen : (arg0 :: arg1 :: rest).length = (GetInfo opcode).num_arguments)
    (hlegal : LegalRegisterClasses arg0 arg1 rest) :
    encodeArithmetic u opcode (arg0 :: arg1 :: rest) =
      if ComponentCountsDiffer arg0 arg1 rest then
        .error (.ComponentCountMismatch arg0.mask.num_components
          (canonicalSources arg1 rest).1.mask.num_components
          ((canonicalSources arg1 rest).2.map (·.mask.num_components)))
      else .ok (alignedEncoding u opcode arg0 arg1 rest) := by
  obtain ⟨hw, hr1, h2⟩ := hlegal
  cases rest with
  | nil =>
    have hop : GetInfo opcode = ⟨.Arithmetic, 2⟩ := by
      cases opcode <;> simp_all [GetInfo]
    rw [encodeArithmetic_one_source u opcode arg0 arg1 hop hw hr1]
    simp [ComponentCountsDiffer, canonicalSources, alignedEncoding, hop]
  | cons arg2 rest =>
    obtain ⟨hr2, hu⟩ := h2 arg2 (by simp)
    have hlen2 : (GetInfo opcode).num_arguments = rest.length + 3 := by
      simp at hlen; omega
    rw [encodeArithmetic_two_sources u opcode arg0 arg1 arg2 rest hlen2 hdp hw hr1 hr2 hu]
    simp only [ComponentCountsDiffer, canonicalSources, alignedEncoding, swapIfSecondIsUniform,
      List.head?_cons, Option.mem_def, Option.some.injEq, exists_eq_left', Option.map_some',
      Option.getD_some]
    by_cases h : arg2.GetType = RegisterType.FloatUniform
    · simp only [h, ↓reduceIte]
      by_cases h01 : arg0.mask.num_components = arg1.mask.num_components <;>
        by_cases h12 : arg2.mask.num_components = arg1.mask.num_components <;>
        simp [h01, h12]
    · simp only [h, ↓reduceIte]
      by_cases h01 : arg0.mask.num_components = arg1.mask.num_components <;>
        by_cases h12 : arg2.mask.num_components = arg1.mask.num_components <;>
        simp [h01, h12]
      all_goals omega

/-- The result of the arithmetic block for dp3 and dp4 with legal classes. -/
theorem encodeArithmetic_dot_product (u : InputSwizzlerMask) (opcode : OpCode)
    (arg0 arg1 arg2 : Atomic) (hop : opcode = .DP3 ∨ opcode = .DP4)
    (hlegal : LegalRegisterClasses arg0 arg1 [arg2]) :
    encodeArithmetic u opcode [arg0, arg1, arg2] =
      let src := swapIfSecondIsUniform arg1 arg2
      let expected_input_length := if opcode = OpCode.DP3 then 3 else 4
      if src.1.mask.num_components ≠ expected_input_length ∨
          src.2.mask.num_components ≠ expected_input_length then
        .error .DotProductComponents
      else
        .ok (⟨opcode, some (arg0.GetType, arg0.GetIndex), some (src.1.GetType, src.1.GetIndex),
              some (src.2.GetType, src.2.GetIndex), 0⟩,
          buildSwizzlePattern 2 (DestSwizzlerMask.ofInput arg0.mask)
            (SourceSwizzlerMask.Expand src.1.mask) (SourceSwizzlerMask.Expand src.2.mask)) := by
  obtain ⟨hw, hr1, h2⟩ := hlegal
  obtain ⟨hr2, hu⟩ := h2 arg2 (by simp)
  have hw2 := assertRegisterWriteable_ok arg0.GetIndex hw
  have hr1' := assertRegisterReadable_ok hr1
  have hr2' := assertRegisterReadable_ok hr2
  rcases hop with h | h <;> subst h <;>
    simp only [encodeArithmetic, GetInfo, hw2, hr1', hr2', hu] <;>
    by_cases h1 : (swapIfSecondIsUniform arg1 arg2).1.mask.num_components = 3 <;>
    by_cases h2 : (swapIfSecondIsUniform arg1 arg2).2.mask.num_components = 3 <;>
    by_cases h3 : (swapIfSecondIsUniform arg1 arg2).1.mask.num_components = 4 <;>
    by_cases h4 : (swapIfSecondIsUniform arg1 arg2).2.mask.num_components = 4 <;>
    simp [h1, h2, h3, h4]

/-- The instruction branch once the arguments are evaluated and the opcode is
arithmetic: the arithmetic block, then the pattern table. -/
theorem processInstruction_arithmetic (U : Indeterminate) (s : AsmState) (opcode : OpCode)
    (args : List Expression) (arguments : List Atomic)
    (heval : evaluateArguments s.identifiers U.out 0 args = some arguments)
    (hty : (GetInfo opcode).type = .Arithmetic) :
    processInstruction U s opcode args =
      match encodeArithmetic U.input_mask_src2 opcode arguments with
      | .error e => .error (e, s)
      | .ok (shinst, swizzle_pattern) =>
        match addSwizzlePattern s.swizzle_patterns swizzle_pattern with
        | .error (e, swizzle_patterns) => .error (e, { s with swizzle_patterns := swizzle_patterns })
        | .ok (swizzle_patterns, it) =>
          .ok { s with
                swizzle_patterns := swizzle_patterns
                instructions := s.instructions ++ [{ shinst with operand_desc_id := it }]
                program_write_offset := s.program_write_offset + 1 } := by
  simp [processInstruction, heval, hty]

/-- A pattern that is in the table is found: the table is unchanged and the index is
that of its first occurrence. -/
theorem addSwizzlePattern_mem (swizzle_patterns : List SwizzlePattern) (p : SwizzlePattern)
    (h : p ∈ swizzle_patterns) :
    addSwizzlePattern swizzle_patterns p = .ok (swizzle_patterns, swizzle_patterns.indexOf p) := by
  have hlt : swizzle_patterns.indexOf p < swizzle_patterns.length := List.indexOf_lt_length.mpr h
  have hidx : swizzle_patterns.findIdx (fun val => decide (val = p)) = swizzle_patterns.indexOf p := by
    unfold List.indexOf
    congr 1
  simp only [addSwizzlePattern, hidx]
  rw [if_neg (Nat.ne_of_lt hlt)]

/-- A pattern that is not in the table is appended, and the limit is checked on the
new size. -/
theorem addSwizzlePattern_not_mem (swizzle_patterns : List SwizzlePattern) (p : SwizzlePattern)
    (h : p ∉ swizzle_patterns) :
    addSwizzlePattern swizzle_patterns p =
      if swizzle_patterns.length + 1 > 127 then
        .error (.SwizzlePatternLimit, swizzle_patterns ++ [p])
      else .ok (swizzle_patterns ++ [p], swizzle_patterns.length) := by
  have hidx : swizzle_patterns.findIdx (fun val => decide (val = p)) = swizzle_patterns.length := by
    rw [List.findIdx_eq_length]
    intro x hx
    simp only [decide_eq_false_iff_not]
    rintro rfl
    exact h hx
  simp [addSwizzlePattern, hidx]

/-- After the arithmetic block has accepted an instruction, the step either appends a
record or throws the pattern-table limit. -/
theorem processInstruction_accepted (U : Indeterminate) (s : AsmState) (opcode : OpCode)
    (args : List Expression) (arguments : List Atomic) (shinst : Instruction)
    (p : SwizzlePattern)
    (heval : evaluateArguments s.identifiers U.out 0 args = some arguments)
    (hty : (GetInfo opcode).type = .Arithmetic)
    (henc : encodeArithmetic U.input_mask_src2 opcode arguments = .ok (shinst, p)) :
    (∃ swizzle_patterns it, processInstruction U s opcode args =
        .ok { s with
              swizzle_patterns := swizzle_patterns
              instructions := s.instructions ++ [{ shinst with operand_desc_id := it }]
              program_write_offset := s.program_write_offset + 1 }) ∨
      (∃ st, processInstruction U s opcode args = .error (.SwizzlePatternLimit, st)) := by
  rw [processInstruction_arithmetic U s opcode args arguments heval hty, henc]
  by_cases hmem : p ∈ s.swizzle_patterns
  · left
    exact ⟨s.swizzle_patterns, s.swizzle_patterns.indexOf p,
      by simp [addSwizzlePattern_mem _ _ hmem]⟩
  · by_cases hlim : s.swizzle_patterns.length + 1 > 127
    · right
      exact ⟨{ s with swizzle_patterns := s.swizzle_patterns ++ [p] },
        by simp [addSwizzlePattern_not_mem _ _ hmem, hlim]⟩
    · left
      exact ⟨s.swizzle_patterns ++ [p], s.swizzle_patterns.length,
        by simp [addSwizzlePattern_not_mem _ _ hmem, hlim]⟩

/-- C1. For every arithmetic opcode other than dp3 and dp4, with the right number of
arguments and legal register classes (writeable destination, readable sources, not two
FloatUniform sources): the arithmetic block rejects the instruction if and only if the
destination and source-1 mask lengths differ or, with two sources, the source-2 and
source-1 mask lengths differ.  In that case the step throws the component-count error
carrying the three counts, whose text names them, and leaves the state as it was;
otherwise the step appends a record, unless the pattern table overflows. -/
theorem C1_component_count_check (U : Indeterminate) (s : AsmState) (opcode : OpCode)
    (args : List Expression) (arg0 arg1 : Atomic) (rest : List Atomic)
    (heval : evaluateArguments s.identifiers U.out 0 args = some (arg0 :: arg1 :: rest))
    (hty : (GetInfo opcode).type = .Arithmetic)
    (hdp : opcode ≠ .DP3 ∧ opcode ≠ .DP4)
    (hlen : (arg0 :: arg1 :: rest).length = (GetInfo opcode).num_arguments)
    (hlegal : LegalRegisterClasses arg0 arg1 rest) :
    ((∃ e, encodeArithmetic U.input_mask_src2 opcode (arg0 :: arg1 :: rest) = .error e) ↔
        ComponentCountsDiffer arg0 arg1 rest) ∧
      (ComponentCountsDiffer arg0 arg1 rest →
        ∃ src1 src2,
          src1 = (canonicalSources arg1 rest).1.mask.num_components ∧
          src2 = (canonicalSources arg1 rest).2.map (·.mask.num_components) ∧
          processInstruction U s opcode args =
            .error (.ComponentCountMismatch arg0.mask.num_components src1 src2, s) ∧
          ∀ type_value, (Error.ComponentCountMismatch arg0.mask.num_components src1 src2).what
              type_value =
            "Input registers need to use the same number of components as the output register!"
              ++ "(dest: " ++ toString arg0.mask.num_components ++ " components, "
              ++ "src1: " ++ toString src1 ++ " components"
              ++ (match src2 with
                  | some n => ", src2: " ++ toString n ++ " components)"
                  | none => ")")) ∧
      (¬ ComponentCountsDiffer arg0 arg1 rest →
        (∃ s1, processInstruction U s opcode args = .ok s1 ∧
            s1.instructions.length = s.instructions.length + 1) ∨
          (∃ st, processInstruction U s opcode args = .error (.SwizzlePatternLimit, st))) := by
  have henc := encodeArithmetic_aligned U.input_mask_src2 opcode arg0 arg1 rest hty hdp hlen hlegal
  refine ⟨?_, ?_, ?_⟩
  · rw [henc]
    by_cases h : ComponentCountsDiffer arg0 arg1 rest <;> simp [h]
  · intro h
    refine ⟨_, _, rfl, rfl, ?_, fun _ => rfl⟩
    rw [processInstruction_arithmetic U s opcode args _ heval hty, henc]
    simp [h]
  · intro h
    have henc2 : encodeArithmetic U.input_mask_src2 opcode (arg0 :: arg1 :: rest) =
        .ok (alignedEncoding U.input_mask_src2 opcode arg0 arg1 rest) := by
      rw [henc]; simp [h]
    rcases processInstruction_accepted U s opcode args _ _ _ heval hty henc2 with
      ⟨pats, it, hok⟩ | herr
    · left
      exact ⟨_, hok, by simp⟩
    · right
      exact herr

/-- C1, witnesses.  `mov o0, t0` (identifiers 128 and 16, full masks of length 4) has
equal counts and is accepted: from the initial state it emits exactly one record, with
destination Output[0] and source1 Temporary[0].  `mov t0.xy, t1.xyz` has differing
counts and is rejected with the counts 2 and 3. -/
theorem C1_component_count_check_witness :
    (seedName 128 = "o0" ∧ seedName 16 = "t0" ∧ seedName 17 = "t1") ∧
    ¬ ComponentCountsDiffer ⟨128, InputSwizzlerMask.FullMask⟩ ⟨16, InputSwizzlerMask.FullMask⟩ [] ∧
    (∃ s1, processInstruction U0 initialState .MOV [⟨128, []⟩, ⟨16, []⟩] = .ok s1 ∧
      s1.instructions = [⟨.MOV, some (.Output, 0), some (.Temporary, 0), none, 0⟩] ∧
      s1.program_write_offset = 1) ∧
    ComponentCountsDiffer ⟨16, ⟨2, ⟨0, 1, 0, 0⟩⟩⟩ ⟨17, ⟨3, ⟨0, 1, 2, 0⟩⟩⟩ [] ∧
    processInstruction U0 initialState .MOV
        [⟨16, [⟨2, ⟨0, 1, 0, 0⟩⟩]⟩, ⟨17, [⟨3, ⟨0, 1, 2, 0⟩⟩]⟩] =
      .error (.ComponentCountMismatch 2 3 none, initialState) ∧
    (Error.ComponentCountMismatch 2 3 none).what (fun _ => 0) =
      "Input registers need to use the same number of components as the output register!(dest: 2 components, src1: 3 components)" := by
  have hacc := C1_component_count_check U0 initialState .MOV [⟨128, []⟩, ⟨16, []⟩]
    ⟨128, InputSwizzlerMask.FullMask⟩ ⟨16, InputSwizzlerMask.FullMask⟩ []
    (by rfl) (by decide) (by decide) (by decide) (by decide)
  have hrej := C1_component_count_check U0 initialState .MOV
    [⟨16, [⟨2, ⟨0, 1, 0, 0⟩⟩]⟩, ⟨17, [⟨3, ⟨0, 1, 2, 0⟩⟩]⟩]
    ⟨16, ⟨2, ⟨0, 1, 0, 0⟩⟩⟩ ⟨17, ⟨3, ⟨0, 1, 2, 0⟩⟩⟩ []
    (by rfl) (by decide) (by decide) (by decide) (by decide)
  have hno : ¬ ComponentCountsDiffer ⟨128, InputSwizzlerMask.FullMask⟩
      ⟨16, InputSwizzlerMask.FullMask⟩ [] := by decide
  have hyes : ComponentCountsDiffer ⟨16, ⟨2, ⟨0, 1, 0, 0⟩⟩⟩ ⟨17, ⟨3, ⟨0, 1, 2, 0⟩⟩⟩ [] := by decide
  refine ⟨by decide, hno, ?_, hyes, ?_, by decide⟩
  · exact ⟨_, rfl, rfl, rfl⟩
  · obtain ⟨src1, src2, h1, h2, h3, _⟩ := hrej.2.1 hyes
    rw [h3, h1, h2]
    rfl

/-- A thrown error of the arithmetic block is thrown by the step, with the state as it
was. -/
theorem processInstruction_rejected (U : Indeterminate) (s : AsmState) (opcode : OpCode)
    (args : List Expression) (arguments : List Atomic) (e : Error)
    (heval : evaluateArguments s.identifiers U.out 0 args = some arguments)
    (hty : (GetInfo opcode).type = .Arithmetic)
    (henc : encodeArithmetic U.input_mask_src2 opcode arguments = .error e) :
    processInstruction U s opcode args = .error (e, s) := by
  rw [processInstruction_arithmetic U s opcode args arguments heval hty, henc]

/-- An error of the step on an arithmetic instruction is an error of the arithmetic
block or the pattern-table limit. -/
theorem processInstruction_error_cases (U : Indeterminate) (s : AsmState) (opcode : OpCode)
    (args : List Expression) (arguments : List Atomic) (e : Error) (st : AsmState)
    (heval : evaluateArguments s.identifiers U.out 0 args = some arguments)
    (hty : (GetInfo opcode).type = .Arithmetic)
    (herr : processInstruction U s opcode args = .error (e, st)) :
    encodeArithmetic U.input_mask_src2 opcode arguments = .error e ∨ e = .SwizzlePatternLimit := by
  cases henc : encodeArithmetic U.input_mask_src2 opcode arguments with
  | error e1 =>
    rw [processInstruction_rejected U s opcode args arguments e1 heval hty henc] at herr
    left
    simp only [Except.error.injEq, Prod.mk.injEq] at herr
    rw [herr.1]
  | ok r =>
    obtain ⟨shinst, p⟩ := r
    rcases processInstruction_accepted U s opcode args arguments shinst p heval hty henc with
      ⟨_, _, hok⟩ | ⟨st1, hlim⟩
    · rw [hok] at herr
      cases herr
    · rw [hlim] at herr
      simp only [Except.error.injEq, Prod.mk.injEq] at herr
      right
      exact herr.1.symm

theorem ite_error_eq {α : Type} {c : Prop} [Decidable c] {e1 e : Error} {v : α}
    (h : (if c then Except.error e1 else Except.ok v) = Except.error e) : e = e1 := by
  split at h
  · cases h; rfl
  · cases h

theorem readable_iff_ne_output (type : RegisterType) : Readable type ↔ type ≠ .Output := by
  cases type <;> simp [Readable]

theorem writeable_iff (type : RegisterType) :
    Writeable type ↔ ¬ (type = .Input ∨ type = .FloatUniform) := by
  cases type <;> simp [Writeable]

/-- The arithmetic block on a destination that is not writeable. -/
theorem encodeArithmetic_not_writeable (u : InputSwizzlerMask) (opcode : OpCode)
    (arg0 arg1 : Atomic) (rest : List Atomic)
    (hlen : (arg0 :: arg1 :: rest).length = (GetInfo opcode).num_arguments)
    (h : ¬ Writeable arg0.GetType) :
    encodeArithmetic u opcode (arg0 :: arg1 :: rest) =
      .error (.NotWriteable arg0.GetType arg0.GetIndex) := by
  have harity : (((arg0 :: arg1 :: rest).length : Nat) : Int) =
      ((GetInfo opcode).num_arguments : Int) - 1 + 1 := by rw [hlen]; ring
  have hw : AssertRegisterWriteable arg0.GetType arg0.GetIndex =
      .error (.NotWriteable arg0.GetType arg0.GetIndex) := by
    simp only [Writeable, not_or] at h
    simp [AssertRegisterWriteable, h.1, h.2]
  simp only [encodeArithmetic, harity, ne_eq, not_true_eq_false, ↓reduceIte, hw]

/-- The arithmetic block on a writeable destination and a source of class Output. -/
theorem encodeArithmetic_not_readable (u : InputSwizzlerMask) (opcode : OpCode)
    (arg0 arg1 : Atomic) (rest : List Atomic)
    (hlen : (arg0 :: arg1 :: rest).length = (GetInfo opcode).num_arguments)
    (hw : Writeable arg0.GetType)
    (h : arg1.GetType = .Output ∨ ∃ arg2 ∈ rest.head?, arg2.GetType = .Output) :
    encodeArithmetic u opcode (arg0 :: arg1 :: rest) = .error .NotReadable := by
  have harity : (((arg0 :: arg1 :: rest).length : Nat) : Int) =
      ((GetInfo opcode).num_arguments : Int) - 1 + 1 := by rw [hlen]; ring
  have hw2 := assertRegisterWriteable_ok arg0.GetIndex hw
  by_cases h1 : arg1.GetType = .Output
  · have hr : AssertRegisterReadable arg1.GetType = .error .NotReadable := by
      simp [AssertRegisterReadable, h1]
    simp only [encodeArithmetic, harity, ne_eq, not_true_eq_false, ↓reduceIte, hw2, hr]
  · have hr := assertRegisterReadable_ok ((readable_iff_ne_output _).mpr h1)
    rcases h with h | ⟨arg2, hmem, h2⟩
    · exact absurd h h1
    · cases rest with
      | nil => simp at hmem
      | cons a rest =>
        simp only [List.head?_cons, Option.mem_def, Option.some.injEq] at hmem
        subst hmem
        have hgt : ((GetInfo opcode).num_arguments : Int) - 1 > 1 := by
          simp only [List.length_cons] at hlen
          omega
        have hr2 : AssertRegisterReadable a.GetType = .error .NotReadable := by
          simp [AssertRegisterReadable, h2]
        simp only [encodeArithmetic, harity, ne_eq, not_true_eq_false, ↓reduceIte, hw2, hr, hgt,
          hr2]

/-- The arithmetic block on two FloatUniform sources. -/
theorem encodeArithmetic_two_uniforms (u : InputSwizzlerMask) (opcode : OpCode)
    (arg0 arg1 arg2 : Atomic) (rest : List Atomic)
    (hlen : (arg0 :: arg1 :: arg2 :: rest).length = (GetInfo opcode).num_arguments)
    (hw : Writeable arg0.GetType)
    (h1 : arg1.GetType = .FloatUniform) (h2 : arg2.GetType = .FloatUniform) :
    encodeArithmetic u opcode (arg0 :: arg1 :: arg2 :: rest) = .error .TwoFloatUniforms := by
  have harity : (((arg0 :: arg1 :: arg2 :: rest).length : Nat) : Int) =
      ((GetInfo opcode).num_arguments : Int) - 1 + 1 := by rw [hlen]; ring
  have hw2 := assertRegisterWriteable_ok arg0.GetIndex hw
  have hr : AssertRegisterReadable .FloatUniform = .ok () := by
    simp [AssertRegisterReadable]
  have hgt : ((GetInfo opcode).num_arguments : Int) - 1 > 1 := by
    simp only [List.length_cons] at hlen
    omega
  simp only [encodeArithmetic, harity, ne_eq, not_true_eq_false, ↓reduceIte, hw2, hgt,
    h1, h2, hr, and_self]

/-- With a writeable destination and readable sources, the arithmetic block throws
only the two-uniform error, the dot-product error or the component-count error. -/
theorem encodeArithmetic_error_kinds (u : InputSwizzlerMask) (opcode : OpCode)
    (arg0 arg1 : Atomic) (rest : List Atomic) (e : Error)
    (hty : (GetInfo opcode).type = .Arithmetic)
    (hlen : (arg0 :: arg1 :: rest).length = (GetInfo opcode).num_arguments)
    (hw : Writeable arg0.GetType) (hr1 : Readable arg1.GetType)
    (hr2 : ∀ arg2 ∈ rest.head?, Readable arg2.GetType)
    (herr : encodeArithmetic u opcode (arg0 :: arg1 :: rest) = .error e) :
    e = .TwoFloatUniforms ∨ e = .DotProductComponents ∨
      ∃ d s1 s2, e = .ComponentCountMismatch d s1 s2 := by
  by_cases hu : ∃ arg2 ∈ rest.head?, arg1.GetType = .FloatUniform ∧ arg2.GetType = .FloatUniform
  · obtain ⟨arg2, hmem, h1, h2⟩ := hu
    cases rest with
    | nil => simp at hmem
    | cons a rest =>
      simp only [List.head?_cons, Option.mem_def, Option.some.injEq] at hmem
      subst hmem
      rw [encodeArithmetic_two_uniforms u opcode arg0 arg1 a rest hlen hw h1 h2] at herr
      left
      cases herr
      rfl
  · have hlegal : LegalRegisterClasses arg0 arg1 rest := by
      refine ⟨hw, hr1, fun arg2 hmem => ⟨hr2 arg2 hmem, fun hboth => hu ⟨arg2, hmem, hboth⟩⟩⟩
    by_cases hdp : opcode = .DP3 ∨ opcode = .DP4
    · have hrest : ∃ arg2, rest = [arg2] := by
        rcases hdp with h | h <;> subst h <;> simp [GetInfo] at hlen <;>
          match rest, hlen with
          | [a], _ => exact ⟨a, rfl⟩
      obtain ⟨arg2, rfl⟩ := hrest
      rw [encodeArithmetic_dot_product u opcode arg0 arg1 arg2 hdp hlegal] at herr
      right; left
      exact ite_error_eq herr
    · rw [encodeArithmetic_aligned u opcode arg0 arg1 rest hty (by tauto) hlen hlegal] at herr
      right; right
      exact ⟨_, _, _, ite_error_eq herr⟩

/-- C2. For every arithmetic instruction with the right number of arguments: a
destination of class Input or FloatUniform is rejected with the not-writeable error; a
writeable destination with a first source of class Output, or with a second source of
class Output, is rejected with the not-readable error; and when the destination is
Output or Temporary and every source is Input, Temporary or FloatUniform, the step
raises neither of the two errors.  A rejected instruction leaves the state as it
was. -/
theorem C2_register_class_checks (U : Indeterminate) (s : AsmState) (opcode : OpCode)
    (args : List Expression) (arg0 arg1 : Atomic) (rest : List Atomic)
    (heval : evaluateArguments s.identifiers U.out 0 args = some (arg0 :: arg1 :: rest))
    (hty : (GetInfo opcode).type = .Arithmetic)
    (hlen : (arg0 :: arg1 :: rest).length = (GetInfo opcode).num_arguments) :
    ((arg0.GetType = .Input ∨ arg0.GetType = .FloatUniform) →
        processInstruction U s opcode args =
          .error (.NotWriteable arg0.GetType arg0.GetIndex, s)) ∧
      ((arg0.GetType = .Output ∨ arg0.GetType = .Temporary) →
        (arg1.GetType = .Output ∨ ∃ arg2 ∈ rest.head?, arg2.GetType = .Output) →
        processInstruction U s opcode args = .error (.NotReadable, s)) ∧
      ((arg0.GetType = .Output ∨ arg0.GetType = .Temporary) →
        (arg1.GetType = .Input ∨ arg1.GetType = .Temporary ∨ arg1.GetType = .FloatUniform) →
        (∀ arg2 ∈ rest.head?,
          arg2.GetType = .Input ∨ arg2.GetType = .Temporary ∨ arg2.GetType = .FloatUniform) →
        ∀ e st, processInstruction U s opcode args = .error (e, st) →
          e ≠ .NotReadable ∧ ∀ type index, e ≠ .NotWriteable type index) := by
  refine ⟨?_, ?_, ?_⟩
  · intro h
    apply processInstruction_rejected U s opcode args _ _ heval hty
    exact encodeArithmetic_not_writeable _ opcode arg0 arg1 rest hlen
      (fun hw => (writeable_iff _).mp hw h)
  · intro hw h
    apply processInstruction_rejected U s opcode args _ _ heval hty
    exact encodeArithmetic_not_readable _ opcode arg0 arg1 rest hlen hw h
  · intro hw hr1 hr2 e st herr
    rcases processInstruction_error_cases U s opcode args _ e st heval hty herr with henc | hlim
    · rcases encodeArithmetic_error_kinds _ opcode arg0 arg1 rest e hty hlen hw hr1 hr2 henc with
        h | h | ⟨d, s1, s2, h⟩ <;> subst h <;> simp
    · subst hlim
      simp

/-- C2, witnesses: `mov i0, t0` is rejected as not writeable, `mov o0, o1` and
`add o0, t0, o1` as not readable, and `mov o0, t0` raises neither error. -/
theorem C2_register_class_checks_witness :
    processInstruction U0 initialState .MOV [⟨0, []⟩, ⟨16, []⟩] =
        .error (.NotWriteable .Input 0, initialState) ∧
      processInstruction U0 initialState .MOV [⟨128, []⟩, ⟨129, []⟩] =
        .error (.NotReadable, initialState) ∧
      processInstruction U0 initialState .ADD [⟨128, []⟩, ⟨16, []⟩, ⟨129, []⟩] =
        .error (.NotReadable, initialState) ∧
      (∀ e st, processInstruction U0 initialState .MOV [⟨128, []⟩, ⟨16, []⟩] = .error (e, st) →
        e ≠ .NotReadable ∧ ∀ type index, e ≠ .NotWriteable type index) :=
  ⟨(C2_register_class_checks U0 initialState .MOV [⟨0, []⟩, ⟨16, []⟩]
      ⟨0, InputSwizzlerMask.FullMask⟩ ⟨16, InputSwizzlerMask.FullMask⟩ []
      (by rfl) (by decide) (by decide)).1 (by decide),
    (C2_register_class_checks U0 initialState .MOV [⟨128, []⟩, ⟨129, []⟩]
      ⟨128, InputSwizzlerMask.FullMask⟩ ⟨129, InputSwizzlerMask.FullMask⟩ []
      (by rfl) (by decide) (by decide)).2.1 (by decide) (by decide),
    (C2_register_class_checks U0 initialState .ADD [⟨128, []⟩, ⟨16, []⟩, ⟨129, []⟩]
      ⟨128, InputSwizzlerMask.FullMask⟩ ⟨16, InputSwizzlerMask.FullMask⟩
      [⟨129, InputSwizzlerMask.FullMask⟩]
      (by rfl) (by decide) (by decide)).2.1 (by decide) (by decide),
    (C2_register_class_checks U0 initialState .MOV [⟨128, []⟩, ⟨16, []⟩]
      ⟨128, InputSwizzlerMask.FullMask⟩ ⟨16, InputSwizzlerMask.FullMask⟩ []
      (by rfl) (by decide) (by decide)).2.2 (by decide) (by decide) (by decide)⟩

theorem ite_ok_eq {α : Type} {c : Prop} [Decidable c] {e1 : Error} {v w : α}
    (h : (if c then Except.error e1 else Except.ok v) = Except.ok w) : w = v ∧ ¬ c := by
  split at h
  · cases h
  · cases h; exact ⟨rfl, by assumption⟩

/-- A dot-product opcode takes exactly three arguments. -/
theorem dot_product_rest_nil (opcode : OpCode) (arg0 arg1 arg2 : Atomic) (rest : List Atomic)
    (hdp : opcode = .DP3 ∨ opcode = .DP4)
    (hlen : (arg0 :: arg1 :: arg2 :: rest).length = (GetInfo opcode).num_arguments) :
    rest = [] := by
  rcases hdp with h | h <;> subst h <;> simp [GetInfo] at hlen <;> exact hlen

/-- The instruction word of an accepted two-source instruction: destination, then the
two sources in the order left by the swap. -/
theorem encodeArithmetic_two_source_record (u : InputSwizzlerMask) (opcode : OpCode)
    (arg0 arg1 arg2 : Atomic) (rest : List Atomic) (shinst : Instruction) (p : SwizzlePattern)
    (hlen : (arg0 :: arg1 :: arg2 :: rest).length = (GetInfo opcode).num_arguments)
    (hlegal : LegalRegisterClasses arg0 arg1 (arg2 :: rest))
    (henc : encodeArithmetic u opcode (arg0 :: arg1 :: arg2 :: rest) = .ok (shinst, p)) :
    shinst = ⟨opcode, some (arg0.GetType, arg0.GetIndex),
      some ((swapIfSecondIsUniform arg1 arg2).1.GetType, (swapIfSecondIsUniform arg1 arg2).1.GetIndex),
      some ((swapIfSecondIsUniform arg1 arg2).2.GetType, (swapIfSecondIsUniform arg1 arg2).2.GetIndex),
      0⟩ := by
  by_cases hdp : opcode = .DP3 ∨ opcode = .DP4
  · have hrest := dot_product_rest_nil opcode arg0 arg1 arg2 rest hdp hlen
    subst hrest
    rw [encodeArithmetic_dot_product u opcode arg0 arg1 arg2 hdp hlegal] at henc
    exact (Prod.mk.inj (ite_ok_eq henc).1).1
  · obtain ⟨hw, hr1, h2⟩ := hlegal
    obtain ⟨hr2, hu⟩ := h2 arg2 (by simp)
    have hlen2 : (GetInfo opcode).num_arguments = rest.length + 3 := by
      simp only [List.length_cons] at hlen; omega
    rw [encodeArithmetic_two_sources u opcode arg0 arg1 arg2 rest hlen2 (by tauto) hw hr1 hr2 hu]
      at henc
    exact (Prod.mk.inj (ite_ok_eq henc).1).1

/-- A successful instruction step appends one record, the word built by the arithmetic
block with its pattern index filled in. -/
theorem processInstruction_ok_record (U : Indeterminate) (s s1 : AsmState) (opcode : OpCode)
    (args : List Expression) (arguments : List Atomic)
    (heval : evaluateArguments s.identifiers U.out 0 args = some arguments)
    (hty : (GetInfo opcode).type = .Arithmetic)
    (hok : processInstruction U s opcode args = .ok s1) :
    ∃ shinst p it, encodeArithmetic U.input_mask_src2 opcode arguments = .ok (shinst, p) ∧
      s1.instructions = s.instructions ++ [{ shinst with operand_desc_id := it }] ∧
      s1.swizzle_patterns[it]? = some p ∧
      s1.program_write_offset = s.program_write_offset + 1 := by
  cases henc : encodeArithmetic U.input_mask_src2 opcode arguments with
  | error e =>
    rw [processInstruction_rejected U s opcode args arguments e heval hty henc] at hok
    cases hok
  | ok r =>
    obtain ⟨shinst, p⟩ := r
    refine ⟨shinst, p, ?_⟩
    rw [processInstruction_arithmetic U s opcode args arguments heval hty, henc] at hok
    by_cases hmem : p ∈ s.swizzle_patterns
    · simp only [addSwizzlePattern_mem _ _ hmem] at hok
      cases hok
      refine ⟨_, rfl, rfl, ?_, rfl⟩
      simp only
      rw [List.getElem?_eq_getElem (List.indexOf_lt_length.mpr hmem)]
      simp
    · by_cases hlim : s.swizzle_patterns.length + 1 > 127
      · simp [addSwizzlePattern_not_mem _ _ hmem, hlim] at hok
      · simp only [addSwizzlePattern_not_mem _ _ hmem, hlim, if_false] at hok
        cases hok
        refine ⟨_, rfl, rfl, ?_, rfl⟩
        simp

/-- C3. For every two-source arithmetic instruction with a writeable destination and
readable sources: if both sources are FloatUniform the step rejects it; otherwise every
record the step emits has a second source slot that is not a FloatUniform register,
its two source slots hold the sources in the order left by the swap (a FloatUniform
source written second is in the first slot), and the encoding is the one of the same
instruction written with the FloatUniform source first, masks included. -/
theorem C3_uniform_canonical_slot (U : Indeterminate) (s : AsmState) (opcode : OpCode)
    (args : List Expression) (arg0 arg1 arg2 : Atomic) (rest : List Atomic)
    (heval : evaluateArguments s.identifiers U.out 0 args = some (arg0 :: arg1 :: arg2 :: rest))
    (hty : (GetInfo opcode).type = .Arithmetic)
    (hlen : (arg0 :: arg1 :: arg2 :: rest).length = (GetInfo opcode).num_arguments)
    (hw : arg0.GetType = .Output ∨ arg0.GetType = .Temporary)
    (hr1 : arg1.GetType = .Input ∨ arg1.GetType = .Temporary ∨ arg1.GetType = .FloatUniform)
    (hr2 : arg2.GetType = .Input ∨ arg2.GetType = .Temporary ∨ arg2.GetType = .FloatUniform) :
    ((arg1.GetType = .FloatUniform ∧ arg2.GetType = .FloatUniform) →
        processInstruction U s opcode args = .error (.TwoFloatUniforms, s)) ∧
      (¬ (arg1.GetType = .FloatUniform ∧ arg2.GetType = .FloatUniform) →
        ∀ s1, processInstruction U s opcode args = .ok s1 →
          ∃ shinst, s1.instructions = s.instructions ++ [shinst] ∧
            (∀ index, shinst.src2 ≠ some (.FloatUniform, index)) ∧
            (arg2.GetType = .FloatUniform →
              shinst.src1 = some (.FloatUniform, arg2.GetIndex) ∧
              shinst.src2 = some (arg1.GetType, arg1.GetIndex) ∧
              encodeArithmetic U.input_mask_src2 opcode (arg0 :: arg1 :: arg2 :: rest) =
                encodeArithmetic U.input_mask_src2 opcode (arg0 :: arg2 :: arg1 :: rest)) ∧
            (arg2.GetType ≠ .FloatUniform →
              shinst.src1 = some (arg1.GetType, arg1.GetIndex) ∧
              shinst.src2 = some (arg2.GetType, arg2.GetIndex))) := by
  refine ⟨?_, ?_⟩
  · rintro ⟨h1, h2⟩
    apply processInstruction_rejected U s opcode args _ _ heval hty
    exact encodeArithmetic_two_uniforms _ opcode arg0 arg1 arg2 rest hlen hw h1 h2
  · intro hu s1 hok
    have hlegal : LegalRegisterClasses arg0 arg1 (arg2 :: rest) := by
      refine ⟨hw, hr1, fun a hmem => ?_⟩
      simp only [List.head?_cons, Option.mem_def, Option.some.injEq] at hmem
      subst hmem
      exact ⟨hr2, hu⟩
    obtain ⟨shinst, p, it, henc, hins, _, _⟩ :=
      processInstruction_ok_record U s s1 opcode args _ heval hty hok
    have hrec := encodeArithmetic_two_source_record _ opcode arg0 arg1 arg2 rest shinst p hlen
      hlegal henc
    refine ⟨_, hins, ?_, ?_, ?_⟩
    · intro index
      subst hrec
      by_cases h2 : arg2.GetType = .FloatUniform
      · have h1 : arg1.GetType ≠ .FloatUniform := fun h1 => hu ⟨h1, h2⟩
        simp [swapIfSecondIsUniform, h2, h1]
      · simp [swapIfSecondIsUniform, h2]
    · intro h2
      have h1 : arg1.GetType ≠ .FloatUniform := fun h1 => hu ⟨h1, h2⟩
      subst hrec
      refine ⟨by simp [swapIfSecondIsUniform, h2], by simp [swapIfSecondIsUniform, h2], ?_⟩
      have hlen' : (arg0 :: arg2 :: arg1 :: rest).length = (GetInfo opcode).num_arguments := by
        simpa using hlen
      have hlen2 : (GetInfo opcode).num_arguments = rest.length + 3 := by
        simp only [List.length_cons] at hlen; omega
      have hsw : swapIfSecondIsUniform arg2 arg1 = swapIfSecondIsUniform arg1 arg2 := by
        simp [swapIfSecondIsUniform, h1, h2]
      have hu' : ¬ (arg2.GetType = .FloatUniform ∧ arg1.GetType = .FloatUniform) :=
        fun h => h1 h.2
      by_cases hdp : opcode = .DP3 ∨ opcode = .DP4
      · have hrest := dot_product_rest_nil opcode arg0 arg1 arg2 rest hdp hlen
        subst hrest
        have hlegal' : LegalRegisterClasses arg0 arg2 [arg1] := by
          refine ⟨hw, hr2, fun a hmem => ?_⟩
          simp only [List.head?_cons, Option.mem_def, Option.some.injEq] at hmem
          subst hmem
          exact ⟨hr1, hu'⟩
        rw [encodeArithmetic_dot_product _ opcode arg0 arg1 arg2 hdp hlegal,
          encodeArithmetic_dot_product _ opcode arg0 arg2 arg1 hdp hlegal', hsw]
      · rw [encodeArithmetic_two_sources _ opcode arg0 arg1 arg2 rest hlen2 (by tauto) hw hr1 hr2
            hu,
          encodeArithmetic_two_sources _ opcode arg0 arg2 arg1 rest hlen2 (by tauto) hw hr2 hr1
            hu', hsw]
    · intro h2
      subst hrec
      exact ⟨by simp [swapIfSecondIsUniform, h2], by simp [swapIfSecondIsUniform, h2]⟩

/-- C3, witnesses: `add o0, f0, f1` is rejected, and the record emitted for
`add o0, t0, f0` has f0 in the first source slot and t0 in the second. -/
theorem C3_uniform_canonical_slot_witness :
    processInstruction U0 initialState .ADD [⟨128, []⟩, ⟨32, []⟩, ⟨33, []⟩] =
        .error (.TwoFloatUniforms, initialState) ∧
      (∃ shinst,
        [(⟨.ADD, some (.Output, 0), some (.FloatUniform, 0), some (.Temporary, 0), 0⟩ :
            Instruction)] = initialState.instructions ++ [shinst] ∧
          (∀ index, shinst.src2 ≠ some (.FloatUniform, index)) ∧
          shinst.src1 = some (.FloatUniform, 0) ∧ shinst.src2 = some (.Temporary, 0)) := by
  refine ⟨(C3_uniform_canonical_slot U0 initialState .ADD [⟨128, []⟩, ⟨32, []⟩, ⟨33, []⟩]
      ⟨128, InputSwizzlerMask.FullMask⟩ ⟨32, InputSwizzlerMask.FullMask⟩
      ⟨33, InputSwizzlerMask.FullMask⟩ []
      (by rfl) (by decide) (by decide) (by decide) (by decide) (by decide)).1 (by decide), ?_⟩
  obtain ⟨shinst, h1, h2, h3, _⟩ :=
    (C3_uniform_canonical_slot U0 initialState .ADD [⟨128, []⟩, ⟨16, []⟩, ⟨32, []⟩]
      ⟨128, InputSwizzlerMask.FullMask⟩ ⟨16, InputSwizzlerMask.FullMask⟩
      ⟨32, InputSwizzlerMask.FullMask⟩ []
      (by rfl) (by decide) (by decide) (by decide) (by decide) (by decide)).2 (by decide)
      { initialState with
        instructions := [⟨.ADD, some (.Output, 0), some (.FloatUniform, 0), some (.Temporary, 0), 0⟩]
        swizzle_patterns := [⟨⟨true, true, true, true⟩, ⟨0, 1, 2, 3⟩, ⟨0, 1, 2, 3⟩⟩]
        program_write_offset := 1 }
      (by rfl)
  exact ⟨shinst, h1, h2, (h3 (by decide)).1, (h3 (by decide)).2.1⟩

/-- What a successful instruction step has done. -/
theorem processInstruction_ok_inv (U : Indeterminate) (s s1 : AsmState) (opcode : OpCode)
    (args : List Expression) (hok : processInstruction U s opcode args = .ok s1) :
    ∃ arguments shinst p swizzle_patterns it,
      evaluateArguments s.identifiers U.out 0 args = some arguments ∧
      (GetInfo opcode).type = .Arithmetic ∧
      encodeArithmetic U.input_mask_src2 opcode arguments = .ok (shinst, p) ∧
      addSwizzlePattern s.swizzle_patterns p = .ok (swizzle_patterns, it) ∧
      s1 = { s with
             swizzle_patterns := swizzle_patterns
             instructions := s.instructions ++ [{ shinst with operand_desc_id := it }]
             program_write_offset := s.program_write_offset + 1 } := by
  cases heval : evaluateArguments s.identifiers U.out 0 args with
  | none => simp [processInstruction, heval] at hok
  | some arguments =>
    cases hty : (GetInfo opcode).type with
    | Other => simp [processInstruction, heval, hty] at hok
    | Arithmetic =>
      rw [processInstruction_arithmetic U s opcode args arguments heval hty] at hok
      cases henc : encodeArithmetic U.input_mask_src2 opcode arguments with
      | error e => simp [henc] at hok
      | ok r =>
        obtain ⟨shinst, p⟩ := r
        cases hadd : addSwizzlePattern s.swizzle_patterns p with
        | error e => simp [henc, hadd] at hok
        | ok r2 =>
          obtain ⟨pats, it⟩ := r2
          simp only [henc, hadd, Except.ok.injEq] at hok
          exact ⟨arguments, shinst, p, pats, it, rfl, rfl, henc, hadd, hok.symm⟩

/-- The table and index returned by the pattern search: the pattern is at the index,
and the old table is an initial part of the new one. -/
theorem addSwizzlePattern_ok (swizzle_patterns pats : List SwizzlePattern) (p : SwizzlePattern)
    (it : Nat) (h : addSwizzlePattern swizzle_patterns p = .ok (pats, it)) :
    pats[it]? = some p ∧ p ∈ pats ∧
      ((p ∈ swizzle_patterns ∧ pats = swizzle_patterns) ∨
        (p ∉ swizzle_patterns ∧ pats = swizzle_patterns ++ [p] ∧ pats.length ≤ 127)) := by
  by_cases hmem : p ∈ swizzle_patterns
  · rw [addSwizzlePattern_mem _ _ hmem] at h
    simp only [Except.ok.injEq, Prod.mk.injEq] at h
    obtain ⟨rfl, rfl⟩ := h
    refine ⟨?_, hmem, Or.inl ⟨hmem, rfl⟩⟩
    rw [List.getElem?_eq_getElem (List.indexOf_lt_length.mpr hmem)]
    simp
  · rw [addSwizzlePattern_not_mem _ _ hmem] at h
    by_cases hlim : swizzle_patterns.length + 1 > 127
    · simp [hlim] at h
    · simp only [hlim, if_false, Except.ok.injEq, Prod.mk.injEq] at h
      obtain ⟨rfl, rfl⟩ := h
      refine ⟨by simp, by simp, Or.inr ⟨hmem, rfl, ?_⟩⟩
      simp only [List.length_append, List.length_singleton]
      omega

/-- The step on an accepted instruction whose pattern search succeeds. -/
theorem processInstruction_ok_of_add (U : Indeterminate) (s : AsmState) (opcode : OpCode)
    (args : List Expression) (arguments : List Atomic) (shinst : Instruction)
    (p : SwizzlePattern) (pats : List SwizzlePattern) (it : Nat)
    (heval : evaluateArguments s.identifiers U.out 0 args = some arguments)
    (hty : (GetInfo opcode).type = .Arithmetic)
    (henc : encodeArithmetic U.input_mask_src2 opcode arguments = .ok (shinst, p))
    (hadd : addSwizzlePattern s.swizzle_patterns p = .ok (pats, it)) :
    processInstruction U s opcode args =
      .ok { s with
            swizzle_patterns := pats
            instructions := s.instructions ++ [{ shinst with operand_desc_id := it }]
            program_write_offset := s.program_write_offset + 1 } := by
  rw [processInstruction_arithmetic U s opcode args arguments heval hty, henc]
  simp only [hadd]

/-- With fewer than 127 patterns in the table the pattern search does not throw. -/
theorem addSwizzlePattern_room (swizzle_patterns : List SwizzlePattern) (p : SwizzlePattern)
    (h : swizzle_patterns.length < 127) :
    ∃ pats it, addSwizzlePattern swizzle_patterns p = .ok (pats, it) := by
  by_cases hmem : p ∈ swizzle_patterns
  · exact ⟨_, _, addSwizzlePattern_mem _ _ hmem⟩
  · refine ⟨swizzle_patterns ++ [p], swizzle_patterns.length, ?_⟩
    rw [addSwizzlePattern_not_mem _ _ hmem, if_neg (by omega)]

/-- Searching again for a pattern that has just been looked up gives the same table
and the same index. -/
theorem addSwizzlePattern_again (swizzle_patterns pats : List SwizzlePattern)
    (p : SwizzlePattern) (it : Nat)
    (h : addSwizzlePattern swizzle_patterns p = .ok (pats, it)) :
    addSwizzlePattern pats p = .ok (pats, it) := by
  by_cases hmem : p ∈ swizzle_patterns
  · rw [addSwizzlePattern_mem _ _ hmem] at h
    simp only [Except.ok.injEq, Prod.mk.injEq] at h
    obtain ⟨rfl, rfl⟩ := h
    exact addSwizzlePattern_mem _ _ hmem
  · rw [addSwizzlePattern_not_mem _ _ hmem] at h
    split at h
    · cases h
    · simp only [Except.ok.injEq, Prod.mk.injEq] at h
      obtain ⟨rfl, rfl⟩ := h
      rw [addSwizzlePattern_mem _ _ (by simp)]
      simp [List.indexOf_append_of_not_mem hmem]

/-- C4. For every two-source opcode other than dp3 and dp4, writeable destination d,
readable non-uniform source a and FloatUniform source f with matching mask lengths:
`op d, a, f` and `op d, f, a` are both accepted by the arithmetic block and give the
same instruction word and the same swizzle pattern, with f in the first source slot.
When the first is assembled and then the second, the second leaves the pattern table
as the first left it and emits a record equal to the first one, pattern index
included; the first succeeds whenever the table holds fewer than 127 patterns. -/
theorem C4_operand_order_canonical (U U1 : Indeterminate) (s : AsmState) (opcode : OpCode)
    (args args1 : List Expression) (d a f : Atomic) (rest : List Atomic)
    (heval : evaluateArguments s.identifiers U.out 0 args = some (d :: a :: f :: rest))
    (heval1 : evaluateArguments s.identifiers U1.out 0 args1 = some (d :: f :: a :: rest))
    (hty : (GetInfo opcode).type = .Arithmetic)
    (hdp : opcode ≠ .DP3 ∧ opcode ≠ .DP4)
    (hlen : (d :: a :: f :: rest).length = (GetInfo opcode).num_arguments)
    (hd : d.GetType = .Output ∨ d.GetType = .Temporary)
    (ha : a.GetType = .Input ∨ a.GetType = .Temporary)
    (hf : f.GetType = .FloatUniform)
    (hda : d.mask.num_components = a.mask.num_components)
    (hfa : f.mask.num_components = a.mask.num_components) :
    ∃ shinst p,
      encodeArithmetic U.input_mask_src2 opcode (d :: a :: f :: rest) = .ok (shinst, p) ∧
      encodeArithmetic U1.input_mask_src2 opcode (d :: f :: a :: rest) = .ok (shinst, p) ∧
      shinst.src1 = some (.FloatUniform, f.GetIndex) ∧
      shinst.src2 = some (a.GetType, a.GetIndex) ∧
      (∀ s1, processInstruction U s opcode args = .ok s1 →
        ∃ it, s1.instructions = s.instructions ++ [{ shinst with operand_desc_id := it }] ∧
          s1.swizzle_patterns[it]? = some p ∧
          processInstruction U1 s1 opcode args1 =
            .ok { s1 with
                  instructions := s1.instructions ++ [{ shinst with operand_desc_id := it }]
                  program_write_offset := s1.program_write_offset + 1 }) ∧
      (s.swizzle_patterns.length < 127 → ∃ s1, processInstruction U s opcode args = .ok s1) := by
  have hlen2 : (GetInfo opcode).num_arguments = rest.length + 3 := by
    simp only [List.length_cons] at hlen; omega
  have hra : Readable a.GetType := by rcases ha with h | h <;> simp [Readable, h]
  have hrf : Readable f.GetType := by simp [Readable, hf]
  have hau : a.GetType ≠ .FloatUniform := by rcases ha with h | h <;> simp [h]
  have hsw : swapIfSecondIsUniform a f = (f, a) := by simp [swapIfSecondIsUniform, hf]
  have hsw1 : swapIfSecondIsUniform f a = (f, a) := by simp [swapIfSecondIsUniform, hau]
  have h1 := encodeArithmetic_two_sources U.input_mask_src2 opcode d a f rest hlen2 hdp hd hra hrf
    (fun h => hau h.1)
  have h2 := encodeArithmetic_two_sources U1.input_mask_src2 opcode d f a rest hlen2 hdp hd hrf hra
    (fun h => hau h.2)
  simp only [hsw, hda, hfa, ne_eq, not_true_eq_false, or_self, ↓reduceIte] at h1
  simp only [hsw1, hda, hfa, ne_eq, not_true_eq_false, or_self, ↓reduceIte] at h2
  refine ⟨_, _, h1, h2, by simp [hf], rfl, ?_, ?_⟩
  · intro s1 hok
    obtain ⟨arguments, shinst, p, pats, it, hev, _, henc, hadd, hs1⟩ :=
      processInstruction_ok_inv U s s1 opcode args hok
    rw [heval] at hev
    cases hev
    rw [h1] at henc
    cases henc
    obtain ⟨hget, hmem, hcase⟩ := addSwizzlePattern_ok _ _ _ _ hadd
    have hid : s1.identifiers = s.identifiers := by rw [hs1]
    have hpats : s1.swizzle_patterns = pats := by rw [hs1]
    refine ⟨it, by rw [hs1], by rw [hpats]; exact hget, ?_⟩
    have hadd1 := addSwizzlePattern_again _ _ _ _ hadd
    rw [← hpats] at hadd1
    rw [processInstruction_ok_of_add U1 s1 opcode args1 (d :: f :: a :: rest) _ _
      s1.swizzle_patterns it (by rw [hid]; exact heval1) hty h2 hadd1]
  · intro hroom
    obtain ⟨pats, it, hadd⟩ := addSwizzlePattern_room s.swizzle_patterns
      (buildSwizzlePattern (((GetInfo opcode).num_arguments : Int) - 1)
        (DestSwizzlerMask.ofInput d.mask)
        (SourceSwizzlerMask.AccordingToDestMask f.mask (DestSwizzlerMask.ofInput d.mask))
        (SourceSwizzlerMask.AccordingToDestMask a.mask (DestSwizzlerMask.ofInput d.mask))) hroom
    exact ⟨_, processInstruction_ok_of_add U s opcode args _ _ _ pats it heval hty h1 hadd⟩

/-- C4, witness: `add o0, t0, f0` and `add o0, f0, t0` encode to the same word and
pattern, and the program made of the two leaves one pattern-table entry, referenced by
two equal records. -/
theorem C4_operand_order_canonical_witness :
    (∃ shinst p,
      encodeArithmetic U0.input_mask_src2 .ADD
          [⟨128, InputSwizzlerMask.FullMask⟩, ⟨16, InputSwizzlerMask.FullMask⟩,
            ⟨32, InputSwizzlerMask.FullMask⟩] = .ok (shinst, p) ∧
        encodeArithmetic U0.input_mask_src2 .ADD
          [⟨128, InputSwizzlerMask.FullMask⟩, ⟨32, InputSwizzlerMask.FullMask⟩,
            ⟨16, InputSwizzlerMask.FullMask⟩] = .ok (shinst, p) ∧
        shinst.src1 = some (.FloatUniform, 0) ∧ shinst.src2 = some (.Temporary, 0)) ∧
      (processStatements (fun _ => U0) 0 initialState
          [.Instruction .ADD [⟨128, []⟩, ⟨16, []⟩, ⟨32, []⟩],
            .Instruction .ADD [⟨128, []⟩, ⟨32, []⟩, ⟨16, []⟩]]).toOption.map
          (fun s => (s.instructions, s.swizzle_patterns, s.program_write_offset)) =
        some
          ([⟨.ADD, some (.Output, 0), some (.FloatUniform, 0), some (.Temporary, 0), 0⟩,
              ⟨.ADD, some (.Output, 0), some (.FloatUniform, 0), some (.Temporary, 0), 0⟩],
            [⟨⟨true, true, true, true⟩, ⟨0, 1, 2, 3⟩, ⟨0, 1, 2, 3⟩⟩], 2) := by
  obtain ⟨shinst, p, h1, h2, h3, h4, _⟩ :=
    C4_operand_order_canonical U0 U0 initialState .ADD
      [⟨128, []⟩, ⟨16, []⟩, ⟨32, []⟩] [⟨128, []⟩, ⟨32, []⟩, ⟨16, []⟩]
      ⟨128, InputSwizzlerMask.FullMask⟩ ⟨16, InputSwizzlerMask.FullMask⟩
      ⟨32, InputSwizzlerMask.FullMask⟩ []
      (by rfl) (by rfl) (by decide) (by decide) (by decide) (by decide) (by decide) (by decide)
      (by decide) (by decide)
  exact ⟨⟨shinst, p, h1, h2, h3, h4⟩, by decide!⟩

theorem ite_error_exists_iff {α : Type} {c : Prop} [Decidable c] {e1 : Error} {v : α} :
    (∃ e, (if c then Except.error e1 else Except.ok v) = Except.error e) ↔ c := by
  by_cases h : c <;> simp [h]

/-- C5. For dp3 (respectively dp4) with legal register classes: the arithmetic block
rejects the instruction if and only if the source-1 mask or the source-2 mask does not
have exactly 3 (respectively 4) components, whatever mask the destination has.  In that
case the step throws the dot-product error and leaves the state as it was; otherwise
the step appends a record, unless the pattern table overflows. -/
theorem C5_dot_product_check (U : Indeterminate) (s : AsmState) (opcode : OpCode)
    (args : List Expression) (arg0 arg1 arg2 : Atomic)
    (heval : evaluateArguments s.identifiers U.out 0 args = some [arg0, arg1, arg2])
    (hop : opcode = .DP3 ∨ opcode = .DP4)
    (hlegal : LegalRegisterClasses arg0 arg1 [arg2]) :
    ((∃ e, encodeArithmetic U.input_mask_src2 opcode [arg0, arg1, arg2] = .error e) ↔
        (arg1.mask.num_components ≠ (if opcode = .DP3 then 3 else 4) ∨
          arg2.mask.num_components ≠ (if opcode = .DP3 then 3 else 4))) ∧
      (∀ dest_mask : InputSwizzlerMask,
        (∃ e, encodeArithmetic U.input_mask_src2 opcode
            [⟨arg0.register_index, dest_mask⟩, arg1, arg2] = .error e) ↔
          (∃ e, encodeArithmetic U.input_mask_src2 opcode [arg0, arg1, arg2] = .error e)) ∧
      ((arg1.mask.num_components ≠ (if opcode = .DP3 then 3 else 4) ∨
          arg2.mask.num_components ≠ (if opcode = .DP3 then 3 else 4)) →
        processInstruction U s opcode args = .error (.DotProductComponents, s)) ∧
      (¬ (arg1.mask.num_components ≠ (if opcode = .DP3 then 3 else 4) ∨
          arg2.mask.num_components ≠ (if opcode = .DP3 then 3 else 4)) →
        (∃ s1, processInstruction U s opcode args = .ok s1 ∧
            s1.instructions.length = s.instructions.length + 1) ∨
          (∃ st, processInstruction U s opcode args = .error (.SwizzlePatternLimit, st))) := by
  have hty : (GetInfo opcode).type = .Arithmetic := by
    rcases hop with h | h <;> subst h <;> rfl
  have hcond : ∀ n : Nat,
      ((swapIfSecondIsUniform arg1 arg2).1.mask.num_components ≠ n ∨
        (swapIfSecondIsUniform arg1 arg2).2.mask.num_components ≠ n) ↔
      (arg1.mask.num_components ≠ n ∨ arg2.mask.num_components ≠ n) := by
    intro n
    unfold swapIfSecondIsUniform
    split
    · exact Or.comm
    · exact Iff.rfl
  have hmain : ∀ a0 : Atomic, LegalRegisterClasses a0 arg1 [arg2] →
      ((∃ e, encodeArithmetic U.input_mask_src2 opcode [a0, arg1, arg2] = .error e) ↔
        (arg1.mask.num_components ≠ (if opcode = .DP3 then 3 else 4) ∨
          arg2.mask.num_components ≠ (if opcode = .DP3 then 3 else 4))) := by
    intro a0 hl
    rw [encodeArithmetic_dot_product _ opcode a0 arg1 arg2 hop hl]
    exact ite_error_exists_iff.trans (hcond _)
  have hlegal' : ∀ dest_mask : InputSwizzlerMask,
      LegalRegisterClasses ⟨arg0.register_index, dest_mask⟩ arg1 [arg2] := by
    intro dest_mask
    exact hlegal
  refine ⟨hmain arg0 hlegal, fun dest_mask => ?_, ?_, ?_⟩
  · rw [hmain _ (hlegal' dest_mask), hmain arg0 hlegal]
  · intro h
    apply processInstruction_rejected U s opcode args _ _ heval hty
    rw [encodeArithmetic_dot_product _ opcode arg0 arg1 arg2 hop hlegal]
    simp only
    rw [if_pos ((hcond _).mpr h)]
  · intro h
    have henc : ∃ r, encodeArithmetic U.input_mask_src2 opcode [arg0, arg1, arg2] = .ok r := by
      rw [encodeArithmetic_dot_product _ opcode arg0 arg1 arg2 hop hlegal]
      simp only
      rw [if_neg (fun hc => h ((hcond _).mp hc))]
      exact ⟨_, rfl⟩
    obtain ⟨⟨shinst, p⟩, henc⟩ := henc
    rcases processInstruction_accepted U s opcode args _ _ _ heval hty henc with
      ⟨pats, it, hok⟩ | herr
    · left
      exact ⟨_, hok, by simp⟩
    · right
      exact herr

/-- C5, witnesses: `dp3 o0.x, t0.xyz, t1.xyz` is accepted and emits one record, although
its destination mask has one component; `dp3 o0, t0, t1` (source masks of length 4) and
`dp4 o0, t0.xyz, t1` are rejected. -/
theorem C5_dot_product_check_witness :
    (∃ s1, processInstruction U0 initialState .DP3
        [⟨128, [⟨1, ⟨0, 0, 0, 0⟩⟩]⟩, ⟨16, [⟨3, ⟨0, 1, 2, 0⟩⟩]⟩, ⟨17, [⟨3, ⟨0, 1, 2, 0⟩⟩]⟩] = .ok s1 ∧
      s1.instructions = [⟨.DP3, some (.Output, 0), some (.Temporary, 0), some (.Temporary, 1), 0⟩] ∧
      s1.swizzle_patterns = [⟨⟨true, false, false, false⟩, ⟨0, 1, 2, 0⟩, ⟨0, 1, 2, 0⟩⟩] ∧
      s1.program_write_offset = 1) ∧
    ¬ (∃ e, encodeArithmetic U0.input_mask_src2 .DP3
        [⟨128, ⟨1, ⟨0, 0, 0, 0⟩⟩⟩, ⟨16, ⟨3, ⟨0, 1, 2, 0⟩⟩⟩, ⟨17, ⟨3, ⟨0, 1, 2, 0⟩⟩⟩] = .error e) ∧
    processInstruction U0 initialState .DP3 [⟨128, []⟩, ⟨16, []⟩, ⟨17, []⟩] =
      .error (.DotProductComponents, initialState) ∧
    processInstruction U0 initialState .DP4 [⟨128, []⟩, ⟨16, [⟨3, ⟨0, 1, 2, 0⟩⟩]⟩, ⟨17, []⟩] =
      .error (.DotProductComponents, initialState) := by
  refine ⟨⟨_, by rfl, rfl, rfl, rfl⟩, ?_, ?_, ?_⟩
  · rw [(C5_dot_product_check U0 initialState .DP3
      [⟨128, [⟨1, ⟨0, 0, 0, 0⟩⟩]⟩, ⟨16, [⟨3, ⟨0, 1, 2, 0⟩⟩]⟩, ⟨17, [⟨3, ⟨0, 1, 2, 0⟩⟩]⟩]
      ⟨128, ⟨1, ⟨0, 0, 0, 0⟩⟩⟩ ⟨16, ⟨3, ⟨0, 1, 2, 0⟩⟩⟩ ⟨17, ⟨3, ⟨0, 1, 2, 0⟩⟩⟩
      (by rfl) (by decide) (by decide)).1]
    decide
  · exact (C5_dot_product_check U0 initialState .DP3 [⟨128, []⟩, ⟨16, []⟩, ⟨17, []⟩]
      ⟨128, InputSwizzlerMask.FullMask⟩ ⟨16, InputSwizzlerMask.FullMask⟩
      ⟨17, InputSwizzlerMask.FullMask⟩
      (by rfl) (by decide) (by decide)).2.2.1 (by decide)
  · exact (C5_dot_product_check U0 initialState .DP4
      [⟨128, []⟩, ⟨16, [⟨3, ⟨0, 1, 2, 0⟩⟩]⟩, ⟨17, []⟩]
      ⟨128, InputSwizzlerMask.FullMask⟩ ⟨16, ⟨3, ⟨0, 1, 2, 0⟩⟩⟩
      ⟨17, InputSwizzlerMask.FullMask⟩
      (by rfl) (by decide) (by decide)).2.2.1 (by decide)

/-- C6. Every instruction statement whose opcode is not of the Arithmetic category
(these are ret, flush and call) is rejected: the step throws, with the unknown
instruction error once its arguments are evaluated, and the state at the throw is the
state before the statement, so no record is emitted and `program_write_offset` is not
advanced; the statement loop stops there. -/
theorem C6_non_arithmetic_rejected (U : Indeterminate) (s : AsmState) (opcode : OpCode)
    (args : List Expression) (hty : (GetInfo opcode).type ≠ .Arithmetic) :
    (opcode = .RET ∨ opcode = .FLUSH ∨ opcode = .CALL) ∧
      (∃ e, processInstruction U s opcode args = .error (e, s)) ∧
      (∀ arguments, evaluateArguments s.identifiers U.out 0 args = some arguments →
        processInstruction U s opcode args = .error (.UnknownInstruction, s)) ∧
      (∀ (u : Nat → Indeterminate) (n : Nat) (rest : List Statement),
        ∃ e, processStatements u n s (.Instruction opcode args :: rest) = .error (e, s)) := by
  have hother : (GetInfo opcode).type = .Other := by
    cases h : (GetInfo opcode).type
    · exact absurd h hty
    · rfl
  have hstep : ∀ U : Indeterminate, ∃ e, processInstruction U s opcode args = .error (e, s) := by
    intro U
    cases heval : evaluateArguments s.identifiers U.out 0 args with
    | none => exact ⟨.OutOfBounds, by simp [processInstruction, heval]⟩
    | some arguments => exact ⟨.UnknownInstruction, by simp [processInstruction, heval, hother]⟩
  refine ⟨?_, hstep U, ?_, ?_⟩
  · cases opcode <;> simp [GetInfo] at hty ⊢
  · intro arguments heval
    simp [processInstruction, heval, hother]
  · intro u n rest
    obtain ⟨e, he⟩ := hstep (u n)
    exact ⟨e, by simp [processStatements, processStatement, he]⟩

/-- C6, witnesses: `ret`, `flush` and `call t0` are rejected from the initial state,
which is left with no record and offset 0. -/
theorem C6_non_arithmetic_rejected_witness :
    processInstruction U0 initialState .RET [] = .error (.UnknownInstruction, initialState) ∧
      processInstruction U0 initialState .FLUSH [] = .error (.UnknownInstruction, initialState) ∧
      (∃ e, processInstruction U0 initialState .CALL [⟨16, []⟩] = .error (e, initialState)) ∧
      initialState.instructions = [] ∧ initialState.program_write_offset = 0 :=
  ⟨(C6_non_arithmetic_rejected U0 initialState .RET [] (by decide)).2.2.1 [] rfl,
    (C6_non_arithmetic_rejected U0 initialState .FLUSH [] (by decide)).2.2.1 [] rfl,
    (C6_non_arithmetic_rejected U0 initialState .CALL [⟨16, []⟩] (by decide)).2.1,
    by decide, by decide⟩

theorem tablesConsistent_initialState : TablesConsistent initialState := by
  have h1 : initialState.swizzle_patterns = [] := by decide
  have h2 : initialState.instructions = [] := by decide
  have h3 : initialState.symbol_table = [] := by decide
  have h4 : initialState.label_table = [] := by decide
  have h5 : initialState.program_write_offset = 0 := by decide
  exact ⟨by rw [h1]; exact List.nodup_nil, by rw [h5, h2]; rfl, by rw [h3]; exact List.nodup_nil,
    by rw [h4, h3]; rfl⟩

/-- What a successful label step has done. -/
theorem processLabel_ok_inv (s s1 : AsmState) (label_symbol : String)
    (hok : processLabel s label_symbol = .ok s1) :
    label_symbol ∉ s.symbol_table ∧
      s1 = { s with
             symbol_table := s.symbol_table ++ [label_symbol]
             label_table := s.label_table ++ [⟨s.program_write_offset, s.symbol_table.length⟩] } := by
  unfold processLabel at hok
  split at hok
  · cases hok
  · rename_i h
    simp only [List.length_append, List.length_singleton, Nat.add_sub_cancel, Except.ok.injEq]
      at hok
    exact ⟨h, hok.symm⟩

/-- What a successful declaration step has done. -/
theorem processDeclaration_ok_inv (s s1 : AsmState) (var : StatementDeclaration)
    (hok : processDeclaration s var = .ok s1) :
    ∃ identifiers context, s1 = { s with identifiers := identifiers, context := context } := by
  unfold processDeclaration at hok
  split at hok
  split at hok
  · cases hok
  · cases hok
    exact ⟨_, _, rfl⟩

theorem tablesConsistent_step (U : Indeterminate) (s s1 : AsmState) (statement : Statement)
    (h : TablesConsistent s) (hok : processStatement U s statement = .ok s1) :
    TablesConsistent s1 := by
  cases statement with
  | Label name =>
    obtain ⟨hnew, rfl⟩ := processLabel_ok_inv s s1 name hok
    refine ⟨h.patterns_nodup, h.offset_eq, ?_, ?_⟩
    · exact List.Nodup.append h.symbols_nodup (List.nodup_singleton _) (by simpa using hnew)
    · simp only [List.map_append, List.map_cons, List.map_nil, List.length_append,
        List.length_singleton, List.range_succ, h.label_symbols]
  | Instruction opcode args =>
    obtain ⟨arguments, shinst, p, pats, it, _, _, _, hadd, rfl⟩ :=
      processInstruction_ok_inv U s s1 opcode args hok
    refine ⟨?_, ?_, h.symbols_nodup, h.label_symbols⟩
    · rcases (addSwizzlePattern_ok _ _ _ _ hadd).2.2 with ⟨_, rfl⟩ | ⟨hnew, rfl, _⟩
      · exact h.patterns_nodup
      · exact List.Nodup.append h.patterns_nodup (List.nodup_singleton _) (by simpa using hnew)
    · simp [h.offset_eq]
  | Declaration var =>
    obtain ⟨ids, ctx, rfl⟩ := processDeclaration_ok_inv s s1 var hok
    exact ⟨h.patterns_nodup, h.offset_eq, h.symbols_nodup, h.label_symbols⟩

theorem tablesConsistent_run (u : Nat → Indeterminate) (statements : List Statement) :
    ∀ (n : Nat) (s s1 : AsmState), TablesConsistent s →
      processStatements u n s statements = .ok s1 → TablesConsistent s1 := by
  induction statements with
  | nil =>
    intro n s s1 h hok
    simp only [processStatements, Except.ok.injEq] at hok
    exact hok ▸ h
  | cons statement rest ih =>
    intro n s s1 h hok
    simp only [processStatements] at hok
    cases hstep : processStatement (u n) s statement with
    | error e => simp [hstep] at hok
    | ok s2 =>
      simp only [hstep] at hok
      exact ih (n + 1) s2 s1 (tablesConsistent_step (u n) s s2 statement h hstep) hok

/-- C7. After any run of successfully processed statements from the initial state
the swizzle-pattern table has no two equal entries.  An instruction whose pattern is
already in the table leaves the table unchanged and its record gets the index of the
existing entry; hence encoding the same instruction twice in a row appends two equal
records, with the same pattern index, and the second time leaves the table as it
is. -/
theorem C7_pattern_table_dedup :
    (∀ (u : Nat → Indeterminate) (statements : List Statement) (s1 : AsmState),
        processStatements u 0 initialState statements = .ok s1 → s1.swizzle_patterns.Nodup) ∧
      (∀ (U : Indeterminate) (s : AsmState) (opcode : OpCode) (args : List Expression)
          (arguments : List Atomic) (shinst : Instruction) (p : SwizzlePattern),
        evaluateArguments s.identifiers U.out 0 args = some arguments →
        (GetInfo opcode).type = .Arithmetic →
        encodeArithmetic U.input_mask_src2 opcode arguments = .ok (shinst, p) →
        p ∈ s.swizzle_patterns →
        ∃ it, it < s.swizzle_patterns.length ∧ s.swizzle_patterns[it]? = some p ∧
          processInstruction U s opcode args =
            .ok { s with
                  instructions := s.instructions ++ [{ shinst with operand_desc_id := it }]
                  program_write_offset := s.program_write_offset + 1 }) ∧
      (∀ (U : Indeterminate) (s s1 : AsmState) (opcode : OpCode) (args : List Expression),
        processInstruction U s opcode args = .ok s1 →
        ∃ record, s1.instructions = s.instructions ++ [record] ∧
          s1.swizzle_patterns[record.operand_desc_id]? ≠ none ∧
          processInstruction U s1 opcode args =
            .ok { s1 with
                  instructions := s1.instructions ++ [record]
                  program_write_offset := s1.program_write_offset + 1 }) := by
  refine ⟨?_, ?_, ?_⟩
  · intro u statements s1 hok
    exact (tablesConsistent_run u statements 0 initialState s1 tablesConsistent_initialState
      hok).patterns_nodup
  · intro U s opcode args arguments shinst p heval hty henc hmem
    have hadd := addSwizzlePattern_mem _ _ hmem
    have hlt : s.swizzle_patterns.indexOf p < s.swizzle_patterns.length :=
      List.indexOf_lt_length.mpr hmem
    refine ⟨s.swizzle_patterns.indexOf p, hlt, (addSwizzlePattern_ok _ _ _ _ hadd).1, ?_⟩
    exact processInstruction_ok_of_add U s opcode args arguments shinst p _ _ heval hty henc hadd
  · intro U s s1 opcode args hok
    obtain ⟨arguments, shinst, p, pats, it, heval, hty, henc, hadd, rfl⟩ :=
      processInstruction_ok_inv U s s1 opcode args hok
    refine ⟨{ shinst with operand_desc_id := it }, rfl, ?_, ?_⟩
    · simp only [(addSwizzlePattern_ok _ _ _ _ hadd).1]
      simp
    · exact processInstruction_ok_of_add U _ opcode args arguments shinst p pats it heval hty henc
        (addSwizzlePattern_again _ _ _ _ hadd)

/-- C7, witness: `mov o0, t0` twice from the initial state gives two equal records
with pattern index 0 and a table of one entry. -/
theorem C7_pattern_table_dedup_witness :
    ∃ s1, processStatements (fun _ => U0) 0 initialState
        [.Instruction .MOV [⟨128, []⟩, ⟨16, []⟩], .Instruction .MOV [⟨128, []⟩, ⟨16, []⟩]] =
          .ok s1 ∧
      s1.swizzle_patterns.Nodup ∧
      s1.instructions =
        [⟨.MOV, some (.Output, 0), some (.Temporary, 0), none, 0⟩,
          ⟨.MOV, some (.Output, 0), some (.Temporary, 0), none, 0⟩] ∧
      s1.swizzle_patterns = [⟨⟨true, true, true, true⟩, ⟨0, 1, 2, 3⟩, ⟨0, 0, 0, 0⟩⟩] := by
  have hv : (processStatements (fun _ => U0) 0 initialState
        [.Instruction .MOV [⟨128, []⟩, ⟨16, []⟩],
          .Instruction .MOV [⟨128, []⟩, ⟨16, []⟩]]).toOption.map
        (fun s => (s.instructions, s.swizzle_patterns)) =
      some
        ([⟨.MOV, some (.Output, 0), some (.Temporary, 0), none, 0⟩,
            ⟨.MOV, some (.Output, 0), some (.Temporary, 0), none, 0⟩],
          [⟨⟨true, true, true, true⟩, ⟨0, 1, 2, 3⟩, ⟨0, 0, 0, 0⟩⟩]) := by decide!
  cases hrun : processStatements (fun _ => U0) 0 initialState
      [.Instruction .MOV [⟨128, []⟩, ⟨16, []⟩], .Instruction .MOV [⟨128, []⟩, ⟨16, []⟩]] with
  | error e =>
    rw [hrun] at hv
    cases hv
  | ok s1 =>
    rw [hrun] at hv
    simp only [Except.toOption, Option.map_some', Option.some.injEq, Prod.mk.injEq] at hv
    exact ⟨s1, rfl, C7_pattern_table_dedup.1 _ _ s1 hrun, hv.1, hv.2⟩

/-- C8. For an instruction the arithmetic block accepts with pattern `p`: when the table
holds 126 entries and `p` is new, the step succeeds and the table then holds 127
entries, `p` last; when the table holds 127 entries and `p` is new, the step throws the
limit error; and when `p` is already in the table the step succeeds and leaves the
table unchanged, also when the table holds 127 entries. -/
theorem C8_pattern_table_limit (U : Indeterminate) (s : AsmState) (opcode : OpCode)
    (args : List Expression) (arguments : List Atomic) (shinst : Instruction)
    (p : SwizzlePattern)
    (heval : evaluateArguments s.identifiers U.out 0 args = some arguments)
    (hty : (GetInfo opcode).type = .Arithmetic)
    (henc : encodeArithmetic U.input_mask_src2 opcode arguments = .ok (shinst, p)) :
    (s.swizzle_patterns.length = 126 → p ∉ s.swizzle_patterns →
        ∃ s1, processInstruction U s opcode args = .ok s1 ∧
          s1.swizzle_patterns = s.swizzle_patterns ++ [p] ∧
          s1.swizzle_patterns.length = 127 ∧
          s1.instructions = s.instructions ++ [{ shinst with operand_desc_id := 126 }]) ∧
      (s.swizzle_patterns.length = 127 → p ∉ s.swizzle_patterns →
        ∃ st, processInstruction U s opcode args = .error (.SwizzlePatternLimit, st) ∧
          st.instructions = s.instructions ∧
          st.program_write_offset = s.program_write_offset) ∧
      (p ∈ s.swizzle_patterns →
        ∃ s1, processInstruction U s opcode args = .ok s1 ∧
          s1.swizzle_patterns = s.swizzle_patterns ∧
          s1.instructions.length = s.instructions.length + 1) := by
  refine ⟨?_, ?_, ?_⟩
  · intro hlen hnew
    have hadd : addSwizzlePattern s.swizzle_patterns p =
        .ok (s.swizzle_patterns ++ [p], s.swizzle_patterns.length) := by
      rw [addSwizzlePattern_not_mem _ _ hnew, if_neg (by omega)]
    refine ⟨_, processInstruction_ok_of_add U s opcode args arguments shinst p _ _ heval hty henc
      hadd, rfl, by simp [hlen], by simp [hlen]⟩
  · intro hlen hnew
    refine ⟨{ s with swizzle_patterns := s.swizzle_patterns ++ [p] }, ?_, rfl, rfl⟩
    rw [processInstruction_arithmetic U s opcode args arguments heval hty, henc]
    simp [addSwizzlePattern_not_mem _ _ hnew, hlen]
  · intro hmem
    refine ⟨_, processInstruction_ok_of_add U s opcode args arguments shinst p _ _ heval hty henc
      (addSwizzlePattern_mem _ _ hmem), rfl, by simp⟩

/-- C8, witnesses.  The table holds the patterns of the first 126 (127) instructions of
the program `add o0.D, t0.A, t1.B`, which are pairwise different.  With 126 in the
table, instruction 126 (a new pattern) is accepted and makes 127; with 127 in the
table, instruction 127 (a 128th pattern) throws the limit error, and instruction 0 (a
pattern in the table) is accepted and leaves the table as it is. -/
theorem C8_pattern_table_limit_witness :
    (stateWithPatterns 126).swizzle_patterns.length = 126 ∧
      (stateWithPatterns 127).swizzle_patterns.length = 127 ∧
      (stateWithPatterns 127).swizzle_patterns.Nodup ∧
      (∃ s1, processInstruction U0 (stateWithPatterns 126) .ADD (distinctPatternArgs 126) = .ok s1 ∧
        s1.swizzle_patterns = (stateWithPatterns 127).swizzle_patterns) ∧
      (∃ st, processInstruction U0 (stateWithPatterns 127) .ADD (distinctPatternArgs 127) =
        .error (.SwizzlePatternLimit, st)) ∧
      (∃ s1, processInstruction U0 (stateWithPatterns 127) .ADD (distinctPatternArgs 0) = .ok s1 ∧
        s1.swizzle_patterns = (stateWithPatterns 127).swizzle_patterns) := by
  have hlen126 : (stateWithPatterns 126).swizzle_patterns.length = 126 := by
    simp only [stateWithPatterns, List.length_map, List.length_range]
  have hlen127 : (stateWithPatterns 127).swizzle_patterns.length = 127 := by
    simp only [stateWithPatterns, List.length_map, List.length_range]
  have hnext : (stateWithPatterns 126).swizzle_patterns ++ [(distinctPatternEncoding 126).2] =
      (stateWithPatterns 127).swizzle_patterns := by
    show (List.range 126).map (fun k => (distinctPatternEncoding k).2) ++ [_] =
      (List.range (126 + 1)).map (fun k => (distinctPatternEncoding k).2)
    rw [List.range_succ, List.map_append]
    rfl
  refine ⟨hlen126, hlen127, by decide!, ?_, ?_, ?_⟩
  · obtain ⟨s1, h1, h2, _⟩ :=
      (C8_pattern_table_limit U0 (stateWithPatterns 126) .ADD (distinctPatternArgs 126)
        (distinctPatternAtoms 126) (distinctPatternEncoding 126).1 (distinctPatternEncoding 126).2
        (by rfl) (by decide) (by rfl)).1 hlen126 (by decide!)
    exact ⟨s1, h1, by rw [h2, hnext]⟩
  · obtain ⟨st, h1, _⟩ :=
      (C8_pattern_table_limit U0 (stateWithPatterns 127) .ADD (distinctPatternArgs 127)
        (distinctPatternAtoms 127) (distinctPatternEncoding 127).1 (distinctPatternEncoding 127).2
        (by rfl) (by decide) (by rfl)).2.1 hlen127 (by decide!)
    exact ⟨st, h1⟩
  · obtain ⟨s1, h1, h2, _⟩ :=
      (C8_pattern_table_limit U0 (stateWithPatterns 127) .ADD (distinctPatternArgs 0)
        (distinctPatternAtoms 0) (distinctPatternEncoding 0).1 (distinctPatternEncoding 0).2
        (by rfl) (by decide) (by rfl)).2.2 (by decide!)
    exact ⟨s1, h1, h2⟩

/-- C9. A label statement with a name that is already in the symbol table throws the
duplicate-label error and leaves the state, hence both tables, as it was.  With a new
name it appends the name to the symbol table and appends to the label table the pair of
`program_write_offset` and the index of the name in the symbol table.  In every state a
run reaches from the initial state `program_write_offset` is the number of instruction
records emitted so far and the symbol table has no repeated name. -/
theorem C9_label_statement :
    (∀ (s : AsmState) (name : String), name ∈ s.symbol_table →
        processLabel s name = .error (.LabelAlreadyDefined name, s)) ∧
      (∀ (s : AsmState) (name : String), name ∉ s.symbol_table →
        processLabel s name =
          .ok { s with
                symbol_table := s.symbol_table ++ [name]
                label_table :=
                  s.label_table ++ [⟨s.program_write_offset, s.symbol_table.length⟩] } ∧
        (s.symbol_table ++ [name]).indexOf name = s.symbol_table.length) ∧
      (∀ (u : Nat → Indeterminate) (statements : List Statement) (s : AsmState),
        processStatements u 0 initialState statements = .ok s →
        s.program_write_offset = s.instructions.length ∧ s.symbol_table.Nodup ∧
          ∀ (U : Indeterminate) (name : String), name ∉ s.symbol_table →
            processStatement U s (.Label name) =
              .ok { s with
                    symbol_table := s.symbol_table ++ [name]
                    label_table :=
                      s.label_table ++ [⟨s.instructions.length, s.symbol_table.length⟩] }) := by
  have hnew : ∀ (s : AsmState) (name : String), name ∉ s.symbol_table →
      processLabel s name =
        .ok { s with
              symbol_table := s.symbol_table ++ [name]
              label_table :=
                s.label_table ++ [⟨s.program_write_offset, s.symbol_table.length⟩] } := by
    intro s name h
    simp [processLabel, h]
  refine ⟨?_, ?_, ?_⟩
  · intro s name h
    simp [processLabel, h]
  · intro s name h
    exact ⟨hnew s name h, by simp [List.indexOf_append_of_not_mem h]⟩
  · intro u statements s hrun
    have hc := tablesConsistent_run u statements 0 initialState s tablesConsistent_initialState hrun
    refine ⟨hc.offset_eq, hc.symbols_nodup, fun U name h => ?_⟩
    simp only [processStatement]
    rw [hnew s name h, hc.offset_eq]

/-- C9, witness: after `loop:` a second `loop:` is rejected, and the state at the throw
still has the one name and the one label. -/
theorem C9_label_statement_witness :
    processLabel initialState "loop" =
        .ok { initialState with symbol_table := ["loop"], label_table := [⟨0, 0⟩] } ∧
      processLabel { initialState with symbol_table := ["loop"], label_table := [⟨0, 0⟩] } "loop" =
        .error (.LabelAlreadyDefined "loop",
          { initialState with symbol_table := ["loop"], label_table := [⟨0, 0⟩] }) ∧
      (processStatements (fun _ => U0) 0 initialState [.Label "loop", .Label "loop"]).thrown =
        some (.LabelAlreadyDefined "loop") := by
  refine ⟨?_, ?_, by decide!⟩
  · have h := (C9_label_statement.2.1 initialState "loop" (by decide)).1
    rw [h]
    rfl
  · exact C9_label_statement.1
      { initialState with symbol_table := ["loop"], label_table := [⟨0, 0⟩] } "loop" (by decide)

/-- The byte offset of entry `k` is the sum of length + 1 over the entries before
it. -/
theorem getSymbolTableEntryByteOffset_eq_sum (symbol_table : List String) :
    ∀ k, k ≤ symbol_table.length →
      GetSymbolTableEntryByteOffset symbol_table k =
        ((symbol_table.take k).map (fun name => name.utf8ByteSize + 1)).sum := by
  intro k
  induction k with
  | zero => intro _; simp [GetSymbolTableEntryByteOffset]
  | succ k ih =>
    intro hk
    have hlt : k < symbol_table.length := by omega
    have ih := ih (by omega)
    unfold GetSymbolTableEntryByteOffset at ih ⊢
    rw [List.range_succ, List.foldl_append, ih]
    simp only [List.foldl_cons, List.foldl_nil]
    rw [List.take_succ, List.getElem?_eq_getElem hlt, List.getD_eq_getElem _ _ hlt]
    simp only [Option.toList, List.map_append, List.sum_append, List.map_cons, List.map_nil,
      List.sum_cons, List.sum_nil, Nat.add_zero]

theorem getSymbolTableEntryByteOffset_append (before rest : List String) :
    GetSymbolTableEntryByteOffset (before ++ rest) before.length =
      (before.map (fun name => name.utf8ByteSize + 1)).sum := by
  rw [getSymbolTableEntryByteOffset_eq_sum _ _ (by simp)]
  simp

/-- The search of `main_offset`, on the indices of the symbol table. -/
theorem find_main_index (before after : List String) (h : "main" ∉ before) :
    (List.range (before ++ "main" :: after).length).find?
        (fun k => "main" == (before ++ "main" :: after).getD k "") = some before.length := by
  have hlen : (before ++ "main" :: after).length = before.length + (after.length + 1) := by
    simp
  rw [hlen, List.range_add, List.find?_append]
  have hnone : (List.range before.length).find?
      (fun k => "main" == (before ++ "main" :: after).getD k "") = none := by
    rw [List.find?_eq_none]
    intro k hk
    simp only [List.mem_range] at hk
    simp only [beq_iff_eq, List.getD_eq_getElem?_getD]
    rw [List.getElem?_append_left hk, List.getElem?_eq_getElem hk]
    intro heq
    apply h
    simp only [Option.getD_some] at heq
    rw [heq]
    exact List.getElem_mem _
  rw [hnone, List.range_succ_eq_map]
  have hget : (before ++ "main" :: after)[before.length]? = some "main" := by
    rw [List.getElem?_eq_getElem (by simp)]
    exact congrArg some (List.getElem_of_append rfl rfl)
  simp [List.getD_eq_getElem?_getD, hget]

theorem find_main_none (symbol_table : List String) (h : "main" ∉ symbol_table) :
    (List.range symbol_table.length).find? (fun k => "main" == symbol_table.getD k "") = none := by
  rw [List.find?_eq_none]
  intro k hk
  simp only [List.mem_range] at hk
  simp only [beq_iff_eq, List.getD_eq_getElem?_getD]
  rw [List.getElem?_eq_getElem hk]
  intro heq
  apply h
  simp only [Option.getD_some] at heq
  rw [heq]
  exact List.getElem_mem _

/-- The search of the label table is the search of the indices it holds. -/
theorem find_label_map (s : AsmState) :
    (s.label_table.find?
        (fun label => "main" == s.symbol_table.getD label.symbol_table_index "")).map
        (·.symbol_table_index) =
      (s.label_table.map (·.symbol_table_index)).find?
        (fun k => "main" == s.symbol_table.getD k "") := by
  rw [List.find?_map]
  rfl

/-- The entry point when `main` is defined. -/
theorem main_offset_of_main (s : AsmState) (hc : TablesConsistent s) (before after : List String)
    (hsym : s.symbol_table = before ++ "main" :: after) :
    main_offset s = .ok ((before.map (fun name => name.utf8ByteSize + 1)).sum) := by
  have hnot : "main" ∉ before := by
    have hnd := hc.symbols_nodup
    rw [hsym] at hnd
    intro hmem
    have := (List.nodup_append.mp hnd).2.2
    exact this hmem (by simp)
  have hfind := find_label_map s
  rw [hc.label_symbols, hsym, find_main_index before after hnot] at hfind
  unfold main_offset
  rw [hsym]
  cases hl : s.label_table.find?
      (fun label => "main" == (before ++ "main" :: after).getD label.symbol_table_index "") with
  | none => rw [hl] at hfind; cases hfind
  | some label =>
    rw [hl] at hfind
    simp only [Option.map_some', Option.some.injEq] at hfind
    simp only [hfind]
    rw [getSymbolTableEntryByteOffset_append]

/-- No entry point when `main` is not defined. -/
theorem main_offset_of_no_main (s : AsmState) (hc : TablesConsistent s)
    (h : "main" ∉ s.symbol_table) : main_offset s = .error .NoMainLabel := by
  have hfind := find_label_map s
  rw [hc.label_symbols, find_main_none _ h] at hfind
  unfold main_offset
  cases hl : s.label_table.find?
      (fun label => "main" == s.symbol_table.getD label.symbol_table_index "") with
  | none => rfl
  | some label => rw [hl] at hfind; cases hfind

/-- The symbol table after a run is the symbol table before it followed by the names
of the label statements. -/
theorem symbol_table_run (u : Nat → Indeterminate) (statements : List Statement) :
    ∀ (n : Nat) (s s1 : AsmState), processStatements u n s statements = .ok s1 →
      s1.symbol_table = s.symbol_table ++ labelNames statements := by
  induction statements with
  | nil =>
    intro n s s1 hok
    simp only [processStatements, Except.ok.injEq] at hok
    simp [labelNames, hok]
  | cons statement rest ih =>
    intro n s s1 hok
    simp only [processStatements] at hok
    cases hstep : processStatement (u n) s statement with
    | error e => simp [hstep] at hok
    | ok s2 =>
      simp only [hstep] at hok
      rw [ih (n + 1) s2 s1 hok]
      cases statement with
      | Label name =>
        obtain ⟨_, rfl⟩ := processLabel_ok_inv s s2 name hstep
        simp [labelNames]
      | Instruction opcode args =>
        obtain ⟨_, _, _, _, _, _, _, _, _, rfl⟩ := processInstruction_ok_inv (u n) s s2 opcode args hstep
        simp [labelNames]
      | Declaration var =>
        obtain ⟨_, _, rfl⟩ := processDeclaration_ok_inv s s2 var hstep
        simp [labelNames]

/-- C10. When every statement of the input has been processed successfully and no
text is left: if a label named `main` is among the label statements, assembly succeeds
and the entry-point field `main_offset_words` of the executable header is the sum of
length + 1 over the label names defined before `main`, which is the byte offset of
`main` in the symbol string table; if no label is named `main`, assembly fails with the
missing-main error. -/
theorem C10_entry_point (sizes : HeaderSizes) (u : Nat → Indeterminate)
    (statements : List Statement) (s : AsmState)
    (hrun : processStatements u 0 initialState statements = .ok s) :
    s.symbol_table = labelNames statements ∧
      (∀ before after, labelNames statements = before ++ "main" :: after →
        ∃ c, assemble sizes u statements "" = .ok c ∧
          c.dvle_main_offset_words = (before.map (fun name => name.utf8ByteSize + 1)).sum ∧
          c.dvle_main_offset_words =
            GetSymbolTableEntryByteOffset s.symbol_table before.length ∧
          s.symbol_table[before.length]? = some "main") ∧
      ("main" ∉ labelNames statements →
        assemble sizes u statements "" = .error .NoMainLabel) := by
  have hc := tablesConsistent_run u statements 0 initialState s tablesConsistent_initialState hrun
  have hsym : s.symbol_table = labelNames statements := by
    have h := symbol_table_run u statements 0 initialState s hrun
    have h0 : initialState.symbol_table = [] := by decide
    rw [h, h0, List.nil_append]
  refine ⟨hsym, ?_, ?_⟩
  · intro before after hdec
    have hmain := main_offset_of_main s hc before after (hsym.trans hdec)
    have hget : (before ++ "main" :: after)[before.length]? = some "main" := by
      rw [List.getElem?_eq_getElem (by simp)]
      exact congrArg some (List.getElem_of_append rfl rfl)
    have hfield : (serialize sizes s
        ((before.map (fun name => name.utf8ByteSize + 1)).sum)).dvle_main_offset_words =
        (before.map (fun name => name.utf8ByteSize + 1)).sum := rfl
    refine ⟨serialize sizes s ((before.map (fun name => name.utf8ByteSize + 1)).sum), ?_, hfield,
      ?_, ?_⟩
    · simp [assemble, hrun, hmain]
    · rw [hfield, hsym, hdec, getSymbolTableEntryByteOffset_append]
    · rw [hsym, hdec]
      exact hget
  · intro hno
    have hmain := main_offset_of_no_main s hc (hsym ▸ hno)
    simp [assemble, hrun, hmain]

/-- C10, witnesses: for `loop: mov o0, t0 main: mov o0, t0` the entry point is 5, the
length of `loop` plus its terminator; `mov o0, t0 loop:` is processed to the end and
then fails for want of a `main` label. -/
theorem C10_entry_point_witness :
    (∃ c, assemble ⟨12, 40, 64, 16, 4⟩ (fun _ => U0)
        [.Label "loop", .Instruction .MOV [⟨128, []⟩, ⟨16, []⟩], .Label "main",
          .Instruction .MOV [⟨128, []⟩, ⟨16, []⟩]] "" = .ok c ∧
      c.dvle_main_offset_words = 5) ∧
    (processStatements (fun _ => U0) 0 initialState
        [.Instruction .MOV [⟨128, []⟩, ⟨16, []⟩], .Label "loop"]).toOption.isSome = true ∧
    assemble ⟨12, 40, 64, 16, 4⟩ (fun _ => U0)
        [.Instruction .MOV [⟨128, []⟩, ⟨16, []⟩], .Label "loop"] "" = .error .NoMainLabel := by
  have h1 : (processStatements (fun _ => U0) 0 initialState
      [.Label "loop", .Instruction .MOV [⟨128, []⟩, ⟨16, []⟩], .Label "main",
        .Instruction .MOV [⟨128, []⟩, ⟨16, []⟩]]).toOption.isSome = true := by decide!
  have h2 : (processStatements (fun _ => U0) 0 initialState
      [.Instruction .MOV [⟨128, []⟩, ⟨16, []⟩], .Label "loop"]).toOption.isSome = true := by
    decide!
  refine ⟨?_, h2, ?_⟩
  · cases hrun : processStatements (fun _ => U0) 0 initialState
        [.Label "loop", .Instruction .MOV [⟨128, []⟩, ⟨16, []⟩], .Label "main",
          .Instruction .MOV [⟨128, []⟩, ⟨16, []⟩]] with
    | error e => rw [hrun] at h1; cases h1
    | ok s =>
      obtain ⟨c, hc, hoff, _⟩ :=
        (C10_entry_point ⟨12, 40, 64, 16, 4⟩ (fun _ => U0) _ s hrun).2.1 ["loop"] [] (by decide)
      exact ⟨c, hc, by rw [hoff]; decide⟩
  · cases hrun : processStatements (fun _ => U0) 0 initialState
        [.Instruction .MOV [⟨128, []⟩, ⟨16, []⟩], .Label "loop"] with
    | error e => rw [hrun] at h2; cases h2
    | ok s =>
      exact (C10_entry_point ⟨12, 40, 64, 16, 4⟩ (fun _ => U0) _ s hrun).2.2 (by decide)

/-- C20. For every register index r below 144, `GetType` is Input, Temporary,
FloatUniform or Output according to the range [0,16), [16,32), [32,128) or [128,144)
that holds r, `GetIndex` is r minus the lower bound of that range, so that the lower
bound of `GetType` plus `GetIndex` is r; hence two indices with the same class and the
same local index are equal.  The mask plays no part. -/
theorem C20_register_space_partition (r : Nat) (mask : InputSwizzlerMask) (hr : r < 144) :
    ((⟨r, mask⟩ : Atomic).GetType = .Input ↔ r < 16) ∧
      ((⟨r, mask⟩ : Atomic).GetType = .Temporary ↔ 16 ≤ r ∧ r < 32) ∧
      ((⟨r, mask⟩ : Atomic).GetType = .FloatUniform ↔ 32 ≤ r ∧ r < 128) ∧
      ((⟨r, mask⟩ : Atomic).GetType = .Output ↔ 128 ≤ r ∧ r < 144) ∧
      (⟨r, mask⟩ : Atomic).GetIndex = r - RegisterSpace.base (⟨r, mask⟩ : Atomic).GetType ∧
      RegisterSpace.base (⟨r, mask⟩ : Atomic).GetType + (⟨r, mask⟩ : Atomic).GetIndex = r ∧
      (∀ (r1 : Nat) (mask1 : InputSwizzlerMask),
        (⟨r1, mask1⟩ : Atomic).GetType = (⟨r, mask⟩ : Atomic).GetType →
        (⟨r1, mask1⟩ : Atomic).GetIndex = (⟨r, mask⟩ : Atomic).GetIndex → r1 = r) := by
  have hsum : ∀ (a : Nat) (m : InputSwizzlerMask),
      RegisterSpace.base (⟨a, m⟩ : Atomic).GetType + (⟨a, m⟩ : Atomic).GetIndex = a := by
    intro a m
    simp only [Atomic.GetType, Atomic.GetIndex, RegisterSpace.Output, RegisterSpace.FloatUniform,
      RegisterSpace.Temporary, RegisterSpace.Input]
    split_ifs <;> simp only [RegisterSpace.base, RegisterSpace.Output,
      RegisterSpace.FloatUniform, RegisterSpace.Temporary, RegisterSpace.Input] <;> omega
  refine ⟨?_, ?_, ?_, ?_, ?_, hsum r mask, ?_⟩
  · simp only [Atomic.GetType, RegisterSpace.Output, RegisterSpace.FloatUniform,
      RegisterSpace.Temporary]
    split_ifs <;> simp <;> omega
  · simp only [Atomic.GetType, RegisterSpace.Output, RegisterSpace.FloatUniform,
      RegisterSpace.Temporary]
    split_ifs <;> simp <;> omega
  · simp only [Atomic.GetType, RegisterSpace.Output, RegisterSpace.FloatUniform,
      RegisterSpace.Temporary]
    split_ifs <;> simp <;> omega
  · simp only [Atomic.GetType, RegisterSpace.Output, RegisterSpace.FloatUniform,
      RegisterSpace.Temporary]
    split_ifs <;> simp <;> omega
  · have := hsum r mask
    omega
  · intro r1 mask1 hty hidx
    have h1 := hsum r1 mask1
    have h2 := hsum r mask
    rw [hty, hidx] at h1
    omega

/-- C20, witness: register 130 is Output with local index 2, register 33 is FloatUniform
with local index 1, and 128 + 2 = 130. -/
theorem C20_register_space_partition_witness :
    (⟨130, InputSwizzlerMask.FullMask⟩ : Atomic).GetType = .Output ∧
      (⟨130, InputSwizzlerMask.FullMask⟩ : Atomic).GetIndex = 2 ∧
      (⟨33, InputSwizzlerMask.FullMask⟩ : Atomic).GetType = .FloatUniform ∧
      (⟨33, InputSwizzlerMask.FullMask⟩ : Atomic).GetIndex = 1 ∧
      RegisterSpace.base (⟨130, InputSwizzlerMask.FullMask⟩ : Atomic).GetType +
        (⟨130, InputSwizzlerMask.FullMask⟩ : Atomic).GetIndex = 130 :=
  ⟨by decide, by decide, by decide, by decide,
    (C20_register_space_partition 130 InputSwizzlerMask.FullMask (by decide)).2.2.2.2.2.1⟩

/-- The seeding loop over any list of indices. -/
theorem seeding_fold (xs : List Nat) :
    ∀ s0 : AsmState,
      xs.foldl
          (fun s i =>
            { s with
              identifiers := s.identifiers ++ [⟨i, InputSwizzlerMask.FullMask⟩]
              context := s.context.add (seedName i) i })
          s0 =
        { s0 with
          identifiers := s0.identifiers ++ xs.map (fun i => ⟨i, InputSwizzlerMask.FullMask⟩)
          context := xs.foldl (fun c i => c.add (seedName i) i) s0.context } := by
  induction xs with
  | nil => intro s0; simp
  | cons x xs ih =>
    intro s0
    simp only [List.foldl_cons, List.map_cons]
    rw [ih]
    simp

/-- Adding names that are new, one after the other, appends them in order. -/
theorem context_fold (xs : List Nat) :
    ∀ c0 : ParserContext, (c0.identifiers.map (·.1) ++ xs.map seedName).Nodup →
      xs.foldl (fun c i => c.add (seedName i) i) c0 =
        ⟨c0.identifiers ++ xs.map (fun i => (seedName i, i))⟩ := by
  induction xs with
  | nil => intro c0 _; simp
  | cons x xs ih =>
    intro c0 h
    simp only [List.foldl_cons, List.map_cons]
    have hnew : ¬ (c0.identifiers.any (fun e => e.1 == seedName x)) = true := by
      intro hany
      simp only [List.any_eq_true, beq_iff_eq] at hany
      obtain ⟨e, he, heq⟩ := hany
      have hd := (List.nodup_append.mp h).2.2
      exact hd (List.mem_map_of_mem (·.1) he) (by simp [heq])
    have hadd : c0.add (seedName x) x = ⟨c0.identifiers ++ [(seedName x, x)]⟩ := by
      simp only [ParserContext.add]
      rw [if_neg hnew]
    rw [hadd, ih]
    · simp
    · simpa using h

theorem seedName_nodup : ((List.range 144).map seedName).Nodup := by
  have h : ((List.range 144).map (fun i => nameCode (seedName i))).Nodup := by decide!
  have h2 : (List.range 144).map (fun i => nameCode (seedName i)) =
      ((List.range 144).map seedName).map nameCode := by simp
  rw [h2] at h
  exact List.Nodup.of_map nameCode h

theorem initialState_eq :
    initialState =
      ⟨[], [], [], [], 0, (List.range 144).map (fun i => ⟨i, InputSwizzlerMask.FullMask⟩),
        ⟨(List.range 144).map (fun i => (seedName i, i))⟩⟩ := by
  unfold initialState
  have h144 : (0x90 : Nat) = 144 := rfl
  rw [h144, seeding_fold, context_fold _ _ (by simpa using seedName_nodup)]
  simp

/-- The name of a seeded register is found at its index. -/
theorem find_seedName (i : Nat) (hi : i < 144) :
    (⟨(List.range 144).map (fun i => (seedName i, i))⟩ : ParserContext).find (seedName i) =
      some i := by
  have hinj : ∀ x ∈ List.range 144, ∀ y ∈ List.range 144, seedName x = seedName y → x = y :=
    (List.nodup_map_iff_inj_on (List.nodup_range 144)).mp seedName_nodup
  have hfind : ((List.range 144).map (fun i => (seedName i, i))).find?
      (fun e => e.1 == seedName i) = some (seedName i, i) := by
    rw [List.find?_eq_some]
    refine ⟨by simp, (List.range i).map (fun i => (seedName i, i)),
      ((List.range (144 - i - 1)).map (fun k => i + 1 + k)).map (fun i => (seedName i, i)), ?_, ?_⟩
    · have hsplit : List.range 144 =
          List.range i ++ i :: (List.range (144 - i - 1)).map (fun k => i + 1 + k) := by
        have h1 : 144 = i + ((144 - i - 1) + 1) := by omega
        conv_lhs => rw [h1, List.range_add, List.range_succ_eq_map]
        simp [Function.comp, Nat.add_assoc, Nat.add_comm 1]
      conv_lhs => rw [hsplit]
      simp
    · intro e he
      simp only [List.mem_map, List.mem_range] at he
      obtain ⟨j, hj, rfl⟩ := he
      simp only [Bool.not_eq_true', beq_eq_false_iff_ne, ne_eq]
      intro heq
      have := hinj j (List.mem_range.mpr (by omega)) i (List.mem_range.mpr hi) heq
      omega
  simp [ParserContext.find, hfind]

/-- C19. When the statement loop starts the identifier table has exactly 144 entries,
entry i being register index i with the full mask xyzw (4 components x, y, z, w), and
the symbol table of names has 144 entries; for every i below 144 the name bound to i is
the letter of its range (`i`, `t`, `f`, `o`) followed by the decimal local index
(i, i - 16, i - 32, i - 128), and the 144 names are pairwise distinct. -/
theorem C19_identifier_seeding :
    initialState.identifiers.length = 144 ∧
      InputSwizzlerMask.FullMask = ⟨4, ⟨0, 1, 2, 3⟩⟩ ∧
      (∀ i < 144, initialState.identifiers[i]? = some ⟨i, InputSwizzlerMask.FullMask⟩) ∧
      initialState.context.identifiers = (List.range 144).map (fun i => (seedName i, i)) ∧
      (∀ i < 144, initialState.context.find (seedName i) = some i) ∧
      (∀ i < 16, seedName i = "i" ++ toString i) ∧
      (∀ i < 144, 16 ≤ i → i < 32 → seedName i = "t" ++ toString (i - 16)) ∧
      (∀ i < 144, 32 ≤ i → i < 128 → seedName i = "f" ++ toString (i - 32)) ∧
      (∀ i < 144, 128 ≤ i → seedName i = "o" ++ toString (i - 128)) ∧
      ((List.range 144).map seedName).Nodup := by
  refine ⟨?_, rfl, ?_, ?_, ?_, ?_, ?_, ?_, ?_, seedName_nodup⟩
  · rw [initialState_eq]; simp
  · intro i hi
    rw [initialState_eq]
    simp [List.getElem?_map, List.getElem?_range hi]
  · rw [initialState_eq]
  · intro i hi
    rw [initialState_eq]
    exact find_seedName i hi
  · intro i hi
    have h1 : ¬ i ≥ RegisterSpace.Output := by simp [RegisterSpace.Output]; omega
    have h2 : ¬ i ≥ RegisterSpace.FloatUniform := by simp [RegisterSpace.FloatUniform]; omega
    have h3 : ¬ i ≥ RegisterSpace.Temporary := by simp [RegisterSpace.Temporary]; omega
    unfold seedName
    rw [if_neg h1, if_neg h2, if_neg h3]
    rfl
  · intro i _ h16 h32
    have h1 : ¬ i ≥ RegisterSpace.Output := by simp [RegisterSpace.Output]; omega
    have h2 : ¬ i ≥ RegisterSpace.FloatUniform := by simp [RegisterSpace.FloatUniform]; omega
    have h3 : i ≥ RegisterSpace.Temporary := by simp [RegisterSpace.Temporary]; omega
    unfold seedName
    rw [if_neg h1, if_neg h2, if_pos h3]
    rfl
  · intro i _ h32 h128
    have h1 : ¬ i ≥ RegisterSpace.Output := by simp [RegisterSpace.Output]; omega
    have h2 : i ≥ RegisterSpace.FloatUniform := by simp [RegisterSpace.FloatUniform]; omega
    unfold seedName
    rw [if_neg h1, if_pos h2]
    rfl
  · intro i _ h128
    have h1 : i ≥ RegisterSpace.Output := by simp [RegisterSpace.Output]; omega
    unfold seedName
    rw [if_pos h1]
    rfl

/-- C19, witness: entry 17 is register 17 with the full mask and is named `t1`; entry
143 is named `o15`; entry 127 is named `f95`. -/
theorem C19_identifier_seeding_witness :
    initialState.identifiers[17]? = some ⟨17, ⟨4, ⟨0, 1, 2, 3⟩⟩⟩ ∧
      seedName 17 = "t1" ∧ seedName 143 = "o15" ∧ seedName 127 = "f95" ∧ seedName 0 = "i0" ∧
      initialState.context.find "t1" = some 17 :=
  ⟨C19_identifier_seeding.2.2.1 17 (by decide), by decide, by decide, by decide, by decide,
    C19_identifier_seeding.2.2.2.2.1 17 (by decide)⟩

/-- The queue after the loop over the swizzle patterns. -/
theorem queue_swizzle_patterns (size : Nat) (n : Nat) :
    ∀ q : WriteState,
      (List.range n).foldl
          (fun q i =>
            (QueueForWriting (QueueForWriting q (.swizzle_pattern i) size).1 .dummy 4).1) q =
        ⟨q.writing_queue ++
            (List.range n).flatMap (fun i => [⟨.swizzle_pattern i, size⟩, ⟨.dummy, 4⟩]),
          q.write_offset + n * (size + 4)⟩ := by
  induction n with
  | zero => intro q; simp
  | succ n ih =>
    intro q
    rw [List.range_succ, List.foldl_append, ih]
    simp only [List.foldl_cons, List.foldl_nil, QueueForWriting, List.flatMap_append,
      List.flatMap_cons, List.flatMap_nil, List.append_nil, List.append_assoc, List.cons_append,
      List.nil_append, WriteState.mk.injEq, true_and]
    ring

/-- The label records and the queue after the loop over the label table. -/
theorem queue_labels (size : Nat) (symbol_table : List String)
    (label_table : List CustomLabelInfo) :
    ∀ (table : List LabelInfo) (q : WriteState),
      label_table.foldl
          (fun (st : List LabelInfo × WriteState) label =>
            let info : LabelInfo :=
              ⟨0, label.program_offset, 0,
                GetSymbolTableEntryByteOffset symbol_table label.symbol_table_index⟩
            let final_label_table := st.1 ++ [info]
            (final_label_table,
              (QueueForWriting st.2 (.final_label_table (final_label_table.length - 1)) size).1))
          (table, q) =
        (table ++ label_table.map (fun label =>
            ⟨0, label.program_offset, 0,
              GetSymbolTableEntryByteOffset symbol_table label.symbol_table_index⟩),
          ⟨q.writing_queue ++
              (List.range label_table.length).map
                (fun k => ⟨.final_label_table (table.length + k), size⟩),
            q.write_offset + label_table.length * size⟩) := by
  induction label_table with
  | nil => intro table q; simp
  | cons label rest ih =>
    intro table q
    simp only [List.foldl_cons]
    rw [ih]
    simp only [QueueForWriting, List.length_append, List.length_singleton, Nat.add_sub_cancel,
      List.map_cons, List.append_assoc, List.singleton_append, List.length_cons,
      List.range_succ_eq_map, List.map_map, Nat.add_zero, Prod.mk.injEq, WriteState.mk.injEq,
      List.cons.injEq, true_and]
    refine ⟨?_, ?_⟩
    · simp only [List.length_nil, Nat.zero_add, Nat.add_sub_cancel, List.append_cancel_left_eq,
        List.cons.injEq, true_and]
      apply List.map_congr_left
      intro k _
      simp only [Function.comp, Nat.succ_eq_add_one]
      congr 2
      omega
    · ring

/-- The queue after the loop over the symbol table. -/
theorem queue_symbols (symbol_table : List String) (n : Nat) :
    ∀ q : WriteState,
      (List.range n).foldl
          (fun q i =>
            (QueueForWriting q (.symbol i) ((symbol_table.getD i "").utf8ByteSize + 1)).1) q =
        ⟨q.writing_queue ++
            (List.range n).map
              (fun i => ⟨.symbol i, (symbol_table.getD i "").utf8ByteSize + 1⟩),
          q.write_offset +
            ((List.range n).map (fun i => (symbol_table.getD i "").utf8ByteSize + 1)).sum⟩ := by
  induction n with
  | zero => intro q; simp
  | succ n ih =>
    intro q
    rw [List.range_succ, List.foldl_append, ih]
    simp only [List.foldl_cons, List.foldl_nil, QueueForWriting, List.map_append, List.map_cons,
      List.map_nil, List.append_assoc, List.sum_append, List.sum_cons, List.sum_nil,
      Nat.add_zero, WriteState.mk.injEq, true_and]
    ring

/-- The container `serialize` builds, written out: the header fields and the queue. -/
theorem serialize_eq (sizes : HeaderSizes) (s : AsmState) (main_offset : Nat) :
    serialize sizes s main_offset =
      { dvlb_dvle_offset := sizes.dvlb + sizes.dvlp
        dvlp_binary_offset := sizes.dvlp + sizes.dvle
        dvlp_binary_size_words := s.instructions.length
        dvlp_swizzle_info_offset := sizes.dvlp + sizes.dvle + s.instructions.length * 4
        dvlp_swizzle_info_num_entries := s.swizzle_patterns.length
        dvle_main_offset_words := main_offset
        dvle_label_table_offset :=
          sizes.dvle + s.instructions.length * 4 +
            s.swizzle_patterns.length * (sizes.SwizzlePattern + 4)
        dvle_label_table_size := s.label_table.length
        dvle_symbol_table_offset :=
          sizes.dvle + s.instructions.length * 4 +
            s.swizzle_patterns.length * (sizes.SwizzlePattern + 4) +
            s.label_table.length * sizes.LabelInfo
        dvle_symbol_table_size :=
          GetSymbolTableEntryByteOffset s.symbol_table (s.symbol_table.length - 1)
            + ((s.symbol_table.getLastD "").utf8ByteSize + 1)
        final_label_table :=
          List.replicate s.label_table.length ⟨0, 0, 0, 0⟩ ++
            s.label_table.map (fun label =>
              ⟨0, label.program_offset, 0,
                GetSymbolTableEntryByteOffset s.symbol_table label.symbol_table_index⟩)
        writing_queue :=
          [⟨.dvlb, sizes.dvlb⟩, ⟨.dvlp, sizes.dvlp⟩, ⟨.dvle, sizes.dvle⟩,
            ⟨.instructions, s.instructions.length * 4⟩] ++
          (List.range s.swizzle_patterns.length).flatMap
            (fun i => [⟨.swizzle_pattern i, sizes.SwizzlePattern⟩, ⟨.dummy, 4⟩]) ++
          (List.range s.label_table.length).map
            (fun k => ⟨.final_label_table (s.label_table.length + k), sizes.LabelInfo⟩) ++
          (List.range s.symbol_table.length).map
            (fun i => ⟨.symbol i, (s.symbol_table.getD i "").utf8ByteSize + 1⟩) } := by
  unfold serialize
  simp only [queue_swizzle_patterns, queue_labels, queue_symbols]
  simp only [QueueForWriting, List.nil_append, Nat.zero_add, List.length_replicate,
    List.append_assoc, List.cons_append, Container.mk.injEq, true_and, and_true]
  refine ⟨?_, ?_, ?_, ?_⟩ <;> omega

theorem range_map_getD {α : Type} (l : List α) (d : α) :
    (List.range l.length).map (fun i => l.getD i d) = l := by
  apply List.ext_getElem
  · simp
  · intro n h1 h2
    simp [List.getD_eq_getElem?_getD, List.getElem?_eq_getElem h2]

theorem range_flatMap_getD {α β : Type} (l : List α) (d : α) (f : α → List β) :
    (List.range l.length).flatMap (fun i => f (l.getD i d)) = l.flatMap f := by
  have h := List.flatMap_map (fun i => l.getD i d) f (List.range l.length)
  rw [range_map_getD] at h
  exact h.symm

theorem length_flatMap_const {α β : Type} (l : List α) (f : α → List β) (n : Nat)
    (h : ∀ a, (f a).length = n) : (l.flatMap f).length = l.length * n := by
  induction l with
  | nil => simp
  | cons a l ih =>
    simp only [List.flatMap_cons, List.length_append, ih, h, List.length_cons]
    ring

theorem nameBytes_length (name : String) : (nameBytes name).length = name.utf8ByteSize := by
  obtain ⟨cs⟩ := name
  simp only [nameBytes, String.utf8ByteSize]
  induction cs with
  | nil => rfl
  | cons c cs ih =>
    simp only [List.flatMap_cons, List.length_append, String.utf8ByteSize.go,
      String.length_utf8EncodeChar, ih]
    omega

theorem cString_length (name : String) : (cString name).length = name.utf8ByteSize + 1 := by
  simp [cString, nameBytes_length]

/-- The bytes of the output file, block by block: the three headers, the instruction
words, the pattern entries (pattern and zero word), the label records and the symbol
strings. -/
theorem writeFile_eq (images : MemoryImages) (sizes : HeaderSizes)
    (hsz : ImagesSized images sizes) (s : AsmState) (main_offset : Nat) :
    writeFile images s (serialize sizes s main_offset) =
      images.dvlb (serialize sizes s main_offset) ++
        (images.dvlp (serialize sizes s main_offset) ++
          (images.dvle (serialize sizes s main_offset) ++
            (s.instructions.flatMap images.instruction ++
              (s.swizzle_patterns.flatMap (fun p => images.swizzle_pattern p ++ [0, 0, 0, 0]) ++
                ((labelRecords s).flatMap images.label_info ++
                  symbolTableBytes s.symbol_table))))) := by
  have hq : (serialize sizes s main_offset).writing_queue = _ :=
    congrArg Container.writing_queue (serialize_eq sizes s main_offset)
  have hf : (serialize sizes s main_offset).final_label_table =
      List.replicate s.label_table.length ⟨0, 0, 0, 0⟩ ++ labelRecords s :=
    congrArg Container.final_label_table (serialize_eq sizes s main_offset)
  generalize serialize sizes s main_offset = c at hq hf ⊢
  simp only [] at hq
  unfold writeFile
  rw [hq]
  simp only [List.flatMap_append, List.flatMap_cons, List.flatMap_nil, List.append_nil,
    List.append_assoc, List.nil_append, List.cons_append]
  have h1 : (images.dvlb c).take sizes.dvlb = images.dvlb c := by
    rw [← hsz.dvlb c, List.take_length]
  have h2 : (images.dvlp c).take sizes.dvlp = images.dvlp c := by
    rw [← hsz.dvlp c, List.take_length]
  have h3 : (images.dvle c).take sizes.dvle = images.dvle c := by
    rw [← hsz.dvle c, List.take_length]
  have h4 : (s.instructions.flatMap images.instruction).take (s.instructions.length * 4) =
      s.instructions.flatMap images.instruction := by
    rw [← length_flatMap_const s.instructions images.instruction 4 hsz.instruction,
      List.take_length]
  have h5 : ((List.range s.swizzle_patterns.length).flatMap
        (fun i => [(⟨.swizzle_pattern i, sizes.SwizzlePattern⟩ : StuffToWrite), ⟨.dummy, 4⟩])).flatMap
        (fun chunk => (chunkMemory images s c chunk.pointer).take chunk.size) =
      s.swizzle_patterns.flatMap (fun p => images.swizzle_pattern p ++ [0, 0, 0, 0]) := by
    rw [List.flatMap_assoc]
    rw [← range_flatMap_getD s.swizzle_patterns SwizzlePattern.zero
      (fun p => images.swizzle_pattern p ++ [0, 0, 0, 0])]
    congr 1
    funext i
    simp only [List.flatMap_cons, List.flatMap_nil, List.append_nil, chunkMemory]
    rw [← hsz.swizzle_pattern (s.swizzle_patterns.getD i SwizzlePattern.zero), List.take_length]
    rfl
  have h6 : ((List.range s.label_table.length).map
        (fun k => (⟨.final_label_table (s.label_table.length + k), sizes.LabelInfo⟩ :
          StuffToWrite))).flatMap
        (fun chunk => (chunkMemory images s c chunk.pointer).take chunk.size) =
      (labelRecords s).flatMap images.label_info := by
    rw [List.flatMap_map]
    have hlen : (labelRecords s).length = s.label_table.length := by simp [labelRecords]
    rw [← range_flatMap_getD (labelRecords s) ⟨0, 0, 0, 0⟩ images.label_info, hlen]
    congr 1
    funext k
    simp only [chunkMemory, hf]
    rw [List.getD_append_right _ _ _ _ (by simp)]
    simp only [List.length_replicate, Nat.add_sub_cancel_left]
    rw [← hsz.label_info ((labelRecords s).getD k ⟨0, 0, 0, 0⟩), List.take_length]
  have h7 : ((List.range s.symbol_table.length).map
        (fun i => (⟨.symbol i, (s.symbol_table.getD i "").utf8ByteSize + 1⟩ : StuffToWrite))).flatMap
        (fun chunk => (chunkMemory images s c chunk.pointer).take chunk.size) =
      symbolTableBytes s.symbol_table := by
    rw [List.flatMap_map]
    unfold symbolTableBytes
    rw [← range_flatMap_getD s.symbol_table "" cString]
    congr 1
    funext i
    simp only [chunkMemory]
    rw [← cString_length, List.take_length]
  rw [h5, h6, h7]
  simp only [chunkMemory]
  rw [h1, h2, h3, h4]

theorem labelProgramOffsets_length (statements : List Statement) :
    ∀ n, (labelProgramOffsets n statements).length = (labelNames statements).length := by
  induction statements with
  | nil => intro n; rfl
  | cons statement rest ih =>
    intro n
    cases statement with
    | Label name => simpa [labelProgramOffsets, labelNames] using ih n
    | Instruction opcode args =>
      simpa [labelProgramOffsets, labelNames] using ih (n + 1)
    | Declaration d => simpa [labelProgramOffsets, labelNames] using ih n

/-- The offsets recorded for the labels of `before ++ Label name :: after`: those of
`before`, the number of instruction statements of `before`, and those of `after`. -/
theorem labelProgramOffsets_append (before : List Statement) (name : String)
    (after : List Statement) :
    ∀ n, labelProgramOffsets n (before ++ .Label name :: after) =
      labelProgramOffsets n before ++
        (n + (before.filter Statement.isInstruction).length) ::
          labelProgramOffsets (n + (before.filter Statement.isInstruction).length) after := by
  induction before with
  | nil => intro n; simp [labelProgramOffsets]
  | cons statement rest ih =>
    intro n
    cases statement with
    | Label name1 => simp [labelProgramOffsets, Statement.isInstruction, ih n]
    | Instruction opcode args =>
      simp [labelProgramOffsets, Statement.isInstruction, ih (n + 1), Nat.add_assoc,
        Nat.add_comm 1]
    | Declaration d => simp [labelProgramOffsets, Statement.isInstruction, ih n]

/-- The program offsets of the label table after a run. -/
theorem label_table_run (u : Nat → Indeterminate) (statements : List Statement) :
    ∀ (n : Nat) (s s1 : AsmState), TablesConsistent s →
      processStatements u n s statements = .ok s1 →
      s1.label_table.map (·.program_offset) =
        s.label_table.map (·.program_offset) ++
          labelProgramOffsets s.instructions.length statements := by
  induction statements with
  | nil =>
    intro n s s1 _ hok
    simp only [processStatements, Except.ok.injEq] at hok
    simp [labelProgramOffsets, hok]
  | cons statement rest ih =>
    intro n s s1 hc hok
    simp only [processStatements] at hok
    cases hstep : processStatement (u n) s statement with
    | error e => simp [hstep] at hok
    | ok s2 =>
      simp only [hstep] at hok
      rw [ih (n + 1) s2 s1 (tablesConsistent_step (u n) s s2 statement hc hstep) hok]
      cases statement with
      | Label name =>
        obtain ⟨_, rfl⟩ := processLabel_ok_inv s s2 name hstep
        simp [labelProgramOffsets, hc.offset_eq]
      | Instruction opcode args =>
        obtain ⟨_, _, _, _, _, _, _, _, _, rfl⟩ :=
          processInstruction_ok_inv (u n) s s2 opcode args hstep
        simp [labelProgramOffsets]
      | Declaration d =>
        obtain ⟨_, _, rfl⟩ := processDeclaration_ok_inv s s2 d hstep
        simp [labelProgramOffsets]

/-- The label records built after a run from the initial state. -/
theorem labelRecords_run (u : Nat → Indeterminate) (statements : List Statement) (s : AsmState)
    (hrun : processStatements u 0 initialState statements = .ok s) :
    labelRecords s =
      (List.range (labelNames statements).length).map (fun k =>
        ⟨0, (labelProgramOffsets 0 statements).getD k 0, 0,
          GetSymbolTableEntryByteOffset (labelNames statements) k⟩) := by
  have hc := tablesConsistent_run u statements 0 initialState s tablesConsistent_initialState hrun
  have hsym : s.symbol_table = labelNames statements := by
    have h := symbol_table_run u statements 0 initialState s hrun
    have h0 : initialState.symbol_table = [] := by decide
    rw [h, h0, List.nil_append]
  have hoff : s.label_table.map (·.program_offset) = labelProgramOffsets 0 statements := by
    have h := label_table_run u statements 0 initialState s tablesConsistent_initialState hrun
    have h0 : initialState.label_table = [] := by decide
    have h1 : initialState.instructions = [] := by decide
    rw [h, h0, h1]
    rfl
  have hidx := hc.label_symbols
  rw [hsym] at hidx
  have hlen : s.label_table.length = (labelNames statements).length := by
    have := congrArg List.length hidx
    simpa using this
  apply List.ext_getElem
  · simp [labelRecords, hlen]
  · intro k h1 h2
    have hk : k < s.label_table.length := by simpa [labelRecords] using h1
    have e1 : (s.label_table[k]).program_offset = (labelProgramOffsets 0 statements).getD k 0 := by
      have hk2 : k < (labelProgramOffsets 0 statements).length := by
        rw [labelProgramOffsets_length]; omega
      rw [List.getD_eq_getElem _ _ hk2]
      simp only [← hoff, List.getElem_map]
    have e2 : (s.label_table[k]).symbol_table_index = k := by
      have h := congrArg (fun l => l[k]?) hidx
      simp only [List.getElem?_map, List.getElem?_eq_getElem hk, Option.map_some',
        List.getElem?_range (show k < (labelNames statements).length by omega)] at h
      exact Option.some.inj h
    simp only [labelRecords, List.getElem_map, List.getElem_range, e1, e2, hsym]

/-- What a successful assembly has done. -/
theorem assemble_ok_inv (sizes : HeaderSizes) (u : Nat → Indeterminate)
    (statements : List Statement) (remainder : String) (c : Container)
    (hok : assemble sizes u statements remainder = .ok c) :
    ∃ s offset, processStatements u 0 initialState statements = .ok s ∧ remainder = "" ∧
      main_offset s = .ok offset ∧ c = serialize sizes s offset := by
  unfold assemble at hok
  cases hrun : processStatements u 0 initialState statements with
  | error e => simp [hrun] at hok
  | ok s =>
    simp only [hrun] at hok
    by_cases hrem : remainder = ""
    · simp only [hrem, ne_eq, not_true_eq_false, if_false] at hok
      cases hmain : main_offset s with
      | error e => simp [hmain] at hok
      | ok offset =>
        simp only [hmain, Except.ok.injEq] at hok
        exact ⟨s, offset, rfl, hrem, hmain, hok.symm⟩
    · simp [hrem] at hok

/-- The seven blocks of a concatenation, found again by their offsets and lengths. -/
theorem seven_blocks {α : Type} (a0 a1 a2 a3 a4 a5 a6 : List α) :
    (a0 ++ (a1 ++ (a2 ++ (a3 ++ (a4 ++ (a5 ++ a6)))))).take a0.length = a0 ∧
      ((a0 ++ (a1 ++ (a2 ++ (a3 ++ (a4 ++ (a5 ++ a6)))))).drop a0.length).take a1.length = a1 ∧
      ((a0 ++ (a1 ++ (a2 ++ (a3 ++ (a4 ++ (a5 ++ a6)))))).drop
        (a0.length + a1.length)).take a2.length = a2 ∧
      ((a0 ++ (a1 ++ (a2 ++ (a3 ++ (a4 ++ (a5 ++ a6)))))).drop
        (a0.length + a1.length + a2.length)).take a3.length = a3 ∧
      ((a0 ++ (a1 ++ (a2 ++ (a3 ++ (a4 ++ (a5 ++ a6)))))).drop
        (a0.length + a1.length + a2.length + a3.length)).take a4.length = a4 ∧
      ((a0 ++ (a1 ++ (a2 ++ (a3 ++ (a4 ++ (a5 ++ a6)))))).drop
        (a0.length + a1.length + a2.length + a3.length + a4.length)).take a5.length = a5 ∧
      (a0 ++ (a1 ++ (a2 ++ (a3 ++ (a4 ++ (a5 ++ a6)))))).drop
        (a0.length + a1.length + a2.length + a3.length + a4.length + a5.length) = a6 := by
  refine ⟨List.take_left _ _, ?_, ?_, ?_, ?_, ?_, ?_⟩
  · rw [List.drop_left, List.take_left]
  · rw [← List.append_assoc a0, List.drop_left' (by simp only [List.length_append, Nat.add_assoc]), List.take_left]
  · rw [← List.append_assoc a0, ← List.append_assoc (a0 ++ a1), List.drop_left' (by simp only [List.length_append, Nat.add_assoc]),
      List.take_left]
  · rw [← List.append_assoc a0, ← List.append_assoc (a0 ++ a1),
      ← List.append_assoc (a0 ++ a1 ++ a2), List.drop_left' (by simp only [List.length_append, Nat.add_assoc]), List.take_left]
  · rw [← List.append_assoc a0, ← List.append_assoc (a0 ++ a1),
      ← List.append_assoc (a0 ++ a1 ++ a2), ← List.append_assoc (a0 ++ a1 ++ a2 ++ a3),
      List.drop_left' (by simp only [List.length_append, Nat.add_assoc]), List.take_left]
  · rw [← List.append_assoc a0, ← List.append_assoc (a0 ++ a1),
      ← List.append_assoc (a0 ++ a1 ++ a2), ← List.append_assoc (a0 ++ a1 ++ a2 ++ a3),
      ← List.append_assoc (a0 ++ a1 ++ a2 ++ a3 ++ a4), List.drop_left' (by simp only [List.length_append, Nat.add_assoc])]

/-- The header offsets of the container and the blocks of the output file they point
at: the top header at 0, the program header at `sizeof(dvlb)`, the executable header at
`dvle_offset`, the instruction words and the pattern entries at their offsets from the
program header, the label records and the symbol strings at their offsets from the
executable header. -/
theorem writeFile_regions (images : MemoryImages) (sizes : HeaderSizes)
    (hsz : ImagesSized images sizes) (s : AsmState) (main_offset : Nat) (c : Container)
    (hc : c = serialize sizes s main_offset) :
    (writeFile images s c).take sizes.dvlb = images.dvlb c ∧
      ((writeFile images s c).drop sizes.dvlb).take sizes.dvlp = images.dvlp c ∧
      ((writeFile images s c).drop c.dvlb_dvle_offset).take sizes.dvle = images.dvle c ∧
      ((writeFile images s c).drop (sizes.dvlb + c.dvlp_binary_offset)).take
          (c.dvlp_binary_size_words * 4) = s.instructions.flatMap images.instruction ∧
      ((writeFile images s c).drop (sizes.dvlb + c.dvlp_swizzle_info_offset)).take
          (c.dvlp_swizzle_info_num_entries * (sizes.SwizzlePattern + 4)) =
        s.swizzle_patterns.flatMap (fun p => images.swizzle_pattern p ++ [0, 0, 0, 0]) ∧
      ((writeFile images s c).drop (c.dvlb_dvle_offset + c.dvle_label_table_offset)).take
          (c.dvle_label_table_size * sizes.LabelInfo) =
        (labelRecords s).flatMap images.label_info ∧
      (writeFile images s c).drop (c.dvlb_dvle_offset + c.dvle_symbol_table_offset) =
        symbolTableBytes s.symbol_table := by
  have hfile := writeFile_eq images sizes hsz s main_offset
  rw [← hc] at hfile
  have hser := serialize_eq sizes s main_offset
  rw [← hc] at hser
  have l0 := hsz.dvlb c
  have l1 := hsz.dvlp c
  have l2 := hsz.dvle c
  have l3 := length_flatMap_const s.instructions images.instruction 4 hsz.instruction
  have l4 := length_flatMap_const s.swizzle_patterns
    (fun p => images.swizzle_pattern p ++ [0, 0, 0, 0]) (sizes.SwizzlePattern + 4)
    (fun p => by simp [hsz.swizzle_pattern p])
  have l5 : ((labelRecords s).flatMap images.label_info).length =
      s.label_table.length * sizes.LabelInfo := by
    rw [length_flatMap_const (labelRecords s) images.label_info sizes.LabelInfo hsz.label_info]
    simp [labelRecords]
  have h1 : c.dvlb_dvle_offset = sizes.dvlb + sizes.dvlp := by rw [hser]
  have h2 : c.dvlp_binary_offset = sizes.dvlp + sizes.dvle := by rw [hser]
  have h3 : c.dvlp_binary_size_words = s.instructions.length := by rw [hser]
  have h4 : c.dvlp_swizzle_info_offset = sizes.dvlp + sizes.dvle + s.instructions.length * 4 := by
    rw [hser]
  have h5 : c.dvlp_swizzle_info_num_entries = s.swizzle_patterns.length := by rw [hser]
  have h6 : c.dvle_label_table_offset = sizes.dvle + s.instructions.length * 4 +
      s.swizzle_patterns.length * (sizes.SwizzlePattern + 4) := by rw [hser]
  have h7 : c.dvle_label_table_size = s.label_table.length := by rw [hser]
  have h8 : c.dvle_symbol_table_offset = sizes.dvle + s.instructions.length * 4 +
      s.swizzle_patterns.length * (sizes.SwizzlePattern + 4) +
      s.label_table.length * sizes.LabelInfo := by rw [hser]
  obtain ⟨b0, b1, b2, b3, b4, b5, b6⟩ := seven_blocks (images.dvlb c) (images.dvlp c)
    (images.dvle c) (s.instructions.flatMap images.instruction)
    (s.swizzle_patterns.flatMap (fun p => images.swizzle_pattern p ++ [0, 0, 0, 0]))
    ((labelRecords s).flatMap images.label_info) (symbolTableBytes s.symbol_table)
  simp only [← hfile, l0, l1, l2, l3, l4, l5] at b0 b1 b2 b3 b4 b5 b6
  rw [h1, h2, h3, h4, h5, h6, h7, h8]
  refine ⟨b0, b1, b2, ?_, ?_, ?_, ?_⟩
  · rw [← b3]; congr 2; omega
  · rw [← b4]; congr 2; omega
  · rw [← b5]; congr 2; omega
  · rw [← b6]; congr 1; omega

theorem padTo_length (size : Nat) (bytes : List UInt8) : (padTo size bytes).length = size := by
  simp [padTo]

theorem sampleImages_sized (sizes : HeaderSizes) : ImagesSized (sampleImages sizes) sizes :=
  ⟨fun _ => padTo_length _ _, fun _ => padTo_length _ _, fun _ => padTo_length _ _,
    fun _ => padTo_length _ _, fun _ => padTo_length _ _, fun _ => padTo_length _ _⟩

/-- The sample program is assembled. -/
theorem sampleProgram_assembles :
    ∃ s c, processStatements (fun _ => U0) 0 initialState sampleProgram = .ok s ∧
      assemble sampleSizes (fun _ => U0) sampleProgram "" = .ok c := by
  have h : (assemble sampleSizes (fun _ => U0) sampleProgram "").toOption.isSome = true := by
    decide!
  cases hrun : processStatements (fun _ => U0) 0 initialState sampleProgram with
  | error e =>
    obtain ⟨e1, s1⟩ := e
    simp [assemble, hrun, Except.toOption] at h
  | ok s =>
    cases hasm : assemble sampleSizes (fun _ => U0) sampleProgram "" with
    | error e => simp [hasm, Except.toOption] at h
    | ok c => exact ⟨s, c, rfl, rfl⟩

theorem symbolTableBytes_length (names : List String) :
    (symbolTableBytes names).length = (names.map (fun name => name.utf8ByteSize + 1)).sum := by
  unfold symbolTableBytes
  induction names with
  | nil => rfl
  | cons name rest ih =>
    simp only [List.flatMap_cons, List.length_append, cString_length, ih, List.map_cons,
      List.sum_cons]

/-- Reading at the offset of a name gives the bytes of the name. -/
theorem readCString_append (before after : List String) (name : String)
    (hnul : (0 : UInt8) ∉ nameBytes name) :
    readCString (symbolTableBytes (before ++ name :: after))
        (GetSymbolTableEntryByteOffset (before ++ name :: after) before.length) =
      nameBytes name := by
  rw [getSymbolTableEntryByteOffset_append, ← symbolTableBytes_length]
  unfold readCString
  have hsplit : symbolTableBytes (before ++ name :: after) =
      symbolTableBytes before ++ (nameBytes name ++ ([0] ++ symbolTableBytes after)) := by
    simp [symbolTableBytes, cString]
  rw [hsplit, List.drop_left, List.takeWhile_append_of_pos]
  · simp
  · intro b hb
    simp only [bne_iff_ne, ne_eq]
    rintro rfl
    exact hnul hb

theorem split_at_index {α : Type} (l : List α) (k : Nat) (a : α) (h : l[k]? = some a) :
    l = l.take k ++ a :: l.drop (k + 1) ∧ (l.take k).length = k := by
  obtain ⟨hk, rfl⟩ := List.getElem?_eq_some.mp h
  refine ⟨?_, ?_⟩
  · rw [List.getElem_cons_drop, List.take_append_drop]
  · rw [List.length_take]; omega

theorem readCString_entry (names : List String) (k : Nat) (name : String)
    (hname : names[k]? = some name) (hnul : (0 : UInt8) ∉ nameBytes name) :
    readCString (symbolTableBytes names) (GetSymbolTableEntryByteOffset names k) =
      nameBytes name := by
  obtain ⟨hsplit, hlen⟩ := split_at_index names k name hname
  have h := readCString_append (names.take k) (names.drop (k + 1)) name hnul
  rw [← hsplit, hlen] at h
  exact h

/-- The size field of the string table is the number of its bytes. -/
theorem symbol_table_size_eq (names : List String) (h : names ≠ []) :
    GetSymbolTableEntryByteOffset names (names.length - 1)
        + ((names.getLastD "").utf8ByteSize + 1) =
      (names.map (fun name => name.utf8ByteSize + 1)).sum := by
  obtain ⟨front, last, rfl⟩ : ∃ front last, names = front ++ [last] :=
    ⟨names.dropLast, names.getLast h, (List.dropLast_append_getLast h).symm⟩
  have h1 : (front ++ [last]).length - 1 = front.length := by simp
  rw [h1, getSymbolTableEntryByteOffset_append]
  simp

/-- C11. For a successfully assembled program with n labels the label table of the
output file, found at executable-block offset + label_table_offset with
label_table_size records, consists of exactly n records in the order of the label
statements: record k has id 0, reserved field 0, as program offset the number of
instruction statements before the k-th label statement, and as name offset the byte
offset of the k-th name in the string table. -/
theorem C11_label_table_output (images : MemoryImages) (sizes : HeaderSizes)
    (hsz : ImagesSized images sizes) (u : Nat → Indeterminate) (statements : List Statement)
    (s : AsmState) (c : Container)
    (hrun : processStatements u 0 initialState statements = .ok s)
    (hok : assemble sizes u statements "" = .ok c) :
    c.dvle_label_table_size = (labelNames statements).length ∧
      ((writeFile images s c).drop (c.dvlb_dvle_offset + c.dvle_label_table_offset)).take
          (c.dvle_label_table_size * sizes.LabelInfo) =
        (List.range (labelNames statements).length).flatMap (fun k =>
          images.label_info
            ⟨0, (labelProgramOffsets 0 statements).getD k 0, 0,
              GetSymbolTableEntryByteOffset (labelNames statements) k⟩) ∧
      (labelProgramOffsets 0 statements).length = (labelNames statements).length ∧
      (∀ before name after, statements = before ++ .Label name :: after →
        (labelNames statements)[(labelNames before).length]? = some name ∧
          (labelProgramOffsets 0 statements).getD (labelNames before).length 0 =
            (before.filter Statement.isInstruction).length) ∧
      ∀ k, k ≤ (labelNames statements).length →
        GetSymbolTableEntryByteOffset (labelNames statements) k =
          (((labelNames statements).take k).map (fun name => name.utf8ByteSize + 1)).sum := by
  obtain ⟨s1, offset, hrun1, _, _, hc⟩ := assemble_ok_inv sizes u statements "" c hok
  rw [hrun] at hrun1
  cases hrun1
  have hrec := labelRecords_run u statements s hrun
  have hreg := (writeFile_regions images sizes hsz s offset c hc).2.2.2.2.2.1
  have hsize : c.dvle_label_table_size = (labelNames statements).length := by
    have h1 : c.dvle_label_table_size = s.label_table.length := by rw [hc]; rfl
    have h2 := congrArg List.length hrec
    simp only [labelRecords, List.length_map, List.length_range] at h2
    rw [h1, h2]
  refine ⟨hsize, ?_, labelProgramOffsets_length statements 0, ?_,
    getSymbolTableEntryByteOffset_eq_sum (labelNames statements)⟩
  · rw [hreg, hrec, List.flatMap_map]
  · intro before name after hst
    have hnames : labelNames statements = labelNames before ++ name :: labelNames after := by
      rw [hst]
      simp [labelNames, List.filterMap_append]
    refine ⟨?_, ?_⟩
    · rw [hnames, List.getElem?_append_right (Nat.le_refl _), Nat.sub_self]
      simp
    · rw [hst, labelProgramOffsets_append, List.getD_append_right _ _ _ _
        (by rw [labelProgramOffsets_length]), labelProgramOffsets_length, Nat.sub_self]
      simp

theorem C11_label_table_output_witness :
    ∃ s c, processStatements (fun _ => U0) 0 initialState sampleProgram = .ok s ∧
      assemble sampleSizes (fun _ => U0) sampleProgram "" = .ok c ∧
      c.dvle_label_table_size = 2 ∧
      ((writeFile (sampleImages sampleSizes) s c).drop
          (c.dvlb_dvle_offset + c.dvle_label_table_offset)).take
          (c.dvle_label_table_size * sampleSizes.LabelInfo) =
        (sampleImages sampleSizes).label_info ⟨0, 0, 0, 0⟩ ++
          (sampleImages sampleSizes).label_info ⟨0, 1, 0, 5⟩ := by
  obtain ⟨s, c, hrun, hok⟩ := sampleProgram_assembles
  have h := C11_label_table_output (sampleImages sampleSizes) sampleSizes
    (sampleImages_sized sampleSizes) (fun _ => U0) sampleProgram s c hrun hok
  refine ⟨s, c, hrun, hok, h.1, ?_⟩
  rw [h.2.1]
  rfl

/-- C12. For a successfully assembled program whose label names contain no null byte
and every label index k, reading the null-terminated string at byte offset
GetSymbolTableEntryByteOffset(k) of the serialized string table (in the output file:
at that offset from executable-block start + symbol_table_offset) gives the k-th label
name; the offset is the sum of length + 1 over the names before k and stays the same
when names are appended; symbol_table_size is the number of bytes of all names and
their terminators. -/
theorem C12_symbol_string_table (images : MemoryImages) (sizes : HeaderSizes)
    (hsz : ImagesSized images sizes) (u : Nat → Indeterminate) (statements : List Statement)
    (s : AsmState) (c : Container)
    (hrun : processStatements u 0 initialState statements = .ok s)
    (hok : assemble sizes u statements "" = .ok c)
    (hnul : ∀ name ∈ labelNames statements, (0 : UInt8) ∉ nameBytes name) :
    s.symbol_table = labelNames statements ∧
      (∀ k name, (labelNames statements)[k]? = some name →
        readCString (symbolTableBytes s.symbol_table)
            (GetSymbolTableEntryByteOffset s.symbol_table k) = nameBytes name ∧
          readCString (writeFile images s c)
            (c.dvlb_dvle_offset + c.dvle_symbol_table_offset +
              GetSymbolTableEntryByteOffset s.symbol_table k) = nameBytes name ∧
          GetSymbolTableEntryByteOffset s.symbol_table k =
            (((labelNames statements).take k).map (fun n => (nameBytes n).length + 1)).sum ∧
          ∀ later, GetSymbolTableEntryByteOffset (s.symbol_table ++ later) k =
            GetSymbolTableEntryByteOffset s.symbol_table k) ∧
      c.dvle_symbol_table_size =
        ((labelNames statements).map (fun n => (nameBytes n).length + 1)).sum ∧
      c.dvle_symbol_table_size = (symbolTableBytes s.symbol_table).length := by
  obtain ⟨s1, offset, hrun1, _, hmain, hc⟩ := assemble_ok_inv sizes u statements "" c hok
  rw [hrun] at hrun1
  cases hrun1
  have hsym : s.symbol_table = labelNames statements := by
    have h := symbol_table_run u statements 0 initialState s hrun
    have h0 : initialState.symbol_table = [] := by decide
    rw [h, h0, List.nil_append]
  have hreg := (writeFile_regions images sizes hsz s offset c hc).2.2.2.2.2.2
  have hbytes : (fun n : String => (nameBytes n).length + 1) =
      (fun n => n.utf8ByteSize + 1) := by
    funext n
    rw [nameBytes_length]
  have hne : s.symbol_table ≠ [] := by
    intro hnil
    have hlab : s.label_table = [] := by
      have hcons := tablesConsistent_run u statements 0 initialState s
        tablesConsistent_initialState hrun
      have := hcons.label_symbols
      rw [hnil] at this
      simpa using this
    simp [main_offset, hlab] at hmain
  have hsize : c.dvle_symbol_table_size =
      (s.symbol_table.map (fun n => n.utf8ByteSize + 1)).sum := by
    rw [← symbol_table_size_eq s.symbol_table hne, hc]
    rfl
  refine ⟨hsym, ?_, ?_, ?_⟩
  · intro k name hname
    have hk : k < (labelNames statements).length := (List.getElem?_eq_some.mp hname).1
    have hmem : name ∈ labelNames statements := by
      obtain ⟨h1, h2⟩ := List.getElem?_eq_some.mp hname
      exact h2 ▸ List.getElem_mem h1
    have hread := readCString_entry s.symbol_table k name (hsym ▸ hname) (hnul name hmem)
    refine ⟨hread, ?_, ?_, ?_⟩
    · rw [← hread]
      unfold readCString
      rw [← hreg, List.drop_drop, Nat.add_comm]
    · rw [hbytes, ← hsym]
      exact getSymbolTableEntryByteOffset_eq_sum s.symbol_table k (by rw [hsym]; omega)
    · intro later
      rw [getSymbolTableEntryByteOffset_eq_sum _ k (by rw [List.length_append, hsym]; omega),
        getSymbolTableEntryByteOffset_eq_sum _ k (by rw [hsym]; omega),
        List.take_append_of_le_length (by rw [hsym]; omega)]
  · rw [hbytes, ← hsym]
    exact hsize
  · rw [symbolTableBytes_length]
    exact hsize

theorem C12_symbol_string_table_witness :
    ∃ s c, processStatements (fun _ => U0) 0 initialState sampleProgram = .ok s ∧
      assemble sampleSizes (fun _ => U0) sampleProgram "" = .ok c ∧
      (∀ name ∈ labelNames sampleProgram, (0 : UInt8) ∉ nameBytes name) ∧
      s.symbol_table = ["loop", "main"] ∧
      GetSymbolTableEntryByteOffset s.symbol_table 1 = 5 ∧
      readCString (symbolTableBytes s.symbol_table) 5 = nameBytes "main" ∧
      c.dvle_symbol_table_size = 10 := by
  obtain ⟨s, c, hrun, hok⟩ := sampleProgram_assembles
  have hnul : ∀ name ∈ labelNames sampleProgram, (0 : UInt8) ∉ nameBytes name := by decide
  have h := C12_symbol_string_table (sampleImages sampleSizes) sampleSizes
    (sampleImages_sized sampleSizes) (fun _ => U0) sampleProgram s c hrun hok hnul
  have h1 := h.2.1 1 "main" (by decide)
  have hoff : GetSymbolTableEntryByteOffset s.symbol_table 1 = 5 := by
    rw [h1.2.2.1]
    decide
  refine ⟨s, c, hrun, hok, hnul, h.1, hoff, ?_, ?_⟩
  · rw [← hoff]
    exact h1.1
  · rw [h.2.2.1]
    decide

/-- C13. In the bytes written for a successful assembly every header offset is
relative to the start of its block and points at the data it describes: the program
header starts at sizeof(dvlb); the instruction words start at program-block start +
binary_offset and binary_size_words is the number of instruction records; the swizzle
table starts at program-block start + swizzle_info_offset and has
swizzle_info_num_entries = number of patterns entries, each entry being the packed
pattern followed by one zero word; the executable header starts at dvle_offset from
the start of the file; the label table starts at executable-block start +
label_table_offset; the string table starts at executable-block start +
symbol_table_offset and ends at the end of the output. -/
theorem C13_offsets_point_at_data (images : MemoryImages) (sizes : HeaderSizes)
    (hsz : ImagesSized images sizes) (u : Nat → Indeterminate) (statements : List Statement)
    (s : AsmState) (c : Container)
    (hrun : processStatements u 0 initialState statements = .ok s)
    (hok : assemble sizes u statements "" = .ok c) :
    (writeFile images s c).take sizes.dvlb = images.dvlb c ∧
      ((writeFile images s c).drop sizes.dvlb).take sizes.dvlp = images.dvlp c ∧
      c.dvlp_binary_size_words = s.instructions.length ∧
      ((writeFile images s c).drop (sizes.dvlb + c.dvlp_binary_offset)).take
          (c.dvlp_binary_size_words * 4) = s.instructions.flatMap images.instruction ∧
      c.dvlp_swizzle_info_num_entries = s.swizzle_patterns.length ∧
      ((writeFile images s c).drop (sizes.dvlb + c.dvlp_swizzle_info_offset)).take
          (c.dvlp_swizzle_info_num_entries * (sizes.SwizzlePattern + 4)) =
        s.swizzle_patterns.flatMap (fun p => images.swizzle_pattern p ++ [0, 0, 0, 0]) ∧
      ((writeFile images s c).drop c.dvlb_dvle_offset).take sizes.dvle = images.dvle c ∧
      c.dvle_label_table_size = s.label_table.length ∧
      ((writeFile images s c).drop (c.dvlb_dvle_offset + c.dvle_label_table_offset)).take
          (c.dvle_label_table_size * sizes.LabelInfo) =
        (labelRecords s).flatMap images.label_info ∧
      (writeFile images s c).drop (c.dvlb_dvle_offset + c.dvle_symbol_table_offset) =
        symbolTableBytes s.symbol_table ∧
      (writeFile images s c).length =
        c.dvlb_dvle_offset + c.dvle_symbol_table_offset + c.dvle_symbol_table_size := by
  obtain ⟨s1, offset, hrun1, _, hmain, hc⟩ := assemble_ok_inv sizes u statements "" c hok
  rw [hrun] at hrun1
  cases hrun1
  obtain ⟨r0, r1, r2, r3, r4, r5, r6⟩ := writeFile_regions images sizes hsz s offset c hc
  have hne : s.symbol_table ≠ [] := by
    intro hnil
    have hlab : s.label_table = [] := by
      have hcons := tablesConsistent_run u statements 0 initialState s
        tablesConsistent_initialState hrun
      have := hcons.label_symbols
      rw [hnil] at this
      simpa using this
    simp [main_offset, hlab] at hmain
  have hsize : c.dvle_symbol_table_size = (symbolTableBytes s.symbol_table).length := by
    rw [symbolTableBytes_length, ← symbol_table_size_eq s.symbol_table hne, hc]
    rfl
  have hlen : (writeFile images s c).length =
      c.dvlb_dvle_offset + c.dvle_symbol_table_offset + c.dvle_symbol_table_size := by
    have h := congrArg List.length r6
    rw [List.length_drop, ← hsize] at h
    have hpos : 0 < c.dvle_symbol_table_size := by
      rw [hsize, symbolTableBytes_length]
      cases hs : s.symbol_table with
      | nil => exact absurd hs hne
      | cons name rest => simp only [List.map_cons, List.sum_cons]; omega
    omega
  exact ⟨r0, r1, by rw [hc]; rfl, r3, by rw [hc]; rfl, r4, r2, by rw [hc]; rfl, r5, r6, hlen⟩

theorem C13_offsets_point_at_data_witness :
    ∃ s c, processStatements (fun _ => U0) 0 initialState sampleProgram = .ok s ∧
      assemble sampleSizes (fun _ => U0) sampleProgram "" = .ok c ∧
      ImagesSized (sampleImages sampleSizes) sampleSizes ∧
      (writeFile (sampleImages sampleSizes) s c).drop
          (c.dvlb_dvle_offset + c.dvle_symbol_table_offset) =
        symbolTableBytes s.symbol_table ∧
      ((writeFile (sampleImages sampleSizes) s c).drop (12 + c.dvlp_binary_offset)).take
          (c.dvlp_binary_size_words * 4) =
        s.instructions.flatMap (sampleImages sampleSizes).instruction := by
  obtain ⟨s, c, hrun, hok⟩ := sampleProgram_assembles
  have h := C13_offsets_point_at_data (sampleImages sampleSizes) sampleSizes
    (sampleImages_sized sampleSizes) (fun _ => U0) sampleProgram s c hrun hok
  exact ⟨s, c, hrun, hok, sampleImages_sized sampleSizes, h.2.2.2.2.2.2.2.2.2.1, h.2.2.2.1⟩

/-- C14, as the code lays the file out: the top header, the program header, the
executable header, the instruction words, the swizzle-pattern table, the label table
and the symbol strings, in this order and without gaps.  The executable header starts
where the program header ends and is followed directly by the instruction words; the
swizzle-pattern table ends where the label table starts; so the executable header
starts before the end of the swizzle-pattern table whenever the headers are not
empty. -/
theorem C14_layout_order (images : MemoryImages) (sizes : HeaderSizes)
    (hsz : ImagesSized images sizes) (u : Nat → Indeterminate) (statements : List Statement)
    (s : AsmState) (c : Container)
    (hrun : processStatements u 0 initialState statements = .ok s)
    (hok : assemble sizes u statements "" = .ok c) :
    writeFile images s c =
        images.dvlb c ++ (images.dvlp c ++ (images.dvle c ++
          (s.instructions.flatMap images.instruction ++
            (s.swizzle_patterns.flatMap (fun p => images.swizzle_pattern p ++ [0, 0, 0, 0]) ++
              ((labelRecords s).flatMap images.label_info ++
                symbolTableBytes s.symbol_table))))) ∧
      c.dvlb_dvle_offset = sizes.dvlb + sizes.dvlp ∧
      c.dvlb_dvle_offset + sizes.dvle = sizes.dvlb + c.dvlp_binary_offset ∧
      sizes.dvlb + c.dvlp_swizzle_info_offset =
        sizes.dvlb + c.dvlp_binary_offset + 4 * c.dvlp_binary_size_words ∧
      sizes.dvlb + c.dvlp_swizzle_info_offset +
          (sizes.SwizzlePattern + 4) * c.dvlp_swizzle_info_num_entries =
        c.dvlb_dvle_offset + c.dvle_label_table_offset ∧
      c.dvle_symbol_table_offset =
        c.dvle_label_table_offset + sizes.LabelInfo * c.dvle_label_table_size ∧
      (0 < sizes.dvle →
        c.dvlb_dvle_offset < sizes.dvlb + c.dvlp_swizzle_info_offset +
          (sizes.SwizzlePattern + 4) * c.dvlp_swizzle_info_num_entries) := by
  obtain ⟨s1, offset, hrun1, _, _, hc⟩ := assemble_ok_inv sizes u statements "" c hok
  rw [hrun] at hrun1
  cases hrun1
  have hfile := writeFile_eq images sizes hsz s offset
  rw [← hc] at hfile
  have hser := serialize_eq sizes s offset
  rw [← hc] at hser
  have h1 : c.dvlb_dvle_offset = sizes.dvlb + sizes.dvlp := by rw [hser]
  have h2 : c.dvlp_binary_offset = sizes.dvlp + sizes.dvle := by rw [hser]
  have h3 : c.dvlp_binary_size_words = s.instructions.length := by rw [hser]
  have h4 : c.dvlp_swizzle_info_offset = sizes.dvlp + sizes.dvle + s.instructions.length * 4 := by
    rw [hser]
  have h5 : c.dvlp_swizzle_info_num_entries = s.swizzle_patterns.length := by rw [hser]
  have h6 : c.dvle_label_table_offset = sizes.dvle + s.instructions.length * 4 +
      s.swizzle_patterns.length * (sizes.SwizzlePattern + 4) := by rw [hser]
  have h7 : c.dvle_label_table_size = s.label_table.length := by rw [hser]
  have h8 : c.dvle_symbol_table_offset = sizes.dvle + s.instructions.length * 4 +
      s.swizzle_patterns.length * (sizes.SwizzlePattern + 4) +
      s.label_table.length * sizes.LabelInfo := by rw [hser]
  have hm1 : (sizes.SwizzlePattern + 4) * s.swizzle_patterns.length =
      s.swizzle_patterns.length * (sizes.SwizzlePattern + 4) := Nat.mul_comm _ _
  have hm2 : sizes.LabelInfo * s.label_table.length = s.label_table.length * sizes.LabelInfo :=
    Nat.mul_comm _ _
  rw [h1, h2, h3, h4, h5, h6, h7, h8, hm1, hm2]
  refine ⟨hfile, rfl, ?_, ?_, ?_, ?_, ?_⟩ <;> omega

theorem C14_layout_order_witness :
    ∃ s c, processStatements (fun _ => U0) 0 initialState sampleProgram = .ok s ∧
      assemble sampleSizes (fun _ => U0) sampleProgram "" = .ok c ∧
      ImagesSized (sampleImages sampleSizes) sampleSizes ∧
      c.dvlb_dvle_offset = 52 ∧ c.dvlb_dvle_offset + 64 = 12 + c.dvlp_binary_offset := by
  obtain ⟨s, c, hrun, hok⟩ := sampleProgram_assembles
  have h := C14_layout_order (sampleImages sampleSizes) sampleSizes
    (sampleImages_sized sampleSizes) (fun _ => U0) sampleProgram s c hrun hok
  exact ⟨s, c, hrun, hok, sampleImages_sized sampleSizes, h.2.1, h.2.2.1⟩

/-- C14 as stated fails: for the sample program the executable header starts at byte
52, before the instruction words, while the swizzle-pattern table ends at byte 132. -/
theorem C14_layout_order_counterexample :
    ∃ c, assemble sampleSizes (fun _ => U0) sampleProgram "" = .ok c ∧
      c.dvlb_dvle_offset = 52 ∧
      12 + c.dvlp_swizzle_info_offset + 8 * c.dvlp_swizzle_info_num_entries = 132 ∧
      ¬ (c.dvlb_dvle_offset ≥
        12 + c.dvlp_swizzle_info_offset + 8 * c.dvlp_swizzle_info_num_entries) := by
  have h : (assemble sampleSizes (fun _ => U0) sampleProgram "").toOption.map
      (fun c => (c.dvlb_dvle_offset, c.dvlp_swizzle_info_offset,
        c.dvlp_swizzle_info_num_entries)) = some (52, 112, 1) := by decide!
  cases hasm : assemble sampleSizes (fun _ => U0) sampleProgram "" with
  | error e => simp [hasm, Except.toOption] at h
  | ok c =>
    simp only [hasm, Except.toOption, Option.map_some', Option.some.injEq, Prod.mk.injEq] at h
    obtain ⟨h1, h2, h3⟩ := h
    refine ⟨c, rfl, h1, ?_, ?_⟩ <;> omega

/-- The names known when the statement loop starts. -/
theorem initialState_context :
    initialState.context = ⟨(List.range 144).map (fun i => (seedName i, i))⟩ :=
  congrArg AsmState.context initialState_eq

/-- The lookup of a symbol table, started from the best entry found so far. -/
theorem symbolsFind_foldl {α : Type} (input : List Char) (table : List (String × α)) :
    ∀ (best result : Option (String × α)),
      table.foldl
        (fun best entry =>
          if entry.1.data ≠ [] ∧ entry.1.data.isPrefixOf input = true then
            match best with
            | none => some entry
            | some found => if found.1.length < entry.1.length then some entry else best
          else best)
        best = result →
      (result = none → best = none ∧
        ∀ e ∈ table, ¬ (e.1.data ≠ [] ∧ e.1.data.isPrefixOf input = true)) ∧
      (∀ e, result = some e →
        (best = some e ∨ (e ∈ table ∧ e.1.data ≠ [] ∧ e.1.data.isPrefixOf input = true)) ∧
        (∀ b, best = some b → b.1.length ≤ e.1.length) ∧
        ∀ e1 ∈ table, e1.1.data ≠ [] → e1.1.data.isPrefixOf input = true →
          e1.1.length ≤ e.1.length) := by
  induction table with
  | nil =>
    intro best result h
    simp only [List.foldl_nil] at h
    subst h
    refine ⟨fun h => ⟨h, by simp⟩, fun e he => ⟨Or.inl he, ?_, by simp⟩⟩
    intro b hb
    rw [hb] at he
    cases he
    exact Nat.le_refl _
  | cons entry rest ih =>
    intro best result h
    simp only [List.foldl_cons] at h
    by_cases hm : entry.1.data ≠ [] ∧ entry.1.data.isPrefixOf input = true
    · rw [if_pos hm] at h
      cases best with
      | none =>
        obtain ⟨h1, h2⟩ := ih _ _ h
        refine ⟨fun hr => ?_, fun e he => ?_⟩
        · have := (h1 hr).1
          cases this
        · obtain ⟨ha, hb, hc⟩ := h2 e he
          refine ⟨Or.inr ?_, by simp, ?_⟩
          · rcases ha with ha | ha
            · cases ha
              exact ⟨List.mem_cons_self _ _, hm⟩
            · exact ⟨List.mem_cons_of_mem _ ha.1, ha.2⟩
          · intro e1 he1 hne hpre
            rcases List.mem_cons.mp he1 with rfl | hmem
            · exact hb _ rfl
            · exact hc e1 hmem hne hpre
      | some found =>
        by_cases hlt : found.1.length < entry.1.length
        · simp only [hlt, if_true] at h
          obtain ⟨h1, h2⟩ := ih _ _ h
          refine ⟨fun hr => ?_, fun e he => ?_⟩
          · have := (h1 hr).1
            cases this
          · obtain ⟨ha, hb, hc⟩ := h2 e he
            have hle := hb _ rfl
            refine ⟨Or.inr ?_, ?_, ?_⟩
            · rcases ha with ha | ha
              · cases ha
                exact ⟨List.mem_cons_self _ _, hm⟩
              · exact ⟨List.mem_cons_of_mem _ ha.1, ha.2⟩
            · intro b hb1
              cases hb1
              omega
            · intro e1 he1 hne hpre
              rcases List.mem_cons.mp he1 with rfl | hmem
              · exact hle
              · exact hc e1 hmem hne hpre
        · simp only [hlt, if_false] at h
          obtain ⟨h1, h2⟩ := ih _ _ h
          refine ⟨fun hr => ?_, fun e he => ?_⟩
          · have := (h1 hr).1
            cases this
          · obtain ⟨ha, hb, hc⟩ := h2 e he
            have hle := hb _ rfl
            refine ⟨?_, hb, ?_⟩
            · rcases ha with ha | ha
              · exact Or.inl ha
              · exact Or.inr ⟨List.mem_cons_of_mem _ ha.1, ha.2⟩
            · intro e1 he1 hne hpre
              rcases List.mem_cons.mp he1 with rfl | hmem
              · omega
              · exact hc e1 hmem hne hpre
    · rw [if_neg hm] at h
      obtain ⟨h1, h2⟩ := ih _ _ h
      refine ⟨fun hr => ⟨(h1 hr).1, ?_⟩, fun e he => ?_⟩
      · intro e1 he1
        rcases List.mem_cons.mp he1 with rfl | hmem
        · exact hm
        · exact (h1 hr).2 e1 hmem
      · obtain ⟨ha, hb, hc⟩ := h2 e he
        refine ⟨?_, hb, ?_⟩
        · rcases ha with ha | ha
          · exact Or.inl ha
          · exact Or.inr ⟨List.mem_cons_of_mem _ ha.1, ha.2⟩
        · intro e1 he1 hne hpre
          rcases List.mem_cons.mp he1 with rfl | hmem
          · exact absurd ⟨hne, hpre⟩ hm
          · exact hc e1 hmem hne hpre

/-- The lookup fails exactly when the input starts with no key of the table. -/
theorem symbolsFind_none {α : Type} (table : List (String × α)) (input : List Char) :
    symbolsFind table input = none ↔
      ∀ e ∈ table, ¬ (e.1.data ≠ [] ∧ e.1.data <+: input) := by
  constructor
  · intro h e he hm
    exact ((symbolsFind_foldl input table none none h).1 rfl).2 e he
      ⟨hm.1, List.isPrefixOf_iff_prefix.mpr hm.2⟩
  · intro h
    cases hr : symbolsFind table input with
    | none => rfl
    | some e =>
      obtain ⟨ha, _, _⟩ := (symbolsFind_foldl input table none (some e) hr).2 e rfl
      rcases ha with ha | ha
      · cases ha
      · exact absurd ⟨ha.2.1, List.isPrefixOf_iff_prefix.mp ha.2.2⟩ (h e ha.1)

/-- The entry the lookup finds: an entry of the table whose key the input starts with,
and no key the input starts with is longer. -/
theorem symbolsFind_some {α : Type} (table : List (String × α)) (input : List Char)
    (e : String × α) (h : symbolsFind table input = some e) :
    e ∈ table ∧ e.1.data ≠ [] ∧ e.1.data <+: input ∧
      ∀ e1 ∈ table, e1.1.data <+: input → e1.1.length ≤ e.1.length := by
  obtain ⟨ha, _, hc⟩ := (symbolsFind_foldl input table none (some e) h).2 e rfl
  rcases ha with ha | ha
  · cases ha
  · refine ⟨ha.1, ha.2.1, List.isPrefixOf_iff_prefix.mp ha.2.2, ?_⟩
    intro e1 he1 hpre
    by_cases hne : e1.1.data = []
    · have : e1.1.length = 0 := by
        show e1.1.data.length = 0
        rw [hne]; rfl
      omega
    · exact hc e1 he1 hne (List.isPrefixOf_iff_prefix.mpr hpre)

/-- A list the text starts with, all of whose members satisfy `p`, is within the
maximal run of members satisfying `p`. -/
theorem prefix_takeWhile {α : Type} (p : α → Bool) :
    ∀ (l text : List α), l <+: text → (∀ a ∈ l, p a = true) → l <+: text.takeWhile p := by
  intro l
  induction l with
  | nil => intro text _ _; exact List.nil_prefix
  | cons a l ih =>
    intro text hpre hall
    cases text with
    | nil => simp at hpre
    | cons b text =>
      obtain ⟨rfl, hpre1⟩ := List.cons_prefix_cons.mp hpre
      have ha : p a = true := hall a (List.mem_cons_self _ _)
      rw [List.takeWhile_cons, ha]
      exact List.cons_prefix_cons.mpr
        ⟨rfl, ih text hpre1 (fun c hc => hall c (List.mem_cons_of_mem _ hc))⟩

/-- The keys of `swizzlers` are not empty, consist of the characters x, y, z, w, and no
key occurs twice. -/
theorem swizzlers_keys :
    (∀ e ∈ swizzlers, e.1.data ≠ [] ∧ ∀ c ∈ e.1.data, isMaskChar c = true) ∧
      (∀ e1 ∈ swizzlers, ∀ e2 ∈ swizzlers, e1.1 = e2.1 → e1.2 = e2.2) ∧
      (∀ c, isMaskChar c = true → ∃ mask, (String.mk [c], mask) ∈ swizzlers) := by
  refine ⟨by decide, by decide, ?_⟩
  intro c hc
  simp only [isMaskChar, Bool.or_eq_true, beq_iff_eq] at hc
  rcases hc with ((rfl | rfl) | rfl) | rfl
  · exact ⟨_, List.mem_of_elem_eq_true (by decide : swizzlers.elem ("x", ⟨1, ⟨0, 0, 0, 0⟩⟩) = true)⟩
  · exact ⟨_, List.mem_of_elem_eq_true (by decide : swizzlers.elem ("y", ⟨1, ⟨1, 0, 0, 0⟩⟩) = true)⟩
  · exact ⟨_, List.mem_of_elem_eq_true (by decide : swizzlers.elem ("z", ⟨1, ⟨2, 0, 0, 0⟩⟩) = true)⟩
  · exact ⟨_, List.mem_of_elem_eq_true (by decide : swizzlers.elem ("w", ⟨1, ⟨3, 0, 0, 0⟩⟩) = true)⟩

/-- C17, as the code recognises a swizzle mask: the recogniser accepts the longest
spelling of the table of 15 that the text at the cursor starts with, yields the mask of
that spelling (its components in order) and leaves the rest of the text; it fails
exactly when the text at the cursor does not start with x, y, z or w.  When the
maximal run of characters from x, y, z, w is a spelling of the table, the whole run is
accepted; otherwise the accepted spelling is a proper part of the run. -/
theorem C17_swizzle_mask_longest_spelling (input : List Char) :
    (swizzle_mask input = none ↔ (skipOver input).takeWhile isMaskChar = []) ∧
      (∀ mask rest, swizzle_mask input = some (mask, rest) →
        ∃ key, (key, mask) ∈ swizzlers ∧ skipOver input = key.data ++ rest ∧
          key.data <+: (skipOver input).takeWhile isMaskChar ∧
          ∀ e ∈ swizzlers, e.1.data <+: skipOver input → e.1.length ≤ key.length) ∧
      (∀ mask, (String.mk ((skipOver input).takeWhile isMaskChar), mask) ∈ swizzlers →
        swizzle_mask input = some (mask, (skipOver input).dropWhile isMaskChar)) ∧
      (∀ e ∈ swizzlers,
        e.1.data = (List.range e.2.num_components).map
          (fun i => ['x', 'y', 'z', 'w'].getD (e.2.components.get i) 'x')) ∧
      (swizzlers.map (fun e => e.1.data)).Perm
        (['x', 'y', 'z', 'w'].sublists.filter (fun l => l ≠ [])) := by
  obtain ⟨hkeys, huniq, hone⟩ := swizzlers_keys
  have hsome : ∀ mask rest, swizzle_mask input = some (mask, rest) →
      ∃ key, (key, mask) ∈ swizzlers ∧ skipOver input = key.data ++ rest ∧
        key.data <+: (skipOver input).takeWhile isMaskChar ∧
        ∀ e ∈ swizzlers, e.1.data <+: skipOver input → e.1.length ≤ key.length := by
    intro mask rest h
    unfold swizzle_mask at h
    cases hf : symbolsFind swizzlers (skipOver input) with
    | none => simp [hf] at h
    | some e =>
      obtain ⟨key, m⟩ := e
      simp only [hf, Option.some.injEq, Prod.mk.injEq] at h
      obtain ⟨rfl, rfl⟩ := h
      obtain ⟨hmem, _, hpre, hmax⟩ := symbolsFind_some swizzlers (skipOver input) _ hf
      exact ⟨key, hmem, (List.prefix_iff_eq_append.mp hpre).symm,
        prefix_takeWhile isMaskChar _ _ hpre (hkeys _ hmem).2, hmax⟩
  refine ⟨?_, hsome, ?_, by decide, by decide⟩
  · constructor
    · intro h
      unfold swizzle_mask at h
      cases hf : symbolsFind swizzlers (skipOver input) with
      | some e => simp [hf] at h
      | none =>
        have hnone := (symbolsFind_none swizzlers (skipOver input)).mp hf
        cases htext : skipOver input with
        | nil => rfl
        | cons c text =>
          rw [List.takeWhile_cons]
          cases hc : isMaskChar c with
          | false => rfl
          | true =>
            obtain ⟨mask, hmem⟩ := hone c hc
            exact absurd ⟨by simp, by rw [htext]; exact List.prefix_iff_eq_append.mpr rfl⟩
              (hnone _ hmem)
    · intro h
      cases hr : swizzle_mask input with
      | none => rfl
      | some r =>
        obtain ⟨mask, rest⟩ := r
        obtain ⟨key, hmem, _, hpre, _⟩ := hsome mask rest hr
        rw [h] at hpre
        exact absurd (List.prefix_nil.mp hpre) (hkeys _ hmem).1
  · intro mask hrun
    have hrunpre : (skipOver input).takeWhile isMaskChar <+: skipOver input :=
      List.takeWhile_prefix _
    cases hr : swizzle_mask input with
    | none =>
      unfold swizzle_mask at hr
      cases hf : symbolsFind swizzlers (skipOver input) with
      | some e => simp [hf] at hr
      | none =>
        exact absurd ⟨(hkeys _ hrun).1, hrunpre⟩
          ((symbolsFind_none swizzlers (skipOver input)).mp hf _ hrun)
    | some r =>
      obtain ⟨mask1, rest⟩ := r
      obtain ⟨key, hmem, htext, hpre, hmax⟩ := hsome mask1 rest hr
      have hlen : key.data.length = ((skipOver input).takeWhile isMaskChar).length :=
        Nat.le_antisymm hpre.length_le (hmax _ hrun hrunpre)
      have hdata : key.data = (skipOver input).takeWhile isMaskChar := hpre.eq_of_length hlen
      have hkey : key = String.mk ((skipOver input).takeWhile isMaskChar) := String.ext hdata
      have hmask : mask1 = mask := huniq _ hmem _ hrun hkey
      have hrest : rest = (skipOver input).dropWhile isMaskChar := by
        have h1 := List.takeWhile_append_dropWhile isMaskChar (skipOver input)
        rw [← hdata] at h1
        exact List.append_cancel_left (htext.symm.trans h1.symm)
      rw [hmask, hrest]

/-- C17 as stated fails: the runs `xx` and `yx` are not spellings of the table, and the
recogniser accepts their first character as the masks x and y. -/
theorem C17_swizzle_mask_counterexample :
    "xx".data.takeWhile isMaskChar = "xx".data ∧ swizzler "xx" = none ∧
      swizzle_mask "xx".data = some (⟨1, ⟨0, 0, 0, 0⟩⟩, "x".data) ∧
      "yx".data.takeWhile isMaskChar = "yx".data ∧ swizzler "yx" = none ∧
      swizzle_mask "yx".data = some (⟨1, ⟨1, 0, 0, 0⟩⟩, "x".data) := by
  decide

theorem eol_length (input rest : List Char) (h : eol input = some rest) :
    rest.length < input.length := by
  unfold eol at h
  match input, h with
  | c :: tail, h =>
    simp only at h
    split_ifs at h with h1 h2
    · match tail, h with
      | [], h => cases h; simp
      | d :: tail1, h =>
        simp only at h
        split_ifs at h
        · cases h; simp only [List.length_cons]; omega
        · cases h; simp
    · cases h; simp

theorem comments_length (input rest : List Char) (h : comments input = some rest) :
    rest.length < input.length := by
  unfold comments at h
  match input, h with
  | c :: tail, h =>
    simp only at h
    split_ifs at h
    have h1 := eol_length _ _ h
    have h2 : (tail.dropWhile (fun d => !(d == '\r' || d == '\n'))).length ≤ tail.length :=
      (List.dropWhile_suffix _).length_le
    simp only [List.length_cons]
    omega

/-- A step of the skipper takes at least one character. -/
theorem skipStep_length (input rest : List Char) (h : skipStep input = some rest) :
    rest.length < input.length := by
  unfold skipStep at h
  cases hc : comments input with
  | some r =>
    simp only [hc, Option.some.injEq] at h
    exact h ▸ comments_length input r hc
  | none =>
    simp only [hc] at h
    match input, h with
    | c :: tail, h =>
      simp only at h
      split_ifs at h
      cases h
      simp

theorem skipOverFuel_done :
    ∀ (fuel : Nat) (input : List Char), input.length ≤ fuel →
      skipStep (skipOverFuel fuel input) = none := by
  intro fuel
  induction fuel with
  | zero =>
    intro input h
    have : input = [] := List.length_eq_zero.mp (by omega)
    subst this
    rfl
  | succ fuel ih =>
    intro input h
    simp only [skipOverFuel]
    cases hs : skipStep input with
    | none => exact hs
    | some rest =>
      have := skipStep_length input rest hs
      exact ih rest (by omega)

/-- Skipping runs until the skipper matches no more: the fuel is enough. -/
theorem skipOver_done (input : List Char) : skipStep (skipOver input) = none :=
  skipOverFuel_done input.length input (Nat.le_refl _)

theorem skipOverFuel_length :
    ∀ (fuel : Nat) (input : List Char), (skipOverFuel fuel input).length ≤ input.length := by
  intro fuel
  induction fuel with
  | zero => intro input; exact Nat.le_refl _
  | succ fuel ih =>
    intro input
    cases hs : skipStep input with
    | none =>
      simp only [skipOverFuel, hs]
      exact Nat.le_refl _
    | some rest =>
      simp only [skipOverFuel, hs]
      have := skipStep_length input rest hs
      have := ih rest
      omega

theorem lit_length (ch : Char) (input rest : List Char) (h : lit ch input = some rest) :
    rest.length < input.length := by
  unfold lit at h
  have hlen := skipOverFuel_length input.length input
  cases hs : skipOver input with
  | nil => simp [hs] at h
  | cons c tail =>
    simp only [hs] at h
    split_ifs at h
    cases h
    have : (skipOver input).length = rest.length + 1 := by rw [hs]; rfl
    unfold skipOver at this
    omega

theorem swizzle_mask_length (input rest : List Char) (mask : InputSwizzlerMask)
    (h : swizzle_mask input = some (mask, rest)) : rest.length < input.length := by
  unfold swizzle_mask at h
  have hlen := skipOverFuel_length input.length input
  cases hf : symbolsFind swizzlers (skipOver input) with
  | none => simp [hf] at h
  | some e =>
    obtain ⟨hmem, hne, hpre, _⟩ := symbolsFind_some _ _ e hf
    simp only [hf, Option.some.injEq, Prod.mk.injEq] at h
    have h1 : 0 < e.1.data.length := List.length_pos.mpr hne
    have h2 := hpre.length_le
    rw [← h.2, List.length_drop]
    unfold skipOver at h2 ⊢
    show (skipOverFuel input.length input).length - e.1.data.length < input.length
    omega

/-- The loop over the swizzle suffixes gives the same result for every fuel that is at
least the length of the input. -/
theorem swizzleSuffixes_fuel :
    ∀ (fuel1 fuel2 : Nat) (input : List Char), input.length ≤ fuel1 → input.length ≤ fuel2 →
      swizzleSuffixes fuel1 input = swizzleSuffixes fuel2 input := by
  intro fuel1
  induction fuel1 with
  | zero =>
    intro fuel2 input h1 _
    have : input = [] := List.length_eq_zero.mp (by omega)
    subst this
    cases fuel2 with
    | zero => rfl
    | succ fuel2 => rfl
  | succ fuel1 ih =>
    intro fuel2 input h1 h2
    cases fuel2 with
    | zero =>
      have : input = [] := List.length_eq_zero.mp (by omega)
      subst this
      rfl
    | succ fuel2 =>
      cases hl : lit '.' input with
      | none => simp only [swizzleSuffixes, hl]
      | some rest =>
        have hl1 := lit_length _ _ _ hl
        cases hm : swizzle_mask rest with
        | none => simp only [swizzleSuffixes, hl, hm]
        | some r =>
          obtain ⟨mask, rest1⟩ := r
          have hm1 := swizzle_mask_length _ _ _ hm
          simp only [swizzleSuffixes, hl, hm, ih fuel2 rest1 (by omega) (by omega)]

/-- C16. The skipper takes a text that begins with a single `/` as a comment: the
line `/ a` is skipped like the line `// a`, and the character after the `/` plays no
part.  The comment runs to the end of the line and takes the line end. -/
theorem C16_single_slash_comment :
    comments "/ a\nmov o0, t0".data = some "mov o0, t0".data ∧
      skipOver "/ a\nmov o0, t0".data = "mov o0, t0".data ∧
      comments "// a\nmov o0, t0".data = some "mov o0, t0".data ∧
      (∀ c rest, c ≠ '\r' → c ≠ '\n' →
        comments ('/' :: c :: rest) = comments ('/' :: '/' :: rest)) := by
  refine ⟨by decide, by decide, by decide, ?_⟩
  intro c rest h1 h2
  simp [comments, List.dropWhile_cons, h1, h2]

theorem C17_swizzle_mask_longest_spelling_witness :
    swizzle_mask " xyw, t0".data = some (⟨3, ⟨0, 1, 3, 0⟩⟩, ", t0".data) :=
  (C17_swizzle_mask_longest_spelling " xyw, t0".data).2.2.1 ⟨3, ⟨0, 1, 3, 0⟩⟩ (by decide)

/-- A match of `expression_chain[k]` has `k` arguments. -/
theorem expression_chain_length (context : ParserContext) :
    ∀ (k : Nat) (input : List Char) (args : List Expression) (rest : List Char),
      expression_chain context k input = .ok args rest → args.length = k := by
  intro k
  induction k using Nat.strong_induction_on with
  | _ k ih =>
    intro input args rest h
    match k, ih, h with
    | 0, _, h => simp [expression_chain] at h
    | 1, _, h =>
      simp only [expression_chain] at h
      cases he : expression context input with
      | ok e r =>
        simp only [he, ParseResult.ok.injEq] at h
        rw [← h.1]; rfl
      | fail => simp [he] at h
      | expectation_failure => simp [he] at h
    | i + 2, ih, h =>
      simp only [expression_chain] at h
      cases hc : expression_chain context (i + 1) input with
      | ok args1 rest1 =>
        simp only [hc] at h
        cases hl : lit ',' rest1 with
        | none => simp [hl] at h
        | some rest2 =>
          simp only [hl] at h
          cases he : expression context rest2 with
          | ok e r =>
            simp only [he, ParseResult.ok.injEq] at h
            rw [← h.1, List.length_append, ih (i + 1) (by omega) input args1 rest1 hc]
            rfl
          | fail => simp [he] at h
          | expectation_failure => simp [he] at h
      | fail => simp [hc] at h
      | expectation_failure => simp [hc] at h

/-- A match of `expression_chain[k + 1]`, `k` at least 1, extends a match of
`expression_chain[k]` after which a comma follows. -/
theorem expression_chain_succ (context : ParserContext) (k : Nat) (hk : 1 ≤ k)
    (input : List Char) (args : List Expression) (rest : List Char)
    (h : expression_chain context (k + 1) input = .ok args rest) :
    ∃ args1 rest1 rest2 e, expression_chain context k input = .ok args1 rest1 ∧
      lit ',' rest1 = some rest2 ∧ expression context rest2 = .ok e rest ∧
      args = args1 ++ [e] := by
  obtain ⟨i, rfl⟩ : ∃ i, k = i + 1 := ⟨k - 1, by omega⟩
  simp only [expression_chain] at h
  cases hc : expression_chain context (i + 1) input with
  | ok args1 rest1 =>
    simp only [hc] at h
    cases hl : lit ',' rest1 with
    | none => simp [hl] at h
    | some rest2 =>
      simp only [hl] at h
      cases he : expression context rest2 with
      | ok e r =>
        simp only [he, ParseResult.ok.injEq] at h
        exact ⟨args1, rest1, rest2, e, rfl, hl, by rw [← h.2, he], h.1.symm⟩
      | fail => simp [he] at h
      | expectation_failure => simp [he] at h
  | fail => simp [hc] at h
  | expectation_failure => simp [hc] at h

/-- With a match of `expression_chain[m]` every shorter chain matches too, and a comma
follows the shorter match. -/
theorem expression_chain_shorter (context : ParserContext) (input : List Char) :
    ∀ (d k : Nat), 1 ≤ k → ∀ (args : List Expression) (rest : List Char),
      expression_chain context (k + d + 1) input = .ok args rest →
      ∃ args1 rest1 rest2, expression_chain context k input = .ok args1 rest1 ∧
        lit ',' rest1 = some rest2 := by
  intro d
  induction d with
  | zero =>
    intro k hk args rest h
    obtain ⟨args1, rest1, rest2, _, h1, h2, _, _⟩ :=
      expression_chain_succ context k hk input args rest h
    exact ⟨args1, rest1, rest2, h1, h2⟩
  | succ d ih =>
    intro k hk args rest h
    obtain ⟨args1, rest1, _, _, h1, _, _, _⟩ :=
      expression_chain_succ context (k + d + 1) (by omega) input args rest h
    exact ih k hk args1 rest1 h1

/-- The keys of the five opcode tables: a key of one table is not the beginning of a
key of another table. -/
theorem opcodes_keys :
    ∀ i < 5, ∀ j < 5, ∀ e1 ∈ opcodes i, ∀ e2 ∈ opcodes j,
      e1.1.data.isPrefixOf e2.1.data = true → i = j := by
  decide

/-- At one position the mnemonics of at most one arity class match. -/
theorem opcode_class (i j : Nat) (input : List Char) (r1 r2 : OpCode × List Char)
    (h1 : opcode i input = some r1) (h2 : opcode j input = some r2) : i = j := by
  have key : ∀ n r, opcode n input = some r →
      n < 5 ∧ ∃ e ∈ opcodes n, e.1.data <+: (skipOver input).map Char.toLower := by
    intro n r h
    unfold opcode at h
    cases hf : symbolsFind (opcodes n) ((skipOver input).map Char.toLower) with
    | none => simp [hf] at h
    | some e =>
      obtain ⟨hmem, _, hpre, _⟩ := symbolsFind_some _ _ e hf
      refine ⟨?_, e, hmem, hpre⟩
      by_contra hn
      have : opcodes n = [] := by
        match n, hn with
        | 0, hn => omega
        | 1, hn => omega
        | 2, hn => omega
        | 3, hn => omega
        | 4, hn => omega
        | n + 5, _ => rfl
      rw [this] at hmem
      cases hmem
  obtain ⟨hi, e1, hm1, hp1⟩ := key i r1 h1
  obtain ⟨hj, e2, hm2, hp2⟩ := key j r2 h2
  rcases List.prefix_or_prefix_of_prefix hp1 hp2 with h | h
  · exact opcodes_keys i hi j hj e1 hm1 e2 hm2 (List.isPrefixOf_iff_prefix.mpr h)
  · exact (opcodes_keys j hj i hi e2 hm2 e1 hm1 (List.isPrefixOf_iff_prefix.mpr h)).symm

/-- The instruction rule after a mnemonic of arity 0. -/
theorem start_of_opcode_zero (context : ParserContext) (input : List Char) (op : OpCode)
    (text : List Char) (hop : opcode 0 input = some (op, text)) :
    start context input = if not_comma text then some ((op, []), text) else none := by
  unfold start
  simp only [instrFrom, instr, hop, if_true]
  cases not_comma text <;> rfl

/-- The instruction rule after a mnemonic of arity 1 to 4: the chain of that arity is
expected, and then no comma. -/
theorem start_of_opcode (context : ParserContext) (n : Nat) (hn : 1 ≤ n) (input : List Char)
    (op : OpCode) (text : List Char) (hop : opcode n input = some (op, text)) :
    start context input =
      match expression_chain context n text with
      | .ok args rest => if not_comma rest then some ((op, args), rest) else none
      | .fail => none
      | .expectation_failure => none := by
  have hother : ∀ m, m ≠ n → opcode m input = none := by
    intro m hm
    cases h : opcode m input with
    | none => rfl
    | some r => exact absurd (opcode_class m n input r (op, text) h hop) hm
  have hlt : n < 5 := by
    by_contra hge
    have : opcodes n = [] := by
      match n, hge with
      | 0, h => omega
      | 1, h => omega
      | 2, h => omega
      | 3, h => omega
      | 4, h => omega
      | n + 5, _ => rfl
    simp [opcode, this, symbolsFind] at hop
  have h0 := hother 0 (by omega)
  unfold start
  interval_cases n
  · simp only [instrFrom, instr, h0, hop]
    cases expression_chain context 1 text with
    | ok args rest => by_cases hb : not_comma rest = true <;> simp [hb]
    | fail => simp
    | expectation_failure => simp
  · simp only [instrFrom, instr, h0, hother 1 (by omega), hop]
    cases expression_chain context 2 text with
    | ok args rest => by_cases hb : not_comma rest = true <;> simp [hb]
    | fail => simp
    | expectation_failure => simp
  · simp only [instrFrom, instr, h0, hother 1 (by omega), hother 2 (by omega), hop]
    cases expression_chain context 3 text with
    | ok args rest => by_cases hb : not_comma rest = true <;> simp [hb]
    | fail => simp
    | expectation_failure => simp
  · simp only [instrFrom, instr, h0, hother 1 (by omega), hother 2 (by omega),
      hother 3 (by omega), hop]
    cases expression_chain context 4 text with
    | ok args rest => by_cases hb : not_comma rest = true <;> simp [hb]
    | fail => simp
    | expectation_failure => simp

/-- The opcodes of table `n` take `n` arguments. -/
theorem opcodes_num_arguments :
    ∀ n < 5, ∀ e ∈ opcodes n, (GetInfo e.2).num_arguments = n := by
  decide

/-- The opcode a mnemonic rule yields is an opcode of its table. -/
theorem opcode_mem (n : Nat) (input : List Char) (op : OpCode) (text : List Char)
    (hop : opcode n input = some (op, text)) : n < 5 ∧ ∃ key, (key, op) ∈ opcodes n := by
  have hlt : n < 5 := by
    by_contra hge
    have : opcodes n = [] := by
      match n, hge with
      | 0, h => omega
      | 1, h => omega
      | 2, h => omega
      | 3, h => omega
      | 4, h => omega
      | n + 5, _ => rfl
    simp [opcode, this, symbolsFind] at hop
  refine ⟨hlt, ?_⟩
  unfold opcode at hop
  cases hf : symbolsFind (opcodes n) ((skipOver input).map Char.toLower) with
  | none => simp [hf] at hop
  | some e =>
    obtain ⟨key, value⟩ := e
    obtain ⟨hmem, _, _, _⟩ := symbolsFind_some _ _ _ hf
    simp only [hf] at hop
    by_cases h0 : n = 0
    · simp only [h0, if_true, Option.some.injEq, Prod.mk.injEq] at hop
      exact ⟨key, hop.1 ▸ hmem⟩
    · simp only [h0, if_false] at hop
      cases hd : (skipOver input).drop key.length with
      | nil => simp [hd] at hop
      | cons c rest =>
        simp only [hd] at hop
        by_cases hb : isBlank c = true
        · simp only [hb, if_true, Option.some.injEq, Prod.mk.injEq] at hop
          exact ⟨key, hop.1 ▸ hmem⟩
        · simp [hb] at hop

/-- The instruction rule after the rule `opcode[n]` has matched a mnemonic of arity
class n, `text` being the input after it: what a match yields, the case n = 0, and for
n from 1 to 4 the match in terms of the number k of comma-separated expressions that
`text` starts with. -/
theorem start_after_opcode (context : ParserContext) (n : Nat) (input : List Char)
    (op : OpCode) (text : List Char) (hop : opcode n input = some (op, text)) :
    n < 5 ∧ (GetInfo op).num_arguments = n ∧
      (∀ statement rest, start context input = some (statement, rest) →
        statement.1 = op ∧ statement.2.length = n ∧ not_comma rest = true) ∧
      (n = 0 →
        start context input = if not_comma text then some ((op, []), text) else none) ∧
      (1 ≤ n → ∀ k args rest, expression_chain context k text = .ok args rest →
        (∀ args1 rest1, expression_chain context (k + 1) text ≠ .ok args1 rest1) →
        ((start context input).isSome = true ↔ k = n ∧ not_comma rest = true) ∧
          (k = n → not_comma rest = true →
            start context input = some ((op, args), rest))) ∧
      (1 ≤ n → (∀ e rest, expression context text ≠ .ok e rest) →
        start context input = none) := by
  obtain ⟨hlt, key, hmem⟩ := opcode_mem n input op text hop
  have hargs := opcodes_num_arguments n hlt _ hmem
  refine ⟨hlt, hargs, ?_, ?_, ?_, ?_⟩
  · intro statement rest h
    by_cases h0 : n = 0
    · subst h0
      rw [start_of_opcode_zero context input op text hop] at h
      by_cases hb : not_comma text = true
      · simp only [hb, if_true, Option.some.injEq, Prod.mk.injEq] at h
        obtain ⟨rfl, rfl⟩ := h
        exact ⟨rfl, rfl, hb⟩
      · simp [hb] at h
    · rw [start_of_opcode context n (by omega) input op text hop] at h
      cases hc : expression_chain context n text with
      | ok args rest1 =>
        simp only [hc] at h
        by_cases hb : not_comma rest1 = true
        · simp only [hb, if_true, Option.some.injEq, Prod.mk.injEq] at h
          obtain ⟨rfl, rfl⟩ := h
          exact ⟨rfl, expression_chain_length context n text args rest1 hc, hb⟩
        · simp [hb] at h
      | fail => simp [hc] at h
      | expectation_failure => simp [hc] at h
  · intro h0
    subst h0
    exact start_of_opcode_zero context input op text hop
  · intro hn k args rest hchain hmax
    have hstart := start_of_opcode context n hn input op text hop
    have hk : 1 ≤ k := by
      cases k with
      | zero => simp [expression_chain] at hchain
      | succ k => omega
    have hyes : k = n → not_comma rest = true →
        start context input = some ((op, args), rest) := by
      intro hkn hb
      subst hkn
      rw [hstart, hchain]
      simp [hb]
    refine ⟨⟨?_, fun h => ?_⟩, hyes⟩
    · intro hsome
      rw [hstart] at hsome
      cases hc : expression_chain context n text with
      | ok args1 rest1 =>
        simp only [hc] at hsome
        have hb : not_comma rest1 = true := by
          by_cases hb : not_comma rest1 = true
          · exact hb
          · simp [hb] at hsome
        have hkn : k = n := by
          rcases Nat.lt_trichotomy k n with hlt1 | heq | hgt
          · exfalso
            by_cases h1 : n = k + 1
            · subst h1
              exact hmax args1 rest1 hc
            · obtain ⟨a, r, _, h2, _⟩ := expression_chain_shorter context text (n - k - 2)
                (k + 1) (by omega) args1 rest1
                (by rw [show k + 1 + (n - k - 2) + 1 = n by omega]; exact hc)
              exact hmax a r h2
          · exact heq
          · exfalso
            obtain ⟨a, r, r2, h2, h3⟩ := expression_chain_shorter context text (k - n - 1)
              n hn args rest (by rw [show n + (k - n - 1) + 1 = k by omega]; exact hchain)
            rw [hc] at h2
            cases h2
            simp [not_comma, h3] at hb
        subst hkn
        rw [hchain] at hc
        cases hc
        exact ⟨rfl, hb⟩
      | fail => simp [hc] at hsome
      | expectation_failure => simp [hc] at hsome
    · rw [hyes h.1 h.2]
      rfl
  · intro hn hnone
    rw [start_of_opcode context n hn input op text hop]
    cases hc : expression_chain context n text with
    | ok args rest =>
      exfalso
      by_cases h1 : n = 1
      · subst h1
        simp only [expression_chain] at hc
        cases he : expression context text with
        | ok e r => exact hnone e r he
        | fail => simp [he] at hc
        | expectation_failure => simp [he] at hc
      · obtain ⟨a, r, _, h2, _⟩ := expression_chain_shorter context text (n - 2) 1
          (Nat.le_refl 1) args rest (by rw [show 1 + (n - 2) + 1 = n by omega]; exact hc)
        simp only [expression_chain] at h2
        cases he : expression context text with
        | ok e r1 => exact hnone e r1 he
        | fail => simp [he] at h2
        | expectation_failure => simp [he] at h2
    | fail => rfl
    | expectation_failure => rfl

/-- A table index of 5 or more names an empty table. -/
theorem opcodes_of_ge (n : Nat) (h : ¬ n < 5) : opcodes n = [] := by
  match n, h with
  | 0, h => omega
  | 1, h => omega
  | 2, h => omega
  | 3, h => omega
  | 4, h => omega
  | n + 5, _ => rfl

/-- At one position the lookup finds a mnemonic in at most one of the opcode tables. -/
theorem opcodes_find_class (i j : Nat) (text : List Char) (e1 e2 : String × OpCode)
    (h1 : symbolsFind (opcodes i) text = some e1)
    (h2 : symbolsFind (opcodes j) text = some e2) : i = j := by
  obtain ⟨hm1, _, hp1, _⟩ := symbolsFind_some _ _ e1 h1
  obtain ⟨hm2, _, hp2, _⟩ := symbolsFind_some _ _ e2 h2
  have hi : i < 5 := by
    by_contra hn
    rw [opcodes_of_ge i hn] at hm1
    cases hm1
  have hj : j < 5 := by
    by_contra hn
    rw [opcodes_of_ge j hn] at hm2
    cases hm2
  rcases List.prefix_or_prefix_of_prefix hp1 hp2 with h | h
  · exact opcodes_keys i hi j hj e1 hm1 e2 hm2 (List.isPrefixOf_iff_prefix.mpr h)
  · exact (opcodes_keys j hj i hi e2 hm2 e1 hm1 (List.isPrefixOf_iff_prefix.mpr h)).symm

/-- The rule `opcode[n]` where the lookup finds the mnemonic `key`: for n = 0 it
matches; otherwise it matches exactly when a blank follows the mnemonic directly. -/
theorem opcode_of_find (n : Nat) (input : List Char) (key : String) (op : OpCode)
    (hkey : symbolsFind (opcodes n) ((skipOver input).map Char.toLower) = some (key, op)) :
    opcode n input =
      if n = 0 then some (op, (skipOver input).drop key.length)
      else
        match (skipOver input).drop key.length with
        | [] => none
        | c :: rest => if isBlank c then some (op, rest) else none := by
  simp only [opcode, hkey]

/-- The rules `opcode[m]` of the other arity classes do not match where the lookup
finds a mnemonic of class n. -/
theorem opcode_other_class (n m : Nat) (input : List Char) (e : String × OpCode)
    (hkey : symbolsFind (opcodes n) ((skipOver input).map Char.toLower) = some e)
    (hm : m ≠ n) : opcode m input = none := by
  cases hf : symbolsFind (opcodes m) ((skipOver input).map Char.toLower) with
  | none => simp only [opcode, hf]
  | some e1 => exact absurd (opcodes_find_class m n _ e1 e hf hkey) hm

/-- The instruction rule fails where none of the five mnemonic rules matches. -/
theorem start_of_no_opcode (context : ParserContext) (input : List Char)
    (h : ∀ m, opcode m input = none) : start context input = none := by
  simp only [start, instrFrom, instr, h]

/-- C15, as the code recognises an instruction.  Let the lookup find at the cursor a
mnemonic of arity class n (ret, flush: 0; call: 1; mov, rcp, rsq: 2; add, mul, dp3,
dp4, max, min: 3; cmp: 4; letters of either case).  The opcode takes n arguments, and
on a match of the recogniser the parsed argument list has exactly n entries and no
comma follows.  For n = 0 the recogniser matches whenever no comma follows the
mnemonic, whatever else follows it, and takes the mnemonic only.  For n from 1 to 4
the recogniser does not match unless a blank (space or tab) follows the mnemonic
directly; with the blank and a text of k comma-separated expressions after it (k the
largest such number) it matches if and only if k = n and the last expression is not
followed by a comma, and it does not match when no expression follows the blank. -/
theorem C15_instruction_arity (context : ParserContext) (n : Nat) (input : List Char)
    (key : String) (op : OpCode)
    (hkey : symbolsFind (opcodes n) ((skipOver input).map Char.toLower) = some (key, op)) :
    n < 5 ∧ (GetInfo op).num_arguments = n ∧
      (∀ statement rest, start context input = some (statement, rest) →
        statement.1 = op ∧ statement.2.length = n ∧ not_comma rest = true) ∧
      (n = 0 →
        start context input =
          if not_comma ((skipOver input).drop key.length) then
            some ((op, []), (skipOver input).drop key.length)
          else none) ∧
      (1 ≤ n → (∀ c text, (skipOver input).drop key.length = c :: text → isBlank c = false) →
        start context input = none) ∧
      (1 ≤ n → ∀ c text, (skipOver input).drop key.length = c :: text → isBlank c = true →
        (∀ k args rest, expression_chain context k text = .ok args rest →
          (∀ args1 rest1, expression_chain context (k + 1) text ≠ .ok args1 rest1) →
          ((start context input).isSome = true ↔ k = n ∧ not_comma rest = true) ∧
            (k = n → not_comma rest = true →
              start context input = some ((op, args), rest))) ∧
        ((∀ e rest, expression context text ≠ .ok e rest) →
          start context input = none)) := by
  have hopcode := opcode_of_find n input key op hkey
  have hmem : (key, op) ∈ opcodes n := (symbolsFind_some _ _ _ hkey).1
  have hlt : n < 5 := by
    by_contra hn
    rw [opcodes_of_ge n hn] at hmem
    cases hmem
  have hargs := opcodes_num_arguments n hlt _ hmem
  have hnone : opcode n input = none → start context input = none := by
    intro hn
    apply start_of_no_opcode
    intro m
    by_cases hm : m = n
    · rw [hm, hn]
    · exact opcode_other_class n m input _ hkey hm
  refine ⟨hlt, hargs, ?_, ?_, ?_, ?_⟩
  · intro statement rest h
    cases hop : opcode n input with
    | none =>
      rw [hnone hop] at h
      cases h
    | some r =>
      obtain ⟨op1, text⟩ := r
      have hop1 : op1 = op := by
        rw [hopcode] at hop
        by_cases h0 : n = 0
        · simp only [h0, if_true, Option.some.injEq, Prod.mk.injEq] at hop
          exact hop.1.symm
        · simp only [h0, if_false] at hop
          cases hd : (skipOver input).drop key.length with
          | nil => simp [hd] at hop
          | cons c rest1 =>
            simp only [hd] at hop
            by_cases hb : isBlank c = true
            · simp only [hb, if_true, Option.some.injEq, Prod.mk.injEq] at hop
              exact hop.1.symm
            · simp [hb] at hop
      subst hop1
      exact (start_after_opcode context n input op1 text hop).2.2.1 statement rest h
  · intro h0
    have hop : opcode n input = some (op, (skipOver input).drop key.length) := by
      rw [hopcode, if_pos h0]
    exact (start_after_opcode context n input op _ hop).2.2.2.1 h0
  · intro hn hblank
    apply hnone
    rw [hopcode, if_neg (by omega)]
    cases hd : (skipOver input).drop key.length with
    | nil => rfl
    | cons c text =>
      simp only [hblank c text hd]
      rfl
  · intro hn c text hd hb
    have hop : opcode n input = some (op, text) := by
      rw [hopcode, if_neg (by omega), hd]
      simp only [hb, if_true]
    have h := start_after_opcode context n input op text hop
    exact ⟨h.2.2.2.2.1 hn, h.2.2.2.2.2 hn⟩

theorem C15_instruction_arity_witness :
    symbolsFind (opcodes 3) ((skipOver "add o0, t0, t1".data).map Char.toLower) =
        some ("add", .ADD) ∧
      start initialState.context "add o0, t0, t1".data =
        some ((.ADD, [⟨128, []⟩, ⟨16, []⟩, ⟨17, []⟩]), []) := by
  have hkey : symbolsFind (opcodes 3) ((skipOver "add o0, t0, t1".data).map Char.toLower) =
      some ("add", .ADD) := by decide
  have hchain : expression_chain initialState.context 3 "o0, t0, t1".data =
      .ok [⟨128, []⟩, ⟨16, []⟩, ⟨17, []⟩] [] := by
    rw [initialState_context]
    decide!
  have hmax : ∀ args1 rest1,
      expression_chain initialState.context (3 + 1) "o0, t0, t1".data ≠ .ok args1 rest1 := by
    intro args1 rest1 h
    have h4 : expression_chain initialState.context 4 "o0, t0, t1".data = .fail := by
      rw [initialState_context]
      decide!
    rw [h4] at h
    cases h
  exact ⟨hkey, (((C15_instruction_arity initialState.context 3 "add o0, t0, t1".data "add" .ADD
    hkey).2.2.2.2.2 (by decide) ' ' "o0, t0, t1".data (by decide) (by decide)).1
      3 _ [] hchain hmax).2 rfl (by decide)⟩

/-- C15 as stated fails in two ways.  In `ret t0` one expression follows the mnemonic
of arity 0, and the recogniser matches, taking `ret` with no argument.  In `mov`, line
feed, `o0, t0` two comma-separated expressions follow the mnemonic of arity 2 and no
comma follows them, and the recogniser does not match, because no blank follows the
mnemonic directly. -/
theorem C15_instruction_arity_counterexample :
    (opcode 0 "ret t0".data = some (.RET, " t0".data) ∧
      expression_chain initialState.context 1 " t0".data = .ok [⟨16, []⟩] [] ∧
      start initialState.context "ret t0".data = some ((.RET, []), " t0".data)) ∧
      (symbolsFind (opcodes 2) ((skipOver "mov\no0, t0".data).map Char.toLower) =
          some ("mov", .MOV) ∧
        expression_chain initialState.context 2 "\no0, t0".data =
          .ok [⟨128, []⟩, ⟨16, []⟩] [] ∧
        not_comma [] = true ∧
        start initialState.context "mov\no0, t0".data = none) := by
  refine ⟨⟨by decide, ?_, by decide!⟩, by decide, ?_, by decide, by decide!⟩
  · rw [initialState_context]
    decide!
  · rw [initialState_context]
    decide!

/-- Adding a name the symbol table does not hold. -/
theorem context_add_new (context : ParserContext) (name : String) (id : Identifier)
    (hnew : context.find name = none) :
    context.add name id = ⟨context.identifiers ++ [(name, id)]⟩ ∧
      (context.add name id).find name = some id ∧
      ∀ other, other ≠ name → (context.add name id).find other = context.find other := by
  have hnone : context.identifiers.find? (fun e => e.1 == name) = none := by
    simpa [ParserContext.find] using hnew
  have hany : context.identifiers.any (fun e => e.1 == name) = false := by
    rw [List.find?_eq_none] at hnone
    rw [List.any_eq_false]
    exact hnone
  have hadd : context.add name id = ⟨context.identifiers ++ [(name, id)]⟩ := by
    simp [ParserContext.add, hany]
  refine ⟨hadd, ?_, ?_⟩
  · rw [hadd]
    simp [ParserContext.find, List.find?_append, hnone]
  · intro other hother
    rw [hadd]
    have : ((name, id).1 == other) = false := by
      simpa using fun h => hother h.symm
    simp only [ParserContext.find, List.find?_append, List.find?_cons, this, List.find?_nil,
      Option.or_none]

/-- A run only appends to the identifier list. -/
theorem identifiers_run (u : Nat → Indeterminate) (statements : List Statement) :
    ∀ (n : Nat) (s s1 : AsmState), processStatements u n s statements = .ok s1 →
      ∃ more, s1.identifiers = s.identifiers ++ more := by
  induction statements with
  | nil =>
    intro n s s1 hok
    simp only [processStatements, Except.ok.injEq] at hok
    exact ⟨[], by rw [hok, List.append_nil]⟩
  | cons statement rest ih =>
    intro n s s1 hok
    simp only [processStatements] at hok
    cases hstep : processStatement (u n) s statement with
    | error e => simp [hstep] at hok
    | ok s2 =>
      simp only [hstep] at hok
      obtain ⟨more, hmore⟩ := ih (n + 1) s2 s1 hok
      have h2 : ∃ more2, s2.identifiers = s.identifiers ++ more2 := by
        cases statement with
        | Label name =>
          obtain ⟨_, rfl⟩ := processLabel_ok_inv s s2 name hstep
          exact ⟨[], by simp⟩
        | Instruction opcode args =>
          obtain ⟨_, _, _, _, _, _, _, _, _, rfl⟩ :=
            processInstruction_ok_inv (u n) s s2 opcode args hstep
          exact ⟨[], by simp⟩
        | Declaration d =>
          simp only [processStatement, processDeclaration] at hstep
          split at hstep
          · cases hstep
          · cases hstep
            exact ⟨_, rfl⟩
      obtain ⟨more2, hmore2⟩ := h2
      exact ⟨more2 ++ more, by rw [hmore, hmore2, List.append_assoc]⟩

/-- Arguments written with the declared identifier evaluate like the arguments written
with the referenced identifier, when the two identifiers have the same entry. -/
theorem evaluateArguments_withReferenced (identifiers : List Atomic)
    (out_init : Nat → Nat → InputSwizzlerMask) (declared referenced : Identifier)
    (h : identifiers[declared]? = identifiers[referenced]?) :
    ∀ (args : List Expression) (j : Nat),
      evaluateArguments identifiers out_init j
          (args.map (Expression.withReferenced declared referenced)) =
        evaluateArguments identifiers out_init j args := by
  intro args
  induction args with
  | nil => intro j; rfl
  | cons e rest ih =>
    intro j
    have he : EvaluateExpression identifiers (out_init j)
        (Expression.withReferenced declared referenced e) =
        EvaluateExpression identifiers (out_init j) e := by
      unfold Expression.withReferenced
      split_ifs with hd
      · simp only [EvaluateExpression, hd, h]
      · rfl
    simp only [List.map_cons, evaluateArguments, he, ih (j + 1)]

/-- C18. Processing a declaration (`.const`, `.out` or `.alias`) of a new name that
refers to a known identifier appends exactly one entry to the identifier list, equal
to the entry of the referenced identifier, leaves every earlier entry and the tables
of the program unchanged, and registers the name with the index of the new entry;
hence in every later statement of the run an instruction written with the new
identifier is processed like the instruction written with the referenced one (same
state, so the same instruction word and pattern, or the same error). -/
theorem C18_declaration (s : AsmState) (var : StatementDeclaration) (idname : String)
    (id : Identifier) (entry : Atomic)
    (hvar : var = .Constant idname id ∨ (∃ semantic, var = .Output idname id semantic) ∨
      var = .Alias idname id)
    (hknown : s.identifiers[id]? = some entry)
    (hnew : s.context.find idname = none) :
    ∃ s1, processDeclaration s var = .ok s1 ∧
      s1.identifiers = s.identifiers ++ [entry] ∧
      (∀ i < s.identifiers.length, s1.identifiers[i]? = s.identifiers[i]?) ∧
      s1.identifiers[s.identifiers.length]? = some entry ∧
      s1.context.identifiers = s.context.identifiers ++ [(idname, s.identifiers.length)] ∧
      s1.context.find idname = some s.identifiers.length ∧
      (∀ other, other ≠ idname → s1.context.find other = s.context.find other) ∧
      (s1.instructions = s.instructions ∧ s1.swizzle_patterns = s.swizzle_patterns ∧
        s1.label_table = s.label_table ∧ s1.symbol_table = s.symbol_table ∧
        s1.program_write_offset = s.program_write_offset) ∧
      ∀ (u : Nat → Indeterminate) (n : Nat) (statements : List Statement) (s2 : AsmState),
        processStatements u n s1 statements = .ok s2 →
        ∀ (U : Indeterminate) (opcode : OpCode) (args : List Expression),
          processInstruction U s2 opcode
              (args.map (Expression.withReferenced s.identifiers.length id)) =
            processInstruction U s2 opcode args := by
  have hstep : processDeclaration s var =
      .ok { s with
            identifiers := s.identifiers ++ [entry]
            context := s.context.add idname s.identifiers.length } := by
    rcases hvar with rfl | ⟨semantic, rfl⟩ | rfl <;> simp [processDeclaration, hknown]
  obtain ⟨hadd, hfind, hothers⟩ := context_add_new s.context idname s.identifiers.length hnew
  have hid : id < s.identifiers.length := (List.getElem?_eq_some.mp hknown).1
  refine ⟨_, hstep, rfl, ?_, ?_, ?_, hfind, hothers, ⟨rfl, rfl, rfl, rfl, rfl⟩, ?_⟩
  · intro i hi
    exact List.getElem?_append_left hi
  · simp
  · exact congrArg ParserContext.identifiers hadd
  · intro u n statements s2 hrun U opcode args
    obtain ⟨more, hmore⟩ := identifiers_run u statements n _ s2 hrun
    have hsame : s2.identifiers[s.identifiers.length]? = s2.identifiers[id]? := by
      rw [hmore]
      simp only [List.append_assoc]
      rw [List.getElem?_append_left hid, hknown,
        List.getElem?_append_right (Nat.le_refl _), Nat.sub_self]
      simp
    unfold processInstruction
    rw [evaluateArguments_withReferenced s2.identifiers U.out _ _ hsame args 0]

theorem C18_declaration_witness :
    ∃ s1, processDeclaration initialState (.Alias "pos" 16) = .ok s1 ∧
      s1.identifiers[144]? = some ⟨16, InputSwizzlerMask.FullMask⟩ ∧
      s1.context.find "pos" = some 144 ∧
      processInstruction U0 s1 .MOV [⟨128, []⟩, ⟨144, []⟩] =
        processInstruction U0 s1 .MOV [⟨128, []⟩, ⟨16, []⟩] := by
  have hknown : initialState.identifiers[16]? = some ⟨16, InputSwizzlerMask.FullMask⟩ := by
    rw [initialState_eq]
    decide!
  have hnew : initialState.context.find "pos" = none := by
    rw [initialState_context]
    decide!
  have hlen : initialState.identifiers.length = 144 := by
    rw [initialState_eq]
    simp
  obtain ⟨s1, h1, _, _, h4, _, h6, _, _, h9⟩ :=
    C18_declaration initialState (.Alias "pos" 16) "pos" 16 ⟨16, InputSwizzlerMask.FullMask⟩
      (Or.inr (Or.inr rfl)) hknown hnew
  rw [hlen] at h4 h6 h9
  exact ⟨s1, h1, h4, h6,
    (h9 (fun _ => U0) 0 [] s1 rfl U0 .MOV [⟨128, []⟩, ⟨144, []⟩]).symm⟩

theorem Array4.ext_get {α : Type} (a b : Array4 α) (h : ∀ i < 4, a.get i = b.get i) : a = b := by
  obtain ⟨a0, a1, a2, a3⟩ := a
  obtain ⟨b0, b1, b2, b3⟩ := b
  have h0 := h 0 (by omega)
  have h1 := h 1 (by omega)
  have h2 := h 2 (by omega)
  have h3 := h 3 (by omega)
  simp only [Array4.get] at h0 h1 h2 h3
  rw [h0, h1, h2, h3]

/-- Reading an array after a write. -/
theorem Array4.get_set {α : Type} (a : Array4 α) (n i : Nat) (v : α) (hi : i < 4) :
    (a.set n v).get i = if i = n then v else a.get i := by
  match n with
  | 0 => interval_cases i <;> rfl
  | 1 => interval_cases i <;> rfl
  | 2 => interval_cases i <;> rfl
  | 3 => interval_cases i <;> rfl
  | n + 4 =>
    have : i ≠ n + 4 := by omega
    simp only [this, if_false]
    rfl

theorem Array4.set_set {α : Type} (a : Array4 α) (n : Nat) (v : α) :
    (a.set n v).set n v = a.set n v := by
  match n with
  | 0 => rfl
  | 1 => rfl
  | 2 => rfl
  | 3 => rfl
  | n + 4 => rfl

/-- The inner loop of the constructor of `DestSwizzlerMask` for one component. -/
theorem destSwizzlerMask_inner (m : InputSwizzlerMask) (comp : Nat) :
    ∀ (l : List Nat) (component_set : Array4 Bool),
      l.foldl
          (fun component_set i =>
            if comp = m.components.get i then component_set.set comp true else component_set)
          component_set =
        if l.any (fun i => m.components.get i == comp) then component_set.set comp true
        else component_set := by
  intro l
  induction l with
  | nil => intro cs; rfl
  | cons i l ih =>
    intro cs
    simp only [List.foldl_cons, List.any_cons]
    by_cases h : comp = m.components.get i
    · rw [if_pos h, ih]
      have : (m.components.get i == comp) = true := by simp [h]
      simp only [this, Bool.true_or, if_true, Array4.set_set]
      split_ifs <;> rfl
    · rw [if_neg h, ih]
      have : (m.components.get i == comp) = false := by
        simp only [beq_eq_false_iff_ne, ne_eq]
        exact fun h1 => h h1.symm
      simp only [this, Bool.false_or]

/-- The destination component set of a mask: slot `c` says whether `c` occurs in the
mask. -/
theorem destSwizzlerMask_eq (m : InputSwizzlerMask) :
    DestSwizzlerMask.ofInput m = ⟨⟨m.occurs 0, m.occurs 1, m.occurs 2, m.occurs 3⟩⟩ := by
  unfold DestSwizzlerMask.ofInput
  simp only [List.foldl_cons, List.foldl_nil, destSwizzlerMask_inner, InputSwizzlerMask.x,
    InputSwizzlerMask.y, InputSwizzlerMask.z, InputSwizzlerMask.w]
  simp only [InputSwizzlerMask.occurs]
  cases (List.range m.num_components).any (fun i => m.components.get i == 0) <;>
  cases (List.range m.num_components).any (fun i => m.components.get i == 1) <;>
  cases (List.range m.num_components).any (fun i => m.components.get i == 2) <;>
  cases (List.range m.num_components).any (fun i => m.components.get i == 3) <;> rfl

theorem occurs_iff (m : InputSwizzlerMask) (c : Nat) :
    m.occurs c = true ↔ ∃ i < m.num_components, m.components.get i = c := by
  simp [InputSwizzlerMask.occurs]

/-- C24. For every input mask m and component c (x, y, z or w),
DestSwizzlerMask(m).component_set[c] is true if and only if c occurs among the first
num_components entries of m; hence two masks that name the same set of components, in
any order and with any repetition, give the same destination component set: zy, yz
and yzz all give the set with y and z. -/
theorem C24_destination_component_set :
    (∀ (m : InputSwizzlerMask) (c : Nat), c < 4 →
      ((DestSwizzlerMask.ofInput m).component_set.get c = true ↔
        ∃ i < m.num_components, m.components.get i = c)) ∧
      (∀ m1 m2 : InputSwizzlerMask,
        (∀ c < 4, (∃ i < m1.num_components, m1.components.get i = c) ↔
          (∃ i < m2.num_components, m2.components.get i = c)) →
        DestSwizzlerMask.ofInput m1 = DestSwizzlerMask.ofInput m2) ∧
      DestSwizzlerMask.ofInput ⟨2, ⟨2, 1, 0, 0⟩⟩ = ⟨⟨false, true, true, false⟩⟩ ∧
      DestSwizzlerMask.ofInput ⟨2, ⟨1, 2, 0, 0⟩⟩ = ⟨⟨false, true, true, false⟩⟩ ∧
      DestSwizzlerMask.ofInput ⟨3, ⟨1, 2, 2, 0⟩⟩ = ⟨⟨false, true, true, false⟩⟩ := by
  have hget : ∀ (m : InputSwizzlerMask) (c : Nat), c < 4 →
      (DestSwizzlerMask.ofInput m).component_set.get c = m.occurs c := by
    intro m c hc
    rw [destSwizzlerMask_eq]
    interval_cases c <;> rfl
  refine ⟨?_, ?_, by decide, by decide, by decide⟩
  · intro m c hc
    rw [hget m c hc, occurs_iff]
  · intro m1 m2 h
    have hocc : ∀ c < 4, m1.occurs c = m2.occurs c := by
      intro c hc
      have := h c hc
      rw [← occurs_iff, ← occurs_iff] at this
      cases h1 : m1.occurs c <;> cases h2 : m2.occurs c <;> simp_all
    rw [destSwizzlerMask_eq, destSwizzlerMask_eq, hocc 0 (by omega), hocc 1 (by omega),
      hocc 2 (by omega), hocc 3 (by omega)]

theorem C24_destination_component_set_witness :
    (DestSwizzlerMask.ofInput ⟨2, ⟨2, 1, 0, 0⟩⟩).component_set.get 2 = true ∧
      (DestSwizzlerMask.ofInput ⟨2, ⟨2, 1, 0, 0⟩⟩).component_set.get 3 ≠ true :=
  ⟨(C24_destination_component_set.1 ⟨2, ⟨2, 1, 0, 0⟩⟩ 2 (by decide)).mpr ⟨0, by decide, rfl⟩,
    fun h => by
      obtain ⟨i, hi, h3⟩ := (C24_destination_component_set.1 ⟨2, ⟨2, 1, 0, 0⟩⟩ 3 (by decide)).mp h
      have hi2 : i < 2 := hi
      interval_cases i <;> cases h3⟩

/-- The result of `AccordingToDestMask`, slot by slot. -/
theorem accordingToDestMask_get (s : InputSwizzlerMask) (dest : DestSwizzlerMask) (i : Nat)
    (hi : i < 4) :
    (SourceSwizzlerMask.AccordingToDestMask s dest).components.get i =
      if dest.component_set.get i then s.components.get (dest.activeBelow i)
      else SourceSwizzlerMask.Unspecified := by
  obtain ⟨⟨b0, b1, b2, b3⟩⟩ := dest
  interval_cases i <;> cases b0 <;> cases b1 <;> cases b2 <;> cases b3 <;> rfl

/-- C25. For every destination component set D and source mask s,
AccordingToDestMask(s, D) has Unspecified in every slot that is not in D and s[j] in
the slot that is the j-th active slot of D in x, y, z, w order (j counted from 0); when
s has at least as many components as D has active slots, that j is below the number of
components of s.  For `mov o0.zw, t0.xy` the result is Unspecified, Unspecified, x,
y. -/
theorem C25_according_to_dest_mask (s : InputSwizzlerMask) (dest : DestSwizzlerMask) (i : Nat)
    (hi : i < 4) :
    (dest.component_set.get i = false →
      (SourceSwizzlerMask.AccordingToDestMask s dest).components.get i =
        SourceSwizzlerMask.Unspecified) ∧
      (dest.component_set.get i = true →
        (SourceSwizzlerMask.AccordingToDestMask s dest).components.get i =
          s.components.get (dest.activeBelow i) ∧
        dest.activeBelow i < dest.activeBelow 4 ∧
        (dest.activeBelow 4 ≤ s.num_components → dest.activeBelow i < s.num_components)) ∧
      SourceSwizzlerMask.AccordingToDestMask ⟨2, ⟨0, 1, 0, 0⟩⟩
          (DestSwizzlerMask.ofInput ⟨2, ⟨2, 3, 0, 0⟩⟩) =
        ⟨⟨SourceSwizzlerMask.Unspecified, SourceSwizzlerMask.Unspecified, 0, 1⟩⟩ := by
  have hget := accordingToDestMask_get s dest i hi
  refine ⟨fun h => by rw [hget, h]; rfl, fun h => ?_, by decide⟩
  have hlt : dest.activeBelow i < dest.activeBelow 4 := by
    revert h
    obtain ⟨⟨b0, b1, b2, b3⟩⟩ := dest
    interval_cases i <;> cases b0 <;> cases b1 <;> cases b2 <;> cases b3 <;> decide
  exact ⟨by rw [hget, h]; rfl, hlt, fun hle => Nat.lt_of_lt_of_le hlt hle⟩

theorem C25_according_to_dest_mask_witness :
    (SourceSwizzlerMask.AccordingToDestMask ⟨2, ⟨0, 1, 0, 0⟩⟩
        ⟨⟨false, false, true, true⟩⟩).components.get 3 = 1 ∧
      (SourceSwizzlerMask.AccordingToDestMask ⟨2, ⟨0, 1, 0, 0⟩⟩
        ⟨⟨false, false, true, true⟩⟩).components.get 1 = SourceSwizzlerMask.Unspecified :=
  ⟨((C25_according_to_dest_mask ⟨2, ⟨0, 1, 0, 0⟩⟩ ⟨⟨false, false, true, true⟩⟩ 3
      (by decide)).2.1 rfl).1,
    (C25_according_to_dest_mask ⟨2, ⟨0, 1, 0, 0⟩⟩ ⟨⟨false, false, true, true⟩⟩ 1
      (by decide)).1 rfl⟩

/-- The loop of `Expand` after `n` iterations. -/
theorem expand_fold (s : InputSwizzlerMask) (n : Nat) (i : Nat) (hi : i < 4) :
    ((List.range n).foldl (fun ret k => ret.set k (s.components.get k))
        (⟨SourceSwizzlerMask.Unspecified, SourceSwizzlerMask.Unspecified,
          SourceSwizzlerMask.Unspecified, SourceSwizzlerMask.Unspecified⟩ : Array4 Nat)).get i =
      if i < n then s.components.get i else SourceSwizzlerMask.Unspecified := by
  induction n with
  | zero => interval_cases i <;> rfl
  | succ n ih =>
    rw [List.range_succ, List.foldl_append, List.foldl_cons, List.foldl_nil,
      Array4.get_set _ _ _ _ hi, ih]
    by_cases h1 : i = n
    · subst h1
      simp
    · by_cases h2 : i < n
      · simp [h1, h2, Nat.lt_succ_of_lt h2]
      · have h3 : ¬ i < n + 1 := by omega
        simp [h1, h2, h3]

/-- C26. For every source mask s, Expand(s) has s[i] in every slot i below the number
of components of s and Unspecified in every other slot; no destination set takes part
in it. -/
theorem C26_expand (s : InputSwizzlerMask) (i : Nat) (hi : i < 4) :
    (i < s.num_components →
      (SourceSwizzlerMask.Expand s).components.get i = s.components.get i) ∧
      (s.num_components ≤ i →
        (SourceSwizzlerMask.Expand s).components.get i = SourceSwizzlerMask.Unspecified) := by
  have h := expand_fold s s.num_components i hi
  refine ⟨fun hlt => ?_, fun hge => ?_⟩
  · rw [SourceSwizzlerMask.Expand, h, if_pos hlt]
  · rw [SourceSwizzlerMask.Expand, h, if_neg (by omega)]

theorem C26_expand_witness :
    (SourceSwizzlerMask.Expand ⟨3, ⟨1, 2, 3, 0⟩⟩).components.get 2 = 3 ∧
      (SourceSwizzlerMask.Expand ⟨3, ⟨1, 2, 3, 0⟩⟩).components.get 3 =
        SourceSwizzlerMask.Unspecified :=
  ⟨(C26_expand ⟨3, ⟨1, 2, 3, 0⟩⟩ 2 (by decide)).1 (by decide),
    (C26_expand ⟨3, ⟨1, 2, 3, 0⟩⟩ 3 (by decide)).2 (by decide)⟩

/-- The loop of one swizzle suffix after `n` iterations. -/
theorem applySwizzleMask_fold (mask m : InputSwizzlerMask) (n : Nat) (init : InputSwizzlerMask) :
    ((List.range n).foldl
        (fun out comp =>
          { out with
            components :=
              out.components.set comp (mask.components.get (m.components.get comp)) })
        init).num_components = init.num_components ∧
      ∀ k < 4,
        ((List.range n).foldl
          (fun out comp =>
            { out with
              components :=
                out.components.set comp (mask.components.get (m.components.get comp)) })
          init).components.get k =
          if k < n then mask.components.get (m.components.get k) else init.components.get k := by
  induction n with
  | zero => exact ⟨rfl, fun k _ => rfl⟩
  | succ n ih =>
    rw [List.range_succ, List.foldl_append, List.foldl_cons, List.foldl_nil]
    refine ⟨ih.1, fun k hk => ?_⟩
    simp only [Array4.get_set _ _ _ _ hk, ih.2 k hk]
    by_cases h1 : k = n
    · subst h1
      simp
    · by_cases h2 : k < n
      · simp [h1, h2, Nat.lt_succ_of_lt h2]
      · have h3 : ¬ k < n + 1 := by omega
        simp [h1, h2, h3]

/-- The number of components after a swizzle suffix is that of the suffix. -/
theorem applySwizzleMask_num (out mask m : InputSwizzlerMask) :
    (applySwizzleMask out mask m).num_components = m.num_components :=
  (applySwizzleMask_fold mask m m.num_components _).1

/-- The components after a swizzle suffix: component `k` of the suffix selects a
component of the prior mask; the entries from the length of the suffix on are those
the local `out` started with. -/
theorem applySwizzleMask_get (out mask m : InputSwizzlerMask) (k : Nat) (hk : k < 4) :
    (applySwizzleMask out mask m).components.get k =
      if k < m.num_components then mask.components.get (m.components.get k)
      else out.components.get k :=
  (applySwizzleMask_fold mask m m.num_components _).2 k hk

/-- The masks of `swizzlers` have 1 to 4 components, each one of x, y, z, w. -/
theorem swizzlers_masks :
    ∀ e ∈ swizzlers, 1 ≤ e.2.num_components ∧ e.2.num_components ≤ 4 ∧
      ∀ k < e.2.num_components, e.2.components.get k < 4 := by
  decide

theorem fullMask_get (j : Nat) (hj : j < 4) : InputSwizzlerMask.FullMask.components.get j = j := by
  interval_cases j <;> rfl

/-- C21. For every one of the 15 masks m of the swizzle table and every identifier
bound to the full mask, evaluating the expression `id.m` gives a reference to the same
register whose mask has the number of components of m and the components of m in the
same order, whatever the local `out` held before. -/
theorem C21_single_suffix (identifiers : List Atomic) (out_init : Nat → InputSwizzlerMask)
    (id : Identifier) (register_index : Nat) (key : String) (m : InputSwizzlerMask)
    (hm : (key, m) ∈ swizzlers)
    (hid : identifiers[id]? = some ⟨register_index, InputSwizzlerMask.FullMask⟩) :
    ∃ a, EvaluateExpression identifiers out_init ⟨id, [m]⟩ = some a ∧
      a.register_index = register_index ∧
      a.mask.num_components = m.num_components ∧
      ∀ k < m.num_components, a.mask.components.get k = m.components.get k := by
  obtain ⟨_, h4, hlt⟩ := swizzlers_masks _ hm
  simp only at h4 hlt
  refine ⟨⟨register_index, applySwizzleMask (out_init 0) InputSwizzlerMask.FullMask m⟩,
    by simp only [EvaluateExpression, hid, applySwizzleMasks], rfl, ?_, ?_⟩
  · exact applySwizzleMask_num _ _ _
  · intro k hk
    show (applySwizzleMask (out_init 0) InputSwizzlerMask.FullMask m).components.get k = _
    rw [applySwizzleMask_get _ _ _ k (by omega), if_pos hk]
    exact fullMask_get _ (hlt k hk)

theorem C21_single_suffix_witness :
    expression initialState.context "t0.xz".data = .ok ⟨16, [⟨2, ⟨0, 2, 0, 0⟩⟩]⟩ [] ∧
      ∃ a, EvaluateExpression initialState.identifiers (fun _ => ⟨7, ⟨9, 9, 9, 9⟩⟩)
          ⟨16, [⟨2, ⟨0, 2, 0, 0⟩⟩]⟩ = some a ∧
        a.register_index = 16 ∧ a.mask.num_components = 2 ∧
        a.mask.components.get 0 = 0 ∧ a.mask.components.get 1 = 2 := by
  have hparse : expression initialState.context "t0.xz".data =
      .ok ⟨16, [⟨2, ⟨0, 2, 0, 0⟩⟩]⟩ [] := by
    rw [initialState_context]
    decide!
  have hid : initialState.identifiers[16]? = some ⟨16, InputSwizzlerMask.FullMask⟩ := by
    rw [initialState_eq]
    decide!
  obtain ⟨a, h1, h2, h3, h4⟩ := C21_single_suffix initialState.identifiers
    (fun _ => ⟨7, ⟨9, 9, 9, 9⟩⟩) 16 16 "xz" ⟨2, ⟨0, 2, 0, 0⟩⟩ (by decide) hid
  exact ⟨hparse, a, h1, h2, h3, h4 0 (by decide), h4 1 (by decide)⟩

theorem inputSwizzlerMask_ext (a b : InputSwizzlerMask)
    (hn : a.num_components = b.num_components)
    (h : ∀ k < 4, a.components.get k = b.components.get k) : a = b := by
  obtain ⟨n1, c1⟩ := a
  obtain ⟨n2, c2⟩ := b
  simp only at hn h
  rw [hn, Array4.ext_get c1 c2 h]

/-- C22. Mask chaining is associative: for a prior mask p and suffix masks m1, m2 (of
at most 4 components) such that every component of m2 is a position below the length
of m1, applying m1 and then m2 to p gives the same mask as applying to p the single
mask obtained by applying m2 to m1: both have the length of m2 and component k of both
is p[m1[m2[k]]].  The entries from the length of m2 on are what the local `out` held;
with the same content of `out` in the last step the two records are equal. -/
theorem C22_chaining_associative (out1 out2 out3 out4 p m1 m2 : InputSwizzlerMask)
    (h1 : m1.num_components ≤ 4) (h2 : m2.num_components ≤ 4)
    (hrange : ∀ k < m2.num_components, m2.components.get k < m1.num_components) :
    (applySwizzleMask out2 (applySwizzleMask out1 p m1) m2).num_components =
        m2.num_components ∧
      (applySwizzleMask out3 p (applySwizzleMask out4 m1 m2)).num_components =
        m2.num_components ∧
      (∀ k < m2.num_components,
        (applySwizzleMask out2 (applySwizzleMask out1 p m1) m2).components.get k =
            p.components.get (m1.components.get (m2.components.get k)) ∧
          (applySwizzleMask out3 p (applySwizzleMask out4 m1 m2)).components.get k =
            p.components.get (m1.components.get (m2.components.get k))) ∧
      (out2.components = out3.components →
        applySwizzleMask out2 (applySwizzleMask out1 p m1) m2 =
          applySwizzleMask out3 p (applySwizzleMask out4 m1 m2)) := by
  have hl : ∀ k < m2.num_components,
      (applySwizzleMask out2 (applySwizzleMask out1 p m1) m2).components.get k =
        p.components.get (m1.components.get (m2.components.get k)) := by
    intro k hk
    have hj := hrange k hk
    rw [applySwizzleMask_get _ _ _ k (by omega), if_pos hk,
      applySwizzleMask_get _ _ _ _ (by omega), if_pos hj]
  have hr : ∀ k < m2.num_components,
      (applySwizzleMask out3 p (applySwizzleMask out4 m1 m2)).components.get k =
        p.components.get (m1.components.get (m2.components.get k)) := by
    intro k hk
    rw [applySwizzleMask_get _ _ _ k (by omega), applySwizzleMask_num, if_pos hk,
      applySwizzleMask_get _ _ _ k (by omega), if_pos hk]
  refine ⟨applySwizzleMask_num _ _ _, ?_, fun k hk => ⟨hl k hk, hr k hk⟩, fun hout => ?_⟩
  · rw [applySwizzleMask_num, applySwizzleMask_num]
  · apply inputSwizzlerMask_ext
    · rw [applySwizzleMask_num, applySwizzleMask_num, applySwizzleMask_num]
    · intro k hk
      by_cases hlt : k < m2.num_components
      · rw [hl k hlt, hr k hlt]
      · rw [applySwizzleMask_get _ _ _ k hk, if_neg hlt, applySwizzleMask_get _ _ _ k hk,
          applySwizzleMask_num, if_neg hlt, hout]

theorem C22_chaining_associative_witness :
    (∀ k < 1, (InputSwizzlerMask.mk 1 ⟨1, 0, 0, 0⟩).components.get k < 2) ∧
      applySwizzleMask ⟨0, ⟨0, 0, 0, 0⟩⟩
          (applySwizzleMask ⟨0, ⟨0, 0, 0, 0⟩⟩ InputSwizzlerMask.FullMask ⟨2, ⟨2, 3, 0, 0⟩⟩)
          ⟨1, ⟨1, 0, 0, 0⟩⟩ =
        applySwizzleMask ⟨0, ⟨0, 0, 0, 0⟩⟩ InputSwizzlerMask.FullMask
          (applySwizzleMask ⟨0, ⟨0, 0, 0, 0⟩⟩ ⟨2, ⟨2, 3, 0, 0⟩⟩ ⟨1, ⟨1, 0, 0, 0⟩⟩) :=
  ⟨by decide,
    (C22_chaining_associative ⟨0, ⟨0, 0, 0, 0⟩⟩ ⟨0, ⟨0, 0, 0, 0⟩⟩ ⟨0, ⟨0, 0, 0, 0⟩⟩
      ⟨0, ⟨0, 0, 0, 0⟩⟩ InputSwizzlerMask.FullMask ⟨2, ⟨2, 3, 0, 0⟩⟩ ⟨1, ⟨1, 0, 0, 0⟩⟩
      (by decide) (by decide) (by decide)).2.2.2 rfl⟩

/-- C23. Mask chaining is not commutative: for the seeded register t0 the expression
`t0.zw.y` evaluates to the one-component mask w, and `t0.y.zw` evaluates to a mask of
two components, which is a different mask, whatever the local `out` held before. -/
theorem C23_chaining_not_commutative (out_init : Nat → InputSwizzlerMask) :
    expression initialState.context "t0.zw.y".data =
        .ok ⟨16, [⟨2, ⟨2, 3, 0, 0⟩⟩, ⟨1, ⟨1, 0, 0, 0⟩⟩]⟩ [] ∧
      expression initialState.context "t0.y.zw".data =
        .ok ⟨16, [⟨1, ⟨1, 0, 0, 0⟩⟩, ⟨2, ⟨2, 3, 0, 0⟩⟩]⟩ [] ∧
      ∃ a b,
        EvaluateExpression initialState.identifiers out_init
            ⟨16, [⟨2, ⟨2, 3, 0, 0⟩⟩, ⟨1, ⟨1, 0, 0, 0⟩⟩]⟩ = some a ∧
          EvaluateExpression initialState.identifiers out_init
            ⟨16, [⟨1, ⟨1, 0, 0, 0⟩⟩, ⟨2, ⟨2, 3, 0, 0⟩⟩]⟩ = some b ∧
          a.register_index = 16 ∧ b.register_index = 16 ∧
          a.mask.num_components = 1 ∧ a.mask.components.get 0 = InputSwizzlerMask.w ∧
          b.mask.num_components = 2 ∧ a.mask ≠ b.mask := by
  have hid : initialState.identifiers[16]? = some ⟨16, InputSwizzlerMask.FullMask⟩ := by
    rw [initialState_eq]
    decide!
  refine ⟨by rw [initialState_context]; decide!, by rw [initialState_context]; decide!,
    ⟨16, applySwizzleMask (out_init 1)
      (applySwizzleMask (out_init 0) InputSwizzlerMask.FullMask ⟨2, ⟨2, 3, 0, 0⟩⟩)
      ⟨1, ⟨1, 0, 0, 0⟩⟩⟩,
    ⟨16, applySwizzleMask (out_init 1)
      (applySwizzleMask (out_init 0) InputSwizzlerMask.FullMask ⟨1, ⟨1, 0, 0, 0⟩⟩)
      ⟨2, ⟨2, 3, 0, 0⟩⟩⟩,
    by simp only [EvaluateExpression, hid, applySwizzleMasks],
    by simp only [EvaluateExpression, hid, applySwizzleMasks],
    rfl, rfl, ?_, ?_, ?_, ?_⟩
  · exact applySwizzleMask_num _ _ _
  · show (applySwizzleMask (out_init 1)
      (applySwizzleMask (out_init 0) InputSwizzlerMask.FullMask ⟨2, ⟨2, 3, 0, 0⟩⟩)
      ⟨1, ⟨1, 0, 0, 0⟩⟩).components.get 0 = _
    rw [applySwizzleMask_get _ _ _ 0 (by decide), if_pos (by decide)]
    show (applySwizzleMask (out_init 0) InputSwizzlerMask.FullMask
      ⟨2, ⟨2, 3, 0, 0⟩⟩).components.get 1 = _
    rw [applySwizzleMask_get _ _ _ 1 (by decide), if_pos (by decide)]
    rfl
  · exact applySwizzleMask_num _ _ _
  · intro h
    have h1 := congrArg InputSwizzlerMask.num_components h
    have ha : (applySwizzleMask (out_init 1)
        (applySwizzleMask (out_init 0) InputSwizzlerMask.FullMask ⟨2, ⟨2, 3, 0, 0⟩⟩)
        ⟨1, ⟨1, 0, 0, 0⟩⟩).num_components = 1 := applySwizzleMask_num _ _ _
    have hb : (applySwizzleMask (out_init 1)
        (applySwizzleMask (out_init 0) InputSwizzlerMask.FullMask ⟨1, ⟨1, 0, 0, 0⟩⟩)
        ⟨2, ⟨2, 3, 0, 0⟩⟩).num_components = 2 := applySwizzleMask_num _ _ _
    simp only [ha, hb] at h1
    cases h1

theorem C23_chaining_not_commutative_witness :
    ∃ a b,
      EvaluateExpression initialState.identifiers (fun _ => ⟨0, ⟨0, 0, 0, 0⟩⟩)
          ⟨16, [⟨2, ⟨2, 3, 0, 0⟩⟩, ⟨1, ⟨1, 0, 0, 0⟩⟩]⟩ = some a ∧
        EvaluateExpression initialState.identifiers (fun _ => ⟨0, ⟨0, 0, 0, 0⟩⟩)
          ⟨16, [⟨1, ⟨1, 0, 0, 0⟩⟩, ⟨2, ⟨2, 3, 0, 0⟩⟩]⟩ = some b ∧
        a.mask.num_components = 1 ∧ a.mask.components.get 0 = 3 ∧ a.mask ≠ b.mask := by
  obtain ⟨a, b, h1, h2, _, _, h5, h6, _, h8⟩ :=
    (C23_chaining_not_commutative (fun _ => ⟨0, ⟨0, 0, 0, 0⟩⟩)).2.2
  exact ⟨a, b, h1, h2, h5, h6, h8⟩

/-- An encoding that succeeds has passed the arity check and the checks of the
register classes. -/
theorem encodeArithmetic_ok_legal (u : InputSwizzlerMask) (opcode : OpCode)
    (arg0 arg1 : Atomic) (rest : List Atomic) (result : Instruction × SwizzlePattern)
    (henc : encodeArithmetic u opcode (arg0 :: arg1 :: rest) = .ok result) :
    (GetInfo opcode).type = .Arithmetic ∧
      (arg0 :: arg1 :: rest).length = (GetInfo opcode).num_arguments ∧
      LegalRegisterClasses arg0 arg1 rest := by
  have hlen : (arg0 :: arg1 :: rest).length = (GetInfo opcode).num_arguments := by
    by_contra hne
    have hint : (((arg0 :: arg1 :: rest).length : Nat) : Int) ≠
        ((GetInfo opcode).num_arguments : Int) - 1 + 1 := by omega
    unfold encodeArithmetic at henc
    simp only [hint, ne_eq, not_false_eq_true, if_true] at henc
    cases henc
  have hty : (GetInfo opcode).type = .Arithmetic := by
    have h2 : 2 ≤ (GetInfo opcode).num_arguments := by
      rw [← hlen]
      simp
    cases opcode <;> first | rfl | (simp [GetInfo] at h2)
  have hw : Writeable arg0.GetType := by
    by_contra h
    rw [encodeArithmetic_not_writeable u opcode arg0 arg1 rest hlen h] at henc
    cases henc
  have hr1 : Readable arg1.GetType := by
    by_contra h
    have hout : arg1.GetType = .Output := by
      by_contra hne
      exact h ((readable_iff_ne_output _).mpr hne)
    rw [encodeArithmetic_not_readable u opcode arg0 arg1 rest hlen hw (Or.inl hout)] at henc
    cases henc
  refine ⟨hty, hlen, hw, hr1, ?_⟩
  intro arg2 harg2
  have hrest : ∃ rest1, rest = arg2 :: rest1 := by
    cases rest with
    | nil => simp at harg2
    | cons a rest1 =>
      simp only [List.head?_cons, Option.mem_def, Option.some.injEq] at harg2
      exact ⟨rest1, by rw [harg2]⟩
  obtain ⟨rest1, rfl⟩ := hrest
  have hr2 : Readable arg2.GetType := by
    by_contra h
    have hout : arg2.GetType = .Output := by
      by_contra hne
      exact h ((readable_iff_ne_output _).mpr hne)
    rw [encodeArithmetic_not_readable u opcode arg0 arg1 (arg2 :: rest1) hlen hw
      (Or.inr ⟨arg2, by simp, hout⟩)] at henc
    cases henc
  refine ⟨hr2, fun hboth => ?_⟩
  rw [encodeArithmetic_two_uniforms u opcode arg0 arg1 arg2 rest1 hlen hw hboth.1 hboth.2] at henc
  cases henc

/-- With one input no selector of the second source is set. -/
theorem buildSwizzlePattern_one (dest_mask : DestSwizzlerMask)
    (mask_src1 mask_src2 mask_src2b : SourceSwizzlerMask) :
    buildSwizzlePattern 1 dest_mask mask_src1 mask_src2 =
        buildSwizzlePattern 1 dest_mask mask_src1 mask_src2b ∧
      (buildSwizzlePattern 1 dest_mask mask_src1 mask_src2).selector_src2 = ⟨0, 0, 0, 0⟩ := by
  have hno : ¬ ((1 : Int) > 1) := by decide
  have hstep : ∀ (m2 : SourceSwizzlerMask),
      (fun (swizzle_pattern : SwizzlePattern) (i : Nat) =>
        let p1 :=
          if dest_mask.component_set.get i then swizzle_pattern.SetDestComponentEnabled i true
          else swizzle_pattern
        let p2 :=
          if mask_src1.components.get i ≠ SourceSwizzlerMask.Unspecified then
            p1.SetSelectorSrc1 i (mask_src1.components.get i)
          else p1
        if (1 : Int) > 1 ∧ m2.components.get i ≠ SourceSwizzlerMask.Unspecified then
          p2.SetSelectorSrc2 i (m2.components.get i)
        else p2) =
      (fun (swizzle_pattern : SwizzlePattern) (i : Nat) =>
        let p1 :=
          if dest_mask.component_set.get i then swizzle_pattern.SetDestComponentEnabled i true
          else swizzle_pattern
        if mask_src1.components.get i ≠ SourceSwizzlerMask.Unspecified then
          p1.SetSelectorSrc1 i (mask_src1.components.get i)
        else p1) := by
    intro m2
    funext swizzle_pattern i
    simp only [hno, false_and, if_false]
  have hinv : ∀ (l : List Nat) (init : SwizzlePattern),
      (l.foldl
        (fun (swizzle_pattern : SwizzlePattern) (i : Nat) =>
          let p1 :=
            if dest_mask.component_set.get i then swizzle_pattern.SetDestComponentEnabled i true
            else swizzle_pattern
          if mask_src1.components.get i ≠ SourceSwizzlerMask.Unspecified then
            p1.SetSelectorSrc1 i (mask_src1.components.get i)
          else p1)
        init).selector_src2 = init.selector_src2 := by
    intro l
    induction l with
    | nil => intro init; rfl
    | cons i l ih =>
      intro init
      rw [List.foldl_cons, ih]
      simp only
      split_ifs <;> rfl
  unfold buildSwizzlePattern
  rw [hstep mask_src2, hstep mask_src2b]
  exact ⟨rfl, hinv _ _⟩

/-- An argument list of the wrong length fails the arity check. -/
theorem encodeArithmetic_wrong_length (u : InputSwizzlerMask) (opcode : OpCode)
    (arguments : List Atomic) (h : arguments.length ≠ (GetInfo opcode).num_arguments) :
    encodeArithmetic u opcode arguments =
      .error (.IncorrectNumberOfArguments (((GetInfo opcode).num_arguments : Int) - 1 + 1)
        arguments.length) := by
  have hint : ((arguments.length : Nat) : Int) ≠ ((GetInfo opcode).num_arguments : Int) - 1 + 1 := by
    omega
  unfold encodeArithmetic
  simp only [hint, ne_eq, not_false_eq_true, if_true]

/-- The encoding of an instruction with one source does not depend on the content of
the local `input_mask_src2`. -/
theorem encodeArithmetic_one_source_any (u1 u2 : InputSwizzlerMask) (opcode : OpCode)
    (hop : GetInfo opcode = ⟨.Arithmetic, 2⟩) (arguments : List Atomic) :
    encodeArithmetic u1 opcode arguments = encodeArithmetic u2 opcode arguments := by
  by_cases hlen : arguments.length = (GetInfo opcode).num_arguments
  · have h2 : arguments.length = 2 := by rw [hlen, hop]
    match arguments, h2 with
    | [arg0, arg1], _ =>
      by_cases hw : Writeable arg0.GetType
      · by_cases hr : Readable arg1.GetType
        · rw [encodeArithmetic_one_source u1 opcode arg0 arg1 hop hw hr,
            encodeArithmetic_one_source u2 opcode arg0 arg1 hop hw hr,
            (buildSwizzlePattern_one _ _ _ (SourceSwizzlerMask.AccordingToDestMask u2
              (DestSwizzlerMask.ofInput arg0.mask))).1]
        · have hout : arg1.GetType = .Output := by
            by_contra hne
            exact hr ((readable_iff_ne_output _).mpr hne)
          rw [encodeArithmetic_not_readable u1 opcode arg0 arg1 [] hlen hw (Or.inl hout),
            encodeArithmetic_not_readable u2 opcode arg0 arg1 [] hlen hw (Or.inl hout)]
      · rw [encodeArithmetic_not_writeable u1 opcode arg0 arg1 [] hlen hw,
          encodeArithmetic_not_writeable u2 opcode arg0 arg1 [] hlen hw]
  · rw [encodeArithmetic_wrong_length u1 opcode arguments hlen,
      encodeArithmetic_wrong_length u2 opcode arguments hlen]

/-- C28. For an instruction with one source (mov, rcp, rsq) the result of the
arithmetic block, instruction word and swizzle pattern or the error, does not depend
on what the never-assigned local `input_mask_src2` holds: it is a function of the
opcode and of the destination and source references.  In an accepted instruction the
register field of the second source is left at zero and so is every selector of the
second source in the pattern.  So the step of the statement loop gives the same state
or error for every content of that local. -/
theorem C28_one_source_determinism (opcode : OpCode)
    (hop : opcode = .MOV ∨ opcode = .RCP ∨ opcode = .RSQ) :
    (∀ (u1 u2 : InputSwizzlerMask) (arguments : List Atomic),
      encodeArithmetic u1 opcode arguments = encodeArithmetic u2 opcode arguments) ∧
      (∀ (u : InputSwizzlerMask) (arguments : List Atomic) (shinst : Instruction)
        (p : SwizzlePattern), encodeArithmetic u opcode arguments = .ok (shinst, p) →
        ∃ arg0 arg1, arguments = [arg0, arg1] ∧
          shinst = ⟨opcode, some (arg0.GetType, arg0.GetIndex),
            some (arg1.GetType, arg1.GetIndex), none, 0⟩ ∧
          p.selector_src2 = ⟨0, 0, 0, 0⟩ ∧
          ∀ any : SourceSwizzlerMask,
            p = buildSwizzlePattern 1 (DestSwizzlerMask.ofInput arg0.mask)
              (SourceSwizzlerMask.AccordingToDestMask arg1.mask
                (DestSwizzlerMask.ofInput arg0.mask)) any) ∧
      (∀ (U1 U2 : Indeterminate) (s : AsmState) (args : List Expression), U1.out = U2.out →
        processInstruction U1 s opcode args = processInstruction U2 s opcode args) := by
  have hinfo : GetInfo opcode = ⟨.Arithmetic, 2⟩ := by
    rcases hop with rfl | rfl | rfl <;> rfl
  refine ⟨fun u1 u2 arguments => encodeArithmetic_one_source_any u1 u2 opcode hinfo arguments,
    ?_, ?_⟩
  · intro u arguments shinst p henc
    have hlen : arguments.length = (GetInfo opcode).num_arguments := by
      by_contra hne
      rw [encodeArithmetic_wrong_length u opcode arguments hne] at henc
      cases henc
    have h2 : arguments.length = 2 := by rw [hlen, hinfo]
    match arguments, h2, henc, hlen with
    | [arg0, arg1], _, henc, hlen =>
      obtain ⟨_, _, hw, hr, _⟩ := encodeArithmetic_ok_legal u opcode arg0 arg1 [] _ henc
      rw [encodeArithmetic_one_source u opcode arg0 arg1 hinfo hw hr] at henc
      by_cases hne : arg0.mask.num_components ≠ arg1.mask.num_components
      · rw [if_pos hne] at henc
        cases henc
      · rw [if_neg hne] at henc
        simp only [Except.ok.injEq, Prod.mk.injEq] at henc
        obtain ⟨h1, h2⟩ := henc
        refine ⟨arg0, arg1, rfl, h1.symm, ?_, fun any => ?_⟩
        · rw [← h2]
          exact (buildSwizzlePattern_one _ _ _ ⟨⟨0, 0, 0, 0⟩⟩).2
        · rw [← h2]
          exact (buildSwizzlePattern_one _ _ _ any).1
  · intro U1 U2 s args hout
    unfold processInstruction
    rw [hout]
    cases evaluateArguments s.identifiers U2.out 0 args with
    | none => rfl
    | some arguments =>
      simp only [encodeArithmetic_one_source_any U1.input_mask_src2 U2.input_mask_src2 opcode
        hinfo arguments]

theorem C28_one_source_determinism_witness :
    encodeArithmetic ⟨0, ⟨0, 0, 0, 0⟩⟩ .MOV
        [⟨128, ⟨2, ⟨2, 3, 0, 0⟩⟩⟩, ⟨16, ⟨2, ⟨0, 1, 0, 0⟩⟩⟩] =
      encodeArithmetic ⟨4, ⟨3, 2, 1, 0⟩⟩ .MOV
        [⟨128, ⟨2, ⟨2, 3, 0, 0⟩⟩⟩, ⟨16, ⟨2, ⟨0, 1, 0, 0⟩⟩⟩] ∧
      (encodeArithmetic ⟨4, ⟨3, 2, 1, 0⟩⟩ .MOV
        [⟨128, ⟨2, ⟨2, 3, 0, 0⟩⟩⟩, ⟨16, ⟨2, ⟨0, 1, 0, 0⟩⟩⟩]).toOption.isSome = true :=
  ⟨(C28_one_source_determinism .MOV (Or.inl rfl)).1 _ _ _, by decide⟩

theorem getElem?_prefix_left {α : Type} (l1 l2 : List α) (h : l1 <+: l2) (i : Nat)
    (hi : i < l1.length) : l2[i]? = l1[i]? := by
  obtain ⟨t, rfl⟩ := h
  exact List.getElem?_append_left hi

/-- Entries that records refer to stay where they are when the table grows at its
end. -/
theorem entries_preserved (records : List Instruction) (table1 table2 : List SwizzlePattern)
    (built : List SwizzlePattern) (hpre : table1 <+: table2)
    (h : records.map (fun record => table1[record.operand_desc_id]?) = built.map some) :
    (∀ record ∈ records, record.operand_desc_id < table1.length ∧
        table2[record.operand_desc_id]? = table1[record.operand_desc_id]?) ∧
      records.map (fun record => table2[record.operand_desc_id]?) = built.map some := by
  have hvalid : ∀ record ∈ records, record.operand_desc_id < table1.length := by
    intro record hmem
    have hin : table1[record.operand_desc_id]? ∈ built.map some := by
      rw [← h]
      exact List.mem_map.mpr ⟨record, hmem, rfl⟩
    obtain ⟨p, _, hp⟩ := List.mem_map.mp hin
    by_contra hge
    rw [List.getElem?_eq_none (by omega)] at hp
    cases hp
  have hsame : ∀ record ∈ records,
      table2[record.operand_desc_id]? = table1[record.operand_desc_id]? :=
    fun record hmem => getElem?_prefix_left table1 table2 hpre _ (hvalid record hmem)
  refine ⟨fun record hmem => ⟨hvalid record hmem, hsame record hmem⟩, ?_⟩
  rw [← h]
  exact List.map_congr_left hsame

/-- One statement keeps the records and the pattern table consistent, and only appends
to them. -/
theorem recordsConsistent_step (U : Indeterminate) (s s1 : AsmState) (statement : Statement)
    (built : List SwizzlePattern) (h : RecordsConsistent s built)
    (hok : processStatement U s statement = .ok s1) :
    RecordsConsistent s1 (built ++ (builtPattern U s statement).toList) ∧
      s.instructions <+: s1.instructions ∧ s.swizzle_patterns <+: s1.swizzle_patterns := by
  cases statement with
  | Label name =>
    obtain ⟨_, rfl⟩ := processLabel_ok_inv s s1 name hok
    simp only [builtPattern, Option.toList, List.append_nil]
    exact ⟨⟨h.offset_eq, h.table_size, h.entries⟩, List.prefix_refl _, List.prefix_refl _⟩
  | Declaration d =>
    obtain ⟨_, _, rfl⟩ := processDeclaration_ok_inv s s1 d hok
    simp only [builtPattern, Option.toList, List.append_nil]
    exact ⟨⟨h.offset_eq, h.table_size, h.entries⟩, List.prefix_refl _, List.prefix_refl _⟩
  | Instruction opcode args =>
    obtain ⟨arguments, shinst, p, pats, it, heval, _, henc, hadd, rfl⟩ :=
      processInstruction_ok_inv U s s1 opcode args hok
    obtain ⟨hit, _, hcases⟩ := addSwizzlePattern_ok s.swizzle_patterns pats p it hadd
    have hpre : s.swizzle_patterns <+: pats := by
      rcases hcases with ⟨_, rfl⟩ | ⟨_, rfl, _⟩
      · exact List.prefix_refl _
      · exact List.prefix_append _ _
    have hsize : pats.length ≤ 127 := by
      rcases hcases with ⟨_, rfl⟩ | ⟨_, _, hle⟩
      · exact h.table_size
      · exact hle
    have hbuilt : builtPattern U s (.Instruction opcode args) = some p := by
      simp only [builtPattern, heval, henc]
    refine ⟨⟨?_, hsize, ?_⟩, List.prefix_append _ _, hpre⟩
    · simp only [List.length_append, List.length_singleton, h.offset_eq]
    · simp only [hbuilt, Option.toList, List.map_append, List.map_cons, List.map_nil, hit,
        (entries_preserved s.instructions s.swizzle_patterns pats built hpre h.entries).2]

/-- A run keeps the records and the pattern table consistent, and only appends to
them. -/
theorem recordsConsistent_run (u : Nat → Indeterminate) (statements : List Statement) :
    ∀ (n : Nat) (s s1 : AsmState) (built : List SwizzlePattern), RecordsConsistent s built →
      processStatements u n s statements = .ok s1 →
      RecordsConsistent s1 (built ++ builtPatterns u n s statements) ∧
        s.instructions <+: s1.instructions ∧ s.swizzle_patterns <+: s1.swizzle_patterns := by
  induction statements with
  | nil =>
    intro n s s1 built h hok
    simp only [processStatements, Except.ok.injEq] at hok
    subst hok
    simp only [builtPatterns, List.append_nil]
    exact ⟨h, List.prefix_refl _, List.prefix_refl _⟩
  | cons statement rest ih =>
    intro n s s1 built h hok
    simp only [processStatements] at hok
    cases hstep : processStatement (u n) s statement with
    | error e => simp [hstep] at hok
    | ok s2 =>
      simp only [hstep] at hok
      obtain ⟨h2, hp1, hp2⟩ := recordsConsistent_step (u n) s s2 statement built h hstep
      obtain ⟨h3, hp3, hp4⟩ := ih (n + 1) s2 s1 _ h2 hok
      simp only [builtPatterns, hstep]
      rw [← List.append_assoc]
      exact ⟨h3, hp1.trans hp3, hp2.trans hp4⟩

/-- The run of a program is the run of its first part followed by the run of the
rest. -/
theorem processStatements_append (u : Nat → Indeterminate) (first later : List Statement) :
    ∀ (n : Nat) (s : AsmState),
      processStatements u n s (first ++ later) =
        match processStatements u n s first with
        | .error e => .error e
        | .ok mid => processStatements u (n + first.length) mid later := by
  induction first with
  | nil => intro n s; rfl
  | cons statement rest ih =>
    intro n s
    simp only [List.cons_append, processStatements, List.length_cons]
    cases processStatement (u n) s statement with
    | error e => rfl
    | ok s1 =>
      rw [show n + (rest.length + 1) = n + 1 + rest.length by omega]
      exact ih (n + 1) s1

theorem recordsConsistent_initialState : RecordsConsistent initialState [] := by
  have h1 : initialState.instructions = [] := by decide
  have h2 : initialState.swizzle_patterns = [] := by decide
  have h3 : initialState.program_write_offset = 0 := by decide
  exact ⟨by rw [h1, h3]; rfl, by rw [h2]; decide, by rw [h1]; rfl⟩

/-- C29. At every point of a run that has not failed the number of emitted records
equals the program offset counter, the pattern table has at most 127 entries, and the
operand_desc_id of every record is an index of the pattern table at which the table
holds the pattern built for that instruction.  Every earlier point of the run is such
a point too, and the records and the table of the earlier point are the beginning of
the later ones: later encodings neither change nor move the entry an earlier record
refers to. -/
theorem C29_records_and_patterns (u : Nat → Indeterminate) (statements : List Statement)
    (s : AsmState) (hrun : processStatements u 0 initialState statements = .ok s) :
    s.instructions.length = s.program_write_offset ∧
      s.swizzle_patterns.length ≤ 127 ∧
      (∀ record ∈ s.instructions, record.operand_desc_id < s.swizzle_patterns.length) ∧
      s.instructions.map (fun record => s.swizzle_patterns[record.operand_desc_id]?) =
        (builtPatterns u 0 initialState statements).map some ∧
      ∀ first later, statements = first ++ later →
        ∃ mid, processStatements u 0 initialState first = .ok mid ∧
          processStatements u first.length mid later = .ok s ∧
          mid.instructions <+: s.instructions ∧
          mid.swizzle_patterns <+: s.swizzle_patterns ∧
          (∀ record ∈ mid.instructions,
            record.operand_desc_id < mid.swizzle_patterns.length ∧
              s.swizzle_patterns[record.operand_desc_id]? =
                mid.swizzle_patterns[record.operand_desc_id]?) ∧
          mid.instructions.map (fun record => mid.swizzle_patterns[record.operand_desc_id]?) =
            (builtPatterns u 0 initialState first).map some := by
  obtain ⟨h, _, _⟩ := recordsConsistent_run u statements 0 initialState s []
    recordsConsistent_initialState hrun
  rw [List.nil_append] at h
  refine ⟨h.offset_eq, h.table_size, ?_, h.entries, ?_⟩
  · intro record hmem
    exact ((entries_preserved _ _ _ _ (List.prefix_refl _) h.entries).1 record hmem).1
  · intro first later hsplit
    subst hsplit
    rw [processStatements_append, Nat.zero_add] at hrun
    cases hfirst : processStatements u 0 initialState first with
    | error e => simp [hfirst] at hrun
    | ok mid =>
      simp only [hfirst] at hrun
      obtain ⟨hmid, _, _⟩ := recordsConsistent_run u first 0 initialState mid []
        recordsConsistent_initialState hfirst
      rw [List.nil_append] at hmid
      obtain ⟨_, hp1, hp2⟩ := recordsConsistent_run u later first.length mid s _ hmid hrun
      exact ⟨mid, rfl, hrun, hp1, hp2,
        (entries_preserved _ _ _ _ hp2 hmid.entries).1, hmid.entries⟩

theorem C29_records_and_patterns_witness :
    ∃ s, processStatements (fun _ => U0) 0 initialState sampleProgram = .ok s ∧
      s.instructions.length = s.program_write_offset ∧
      s.instructions.map (fun record => s.swizzle_patterns[record.operand_desc_id]?) =
        (builtPatterns (fun _ => U0) 0 initialState sampleProgram).map some := by
  obtain ⟨s, _, hrun, _⟩ := sampleProgram_assembles
  have h := C29_records_and_patterns (fun _ => U0) sampleProgram s hrun
  exact ⟨s, hrun, h.1, h.2.2.2.1⟩

end Nihstro
